import Mathlib

/-!
# Fractal explorer: tiles, the stop / mutate / resume protocol and the pixel evaluators

A shallow embedding of `fractal_explorer.cpp`, `mandelbrot.h`, `window.h` and the
buffer helpers of `main.cpp`.

Modelling conventions.

* `f64` / `f32` quantities are exact rationals (`ℚ`); every statement about the
  viewport is therefore a statement in exact arithmetic.  A quotient by zero is an
  infinity or a NaN in `f64` and not a rational: theorems about quotients by an extent
  assume the extent positive, and `initialize`, which runs for a window of any extent,
  takes such a quotient from an `Indet` value (`divF64`).
* `i32` quantities are unbounded integers (`ℤ`).  The two agree as long as no
  intermediate result leaves the `i32` range; theorems that depend on this say so
  through `InI32`.
* A pixel buffer is the list of its `u32` cells in row-major order together with
  its `i32` extent.  A write outside the list is dropped (the memory outside an
  allocation is not part of the modelled state); what a read outside the list, or a
  read of a cell that was never written, returns is supplied from outside by an
  `Indet` value, so that nothing can be proved from it.
* The coordinator is modelled sequentially: worker threads appear only through the
  counter `finished`.  The blocking wait of `stopDrawing` is modelled by `Option`:
  `none` means the caller stays blocked until some worker makes progress.
* The pixel evaluators take the palette table and the logarithmic smoothing term from
  a `Shading` value; everything else they compute is rational arithmetic.  The
  conversion of the smoothed count to a `u32` palette index is defined for counts in
  `[0, 2 ^ 32)`, and theorems about the colour of an escaping pixel say so; outside
  that range `toU32` gives the value the compiled conversion gives.
* Definitions that follow the words of the specification rather than the source are
  named for what they are (`referenceGrid`, `mandelbrotOrbit`, `juliaOrbit`,
  `IsLeastStop`) and occur only in comparisons with the embedding of the source.
  `doWorkUnitLogged` is `doWorkUnit` together with a log of its calls of the evaluator.
-/

/-- Pair of `f64` coordinates (`Vec2<f64>`), in exact arithmetic. -/
structure Vec2 where
  x : ℚ
  y : ℚ
  deriving DecidableEq, Repr

/-- Pair of `i32` coordinates (`Vec2<i32>`). -/
structure Vec2i where
  x : Int
  y : Int
  deriving DecidableEq, Repr

/-- Pixel buffer of `window.h`: `struct Buffer { u32 *data; i32 width; i32 height; }`. -/
structure Buffer where
  data : List Nat
  width : Int
  height : Int
  deriving DecidableEq, Repr

/-- Values the C++ program leaves indeterminate, or that no rational stands for: the
content of freshly allocated storage, by cell index, the value produced by a read
outside an allocation, and the result of an `f64` division by zero (an infinity or a
NaN). -/
structure Indet where
  fresh : Nat → Nat
  stray : Int → Nat
  nonfinite : ℚ

/-- Tile of the canvas: `struct WorkUnit { i32 min_x, max_x, min_y, max_y; }`. -/
structure WorkUnit where
  min_x : Int
  max_x : Int
  min_y : Int
  max_y : Int
  deriving DecidableEq, Repr

/-- Which member function `computePixel` points to. -/
inductive PixelKind where
  | mandelbrot
  | julia
  deriving DecidableEq, Repr

/-- Data members of `class FractalExplorer` that the coordinator reads or writes.
`finished` is the number of workers between their `++finished` and `--finished`. -/
structure FractalExplorer where
  computePixel : PixelKind
  canvas : Buffer
  max_iterations : Nat
  stop_drawing : Bool
  zoom_level : ℚ
  c : Vec2
  offset : Vec2
  fractal_size : Vec2
  work_units : List WorkUnit
  finished : Int
  work_available : Bool
  alive : Bool
  deriving DecidableEq, Repr

/-- Range of a signed 32-bit integer. -/
def InI32 (z : Int) : Prop := -2147483648 ≤ z ∧ z ≤ 2147483647

instance (z : Int) : Decidable (InI32 z) := by
  unfold InI32
  exact inferInstance

/-- Conversion of a floating-point value to an integer type: truncation toward zero. -/
def truncQ (q : ℚ) : Int := Int.tdiv q.num q.den

/-- Template `sqr` of `extramath.h`. -/
def sqr (v : ℚ) : ℚ := v * v

/-- Function `lengthSquared` of `extramath.h`; `length` is its square root, which is
zero exactly when `lengthSquared` is. -/
def lengthSquared (v : Vec2) : ℚ := sqr v.x + sqr v.y

namespace Vec2

/-- Componentwise `operator+`. -/
def add (a b : Vec2) : Vec2 := ⟨a.x + b.x, a.y + b.y⟩

/-- Componentwise `operator-`. -/
def sub (a b : Vec2) : Vec2 := ⟨a.x - b.x, a.y - b.y⟩

/-- Division by a scalar, `operator/=`. -/
def divScalar (a : Vec2) (k : ℚ) : Vec2 := ⟨a.x / k, a.y / k⟩

end Vec2

namespace WorkUnit

/-- Pixel `(x, y)` lies in the half-open rectangle
`[min_x, max_x) x [min_y, max_y)` that `doWorkUnit` iterates over. -/
def contains (t : WorkUnit) (x y : Int) : Bool :=
  decide (t.min_x ≤ x) && decide (x < t.max_x) && decide (t.min_y ≤ y) && decide (y < t.max_y)

end WorkUnit

namespace Buffer

/-- Function `initBuffer`: `new u32[width * height]`, whose cells are indeterminate. -/
def initBuffer (m : Indet) (width height : Int) : Buffer :=
  ⟨(List.range (width * height).toNat).map m.fresh, width, height⟩

/-- Read of `b->data[i]`. -/
def read (m : Indet) (b : Buffer) (i : Int) : Nat :=
  if 0 ≤ i ∧ i.toNat < b.data.length then b.data.getD i.toNat 0 else m.stray i

/-- Assignment `b->data[i] = v`. -/
def write (b : Buffer) (i : Int) (v : Nat) : Buffer :=
  if 0 ≤ i then { b with data := b.data.set i.toNat v } else b

/-- Pixel of the buffer at column `x`, row `y`, when `(x, y)` is inside its extent. -/
def pixel (b : Buffer) (x y : Int) : Option Nat :=
  if 0 ≤ x ∧ x < b.width ∧ 0 ≤ y ∧ y < b.height then b.data.get? (y * b.width + x).toNat
  else none

end Buffer

namespace FractalExplorer

/-- Tile edge computed at the top of `generateFullWorkUnits`:
`max(50, min(canvas->width, canvas->height) / 10)`. -/
def tileStep (width height : Int) : Int := max 50 (Int.tdiv (min width height) 10)

/-- Inner loop of `generateFullWorkUnits`,
`for (x = x0; x < width; x += step) work_units.push_back(...)`, on row `y`.
The loop runs at most `fuel` times; see `generateFullWorkUnits` for the bound. -/
def generateRow (step width height y : Int) : Nat → Int → List WorkUnit → List WorkUnit
  | 0, _, q => q
  | fuel + 1, x, q =>
    if x < width then
      generateRow step width height y fuel (x + step)
        (q ++ [⟨x, min (x + step) width, y, min (y + step) height⟩])
    else q

/-- Outer loop of `generateFullWorkUnits`, `for (y = y0; y < height; y += step)`. -/
def generateRows (step width height : Int) : Nat → Int → List WorkUnit → List WorkUnit
  | 0, _, q => q
  | fuel + 1, y, q =>
    if y < height then
      generateRows step width height fuel (y + step)
        (generateRow step width height y width.toNat 0 q)
    else q

/-- Method `generateFullWorkUnits`: appends the tiles of the current canvas extent to
`work_units`.  As `step ≥ 50`, the loop variable grows by at least one per iteration, so
the inner loop leaves after at most `width` and the outer after at most `height`
iterations: the fuel is never what ends a loop (`generateRow_fuel`,
`generateRows_fuel`). -/
def generateFullWorkUnits (s : FractalExplorer) : FractalExplorer :=
  let step := tileStep s.canvas.width s.canvas.height
  { s with work_units :=
      generateRows step s.canvas.width s.canvas.height s.canvas.height.toNat 0 s.work_units }

/-- Counted loop `for (i32 i = 0; i < n; ++i) body`, threading the state `init`. -/
def forRange {σ : Type} (n : Int) (body : Int → σ → σ) (init : σ) : σ :=
  (List.range n.toNat).foldl (fun st i => body (i : Int) st) init

/-- Library call `memcpy(dst, src, n * sizeof(u32))` on cell lists. -/
def memcpy (dst src : List Nat) (n : Nat) : List Nat := src.take n ++ dst.drop n

/-- Inline method `screenToFractal` of `mandelbrot.h`. -/
def screenToFractal (s : FractalExplorer) (p : Vec2) : Vec2 :=
  ⟨p.x * (s.fractal_size.x / (s.canvas.width : ℚ)) + s.offset.x,
   ((s.canvas.height : ℚ) - p.y) * (s.fractal_size.y / (s.canvas.height : ℚ)) + s.offset.y⟩

/-- Method `stopDrawing`.  The three assignments are followed by the wait on
`all_stopped_condition` with predicate `finished <= 0`; the call returns exactly when
the predicate holds. -/
def stopDrawing (s : FractalExplorer) : Option FractalExplorer :=
  let s1 := { s with stop_drawing := true }
  let s2 := { s1 with work_units := [] }
  let s3 := { s2 with work_available := false }
  if s3.finished ≤ 0 then some s3 else none

/-- Method `startDrawing`: clears `stop_drawing`, sets `work_available` (the
`notify_all` has no effect on the modelled state). -/
def startDrawing (s : FractalExplorer) : FractalExplorer :=
  let s1 := { s with stop_drawing := false }
  { s1 with work_available := true }

/-- Statements of an operation of the coordinator, in program order.  A statement that
blocks yields `none`. -/
abbrev Step := FractalExplorer → Option FractalExplorer

/-- Executes statements in program order. -/
def runSteps : List Step → FractalExplorer → Option FractalExplorer
  | [], s => some s
  | f :: fs, s => (f s).bind (runSteps fs)

/-- Lines 69 to 83 of `resizeCanvas`: allocation of the new canvas, the copy loop and
the replacement of `canvas`. -/
def resizeCopy (m : Indet) (size : Vec2i) (s : FractalExplorer) : FractalExplorer :=
  let newcanvas := Buffer.initBuffer m size.x size.y
  let newcanvas := forRange size.y (fun y nc =>
    forRange size.x (fun x nc =>
      if x < s.canvas.width ∧ y < s.canvas.height then
        nc.write (y * size.x + x) (s.canvas.read m (y * s.canvas.width + x))
      else
        nc.write (y * size.x + x) 0) nc) newcanvas
  { s with canvas := newcanvas }

/-- Lines 89 to 95 of `resizeCanvas`: the new `fractal_size`. -/
def resizeFractalSize (size : Vec2i) (s : FractalExplorer) : FractalExplorer :=
  if size.x < size.y then
    { s with fractal_size :=
        ⟨4 / s.zoom_level, (4 / (size.x : ℚ) * (size.y : ℚ)) / s.zoom_level⟩ }
  else
    { s with fractal_size :=
        ⟨(4 / (size.y : ℚ) * (size.x : ℚ)) / s.zoom_level, 4 / s.zoom_level⟩ }

/-- Statements of `resizeCanvas`. -/
def resizeCanvasSteps (m : Indet) (size : Vec2i) : List Step :=
  [stopDrawing,
   fun s => some (resizeCopy m size s),
   fun s => some (resizeFractalSize size s),
   fun s => some (generateFullWorkUnits s),
   fun s => some (startDrawing s)]

/-- Method `resizeCanvas`. -/
def resizeCanvas (m : Indet) (size : Vec2i) (s : FractalExplorer) : Option FractalExplorer :=
  runSteps (resizeCanvasSteps m size) s

/-- Target index of the shift loop of `pan` (lines 107 to 110) for source pixel
`(x, y)`. -/
def panWorkIndex (delta : Vec2) (width height x y : Int) : Int :=
  max 0 (min ((y + Rat.floor delta.y) * width + (x + Rat.floor delta.x)) (width * height))

/-- Lines 103 to 115 of `pan`: the work buffer, the shift loop and the `memcpy` back
into the canvas. -/
def panShift (m : Indet) (delta : Vec2) (s : FractalExplorer) : FractalExplorer :=
  let work := Buffer.initBuffer m s.canvas.width s.canvas.height
  let work := forRange s.canvas.height (fun y wk =>
    forRange s.canvas.width (fun x wk =>
      let canvas_index := y * s.canvas.width + x
      let work_index := panWorkIndex delta work.width work.height x y
      wk.write work_index (s.canvas.read m canvas_index)) wk) work
  { s with canvas :=
      { s.canvas with
        data := memcpy s.canvas.data work.data (s.canvas.height * s.canvas.width).toNat } }

/-- Lines 117 to 119 of `pan`: the translation of `offset`. -/
def panOffset (delta : Vec2) (s : FractalExplorer) : FractalExplorer :=
  let dx := delta.x * (s.fractal_size.x / (s.canvas.width : ℚ))
  let dy := -1 * delta.y * (s.fractal_size.y / (s.canvas.height : ℚ))
  { s with offset := s.offset.sub ⟨dx, dy⟩ }

/-- Statements of `pan` after the early return. -/
def panSteps (m : Indet) (delta : Vec2) : List Step :=
  [stopDrawing,
   fun s => some (panShift m delta s),
   fun s => some (panOffset delta s),
   fun s => some (generateFullWorkUnits s),
   fun s => some (startDrawing s)]

/-- Method `pan`.  The guard `length(delta) == 0` is tested on `lengthSquared`. -/
def pan (m : Indet) (delta : Vec2) (s : FractalExplorer) : Option FractalExplorer :=
  if lengthSquared delta = 0 then some s else runSteps (panSteps m delta) s

/-- Conversion of a floating-point value to `u32`: the value is truncated towards zero.
C++ defines the conversion only when the truncated value lies in `[0, 2 ^ 32)`.  Outside
that range the function gives what the instruction emitted for the conversion on x86-64
gives: the truncation to a signed 64-bit integer reduced modulo `2 ^ 32` (so `-2`
becomes `4294967294`), and 0 when the value does not fit 64 bits. -/
def toU32 (q : ℚ) : Nat :=
  if -9223372036854775808 ≤ truncQ q ∧ truncQ q < 9223372036854775808 then
    (truncQ q % 4294967296).toNat
  else 0

/-- One pixel of the magnified image in `zoomBufferInterpolate` (lines 123 to 154 of
`main.cpp`): bilinear interpolation of the three colour channels of the four source
pixels around `(x / zoom, y / zoom)`. -/
def interpolatePixel (m : Indet) (b : Buffer) (zoom : ℚ) (x y : Int) : Nat :=
  let original_x : ℚ := (x : ℚ) / zoom
  let original_y : ℚ := (y : ℚ) / zoom
  let x1 := truncQ original_x
  let y1 := truncQ original_y
  let x2 := min (x1 + 1) (b.width - 1)
  let y2 := min (y1 + 1) (b.height - 1)
  let x_frac : ℚ := original_x - (x1 : ℚ)
  let y_frac : ℚ := original_y - (y1 : ℚ)
  let p11 := b.read m (y1 * b.width + x1)
  let p12 := b.read m (y2 * b.width + x1)
  let p21 := b.read m (y1 * b.width + x2)
  let p22 := b.read m (y2 * b.width + x2)
  let chan (p mask shift : Nat) : ℚ := (((p &&& mask) >>> shift : Nat) : ℚ)
  let mix (mask shift : Nat) : Nat :=
    let top := (1 - x_frac) * chan p11 mask shift + x_frac * chan p21 mask shift
    let bottom := (1 - x_frac) * chan p12 mask shift + x_frac * chan p22 mask shift
    toU32 ((1 - y_frac) * top + y_frac * bottom)
  let r := mix 0xff0000 16
  let g := mix 0x00ff00 8
  let bl := mix 0x0000ff 0
  ((0xff <<< 24) ||| (r <<< 16) ||| (g <<< 8) ||| (bl <<< 0)) % 4294967296

/-- Function `zoomBufferInterpolate` of `main.cpp`: fills a work buffer with the canvas
magnified by `zoom`, then copies the window around the magnified focus back into the
canvas.  Both loops of the copy run to `b->height`, as in the source. -/
def zoomBufferInterpolate (m : Indet) (b : Buffer) (focus_x focus_y : Int) (zoom : ℚ) :
    Buffer :=
  let new_width := truncQ ((b.width : ℚ) * zoom)
  let new_height := truncQ ((b.height : ℚ) * zoom)
  let work := Buffer.initBuffer m new_width new_height
  let work := forRange new_height (fun y wk =>
    forRange new_width (fun x wk =>
      wk.write (y * new_width + x) (interpolatePixel m b zoom x y)) wk) work
  let new_focus_x := truncQ ((focus_x : ℚ) * zoom)
  let new_focus_y := truncQ ((focus_y : ℚ) * zoom)
  forRange b.height (fun y bb =>
    forRange b.height (fun x bb =>
      let hex := work.read m ((y + new_focus_y - focus_y) * new_width + x
        + (new_focus_x - focus_x))
      bb.write (y * b.width + x) hex) bb) b

/-- Lines 126 to 130 of `zoom`: the point under the focus is recorded, `zoom_level` and
`fractal_size` are rescaled, and `offset` is moved by the displacement of that point. -/
def zoomViewport (focus : Vec2) (amount : ℚ) (s : FractalExplorer) : FractalExplorer :=
  let focus_drawing := s.screenToFractal focus
  let s1 := { s with zoom_level := s.zoom_level * amount }
  let s2 := { s1 with fractal_size := s1.fractal_size.divScalar amount }
  let new_focus_drawing := s2.screenToFractal focus
  { s2 with offset := s2.offset.add (focus_drawing.sub new_focus_drawing) }

/-- Line 131 of `zoom`: the preview, applied only when `amount > 1.0`. -/
def zoomCanvas (m : Indet) (focus : Vec2) (amount : ℚ) (s : FractalExplorer) :
    FractalExplorer :=
  if amount > 1 then
    { s with canvas := zoomBufferInterpolate m s.canvas (truncQ focus.x) (truncQ focus.y) amount }
  else s

/-- Statements of `zoom`. -/
def zoomSteps (m : Indet) (focus : Vec2) (amount : ℚ) : List Step :=
  [stopDrawing,
   fun s => some (zoomViewport focus amount s),
   fun s => some (zoomCanvas m focus amount s),
   fun s => some (generateFullWorkUnits s),
   fun s => some (startDrawing s)]

/-- Method `zoom`. -/
def zoom (m : Indet) (focus : Vec2) (amount : ℚ) (s : FractalExplorer) :
    Option FractalExplorer :=
  runSteps (zoomSteps m focus amount) s

/-- Part of the state that workers read and write while drawing: the canvas (pixels
and extent) and the viewport. -/
def view (s : FractalExplorer) : Buffer × Vec2 × Vec2 × ℚ :=
  (s.canvas, s.offset, s.fractal_size, s.zoom_level)

/-- Every statement that changes the canvas or the viewport comes strictly after the
first statement and strictly before the last one, and starts in a state in which
`work_available` is false and the work queue is empty. -/
def MutatesOnlyDrained (steps : List Step) : Prop :=
  ∀ (s a b : FractalExplorer) (i : Nat),
    runSteps (steps.take i) s = some a →
    runSteps (steps.take (i + 1)) s = some b →
    view b ≠ view a →
    0 < i ∧ i + 1 < steps.length ∧ a.work_available = false ∧ a.work_units = []

/-- Every pixel of the canvas lies in exactly one tile of the queue, and no tile of the
queue contains a point outside the canvas. -/
def TilesPartitionCanvas (s : FractalExplorer) : Prop :=
  (∀ x y : Int, 0 ≤ x → x < s.canvas.width → 0 ≤ y → y < s.canvas.height →
      s.work_units.countP (fun t => t.contains x y) = 1) ∧
  (∀ t ∈ s.work_units, ∀ x y : Int, t.contains x y = true →
      0 ≤ x ∧ x < s.canvas.width ∧ 0 ≤ y ∧ y < s.canvas.height)

/-- A 60 x 2 canvas with the viewport `initialize` gives it, all workers idle and an
empty queue. -/
def sampleDrained : FractalExplorer :=
  { computePixel := PixelKind.mandelbrot
    canvas := ⟨List.replicate 120 0, 60, 2⟩
    max_iterations := 1000
    stop_drawing := true
    zoom_level := 1
    c := ⟨0, 0⟩
    offset := ⟨-2, -2⟩
    fractal_size := ⟨120, 4⟩
    work_units := []
    finished := 0
    work_available := false
    alive := true }

/-- The state `sampleDrained` while drawing: one tile queued, three workers active. -/
def sampleDrawing : FractalExplorer :=
  { sampleDrained with
    stop_drawing := false
    work_units := [⟨50, 60, 0, 2⟩]
    finished := 3
    work_available := true }

/-- The state `sampleDrawing` once every worker has gone idle. -/
def sampleIdle : FractalExplorer := { sampleDrawing with finished := 0 }

/-- The state `sampleIdle` after the three assignments of `stopDrawing`. -/
def sampleStopped : FractalExplorer :=
  { sampleIdle with stop_drawing := true, work_units := [], work_available := false }

/-- Source of indeterminate values used in examples. -/
def sampleIndet : Indet := ⟨fun i => 7 + i, fun _ => 9, 0⟩

end FractalExplorer

/-! ## Pixel evaluators, tiles at work and construction -/

/-- Colour of `window.h`: `struct Color { float r, g, b; }`, in exact arithmetic. -/
structure Color where
  r : ℚ
  g : ℚ
  b : ℚ
  deriving DecidableEq, Repr

/-- Constant `BLACK` of `window.h`. -/
def BLACK : Color := ⟨0, 0, 0⟩

/-- Function `getColorHex` of `window.h`: alpha `0xff` and the three channels scaled to
a byte position each, in `u32` arithmetic. -/
def getColorHex (color : Color) : Nat :=
  ((0xff <<< 24) % 4294967296) |||
  ((FractalExplorer.toU32 (color.r * 255) <<< 16) % 4294967296) |||
  ((FractalExplorer.toU32 (color.g * 255) <<< 8) % 4294967296) |||
  ((FractalExplorer.toU32 (color.b * 255) <<< 0) % 4294967296)

/-- What the pixel evaluators take from outside the embedding: the table `palette`
that `generatePalette` fills from floating-point HSV values, and the value
`log(log(m) / 2 / log(2)) / log(2)` that the smoothing computes from the squared
magnitude `m` of the last iterate, which is not a rational function of `m`. -/
structure Shading where
  palette : Nat → Color
  nu : ℚ → ℚ

/-- Constant `palette_size` of `main.cpp`. -/
def palette_size : Nat := 200

/-- Function `getPaletteColor` of `main.cpp`: `palette[i % palette_size]`. -/
def getPaletteColor (sh : Shading) (i : Nat) : Color := sh.palette (i % palette_size)

/-- Lines 242 to 253 and 272 to 283 of `fractal_explorer.cpp`, the same in both
evaluators: the smoothed count `iteration + 1 - nu` and the blend of the two palette
entries around it.  `m` is `v.x * v.x + v.y * v.y` for the last iterate. -/
def smoothColor (sh : Shading) (iteration : Nat) (m : ℚ) : Color :=
  let k : ℚ := (iteration : ℚ) + 1 - sh.nu m
  let c2 := getPaletteColor sh (FractalExplorer.toU32 ((Rat.floor k : Int) : ℚ))
  let c1 := getPaletteColor sh (FractalExplorer.toU32 (((Rat.floor k : Int) : ℚ) + 1))
  let frac : ℚ := k - ((Rat.floor k : Int) : ℚ)
  ⟨frac * c1.r + (1 - frac) * c2.r,
   frac * c1.g + (1 - frac) * c2.g,
   frac * c1.b + (1 - frac) * c2.b⟩

/-- Local variables of the loop of `computeMandlebrotPixel`. -/
structure MandelbrotVars where
  v : Vec2
  x2 : ℚ
  y2 : ℚ
  iteration : Nat
  deriving DecidableEq, Repr

/-- Local variables of the loop of `computeJuliaPixel`. -/
structure JuliaVars where
  z : Vec2
  iteration : Nat
  deriving DecidableEq, Repr

/-- Loop of `computeMandlebrotPixel` (lines 233 to 239).  Each pass adds one to
`iteration` and the loop stops at `max_iterations`, so `max_iterations` passes of fuel
are never used up before the loop condition fails. -/
def mandelbrotLoop (v0 : Vec2) (max_iterations : Nat) : Nat → MandelbrotVars → MandelbrotVars
  | 0, st => st
  | fuel + 1, st =>
    if st.x2 + st.y2 ≤ 65536 ∧ st.iteration < max_iterations then
      let vy := (st.v.x + st.v.x) * st.v.y + v0.y
      let vx := st.x2 - st.y2 + v0.x
      mandelbrotLoop v0 max_iterations fuel ⟨⟨vx, vy⟩, sqr vx, sqr vy, st.iteration + 1⟩
    else st

/-- Loop of `computeJuliaPixel` (lines 264 to 269), with `R * R = 10000`. -/
def juliaLoop (c : Vec2) (max_iterations : Nat) : Nat → JuliaVars → JuliaVars
  | 0, st => st
  | fuel + 1, st =>
    if st.z.x * st.z.x + st.z.y * st.z.y < 100 * 100 ∧ st.iteration < max_iterations then
      let xtemp := st.z.x * st.z.x - st.z.y * st.z.y
      let zy := 2 * st.z.x * st.z.y + c.y
      let zx := xtemp + c.x
      juliaLoop c max_iterations fuel ⟨⟨zx, zy⟩, st.iteration + 1⟩
    else st

namespace FractalExplorer

/-- State of the loop of `computeMandlebrotPixel` when it is left, for pixel
`(px, py)`. -/
def mandelbrotEscape (s : FractalExplorer) (px py : Int) : MandelbrotVars :=
  let v0 := s.screenToFractal ⟨(px : ℚ), (py : ℚ)⟩
  mandelbrotLoop v0 s.max_iterations s.max_iterations ⟨⟨0, 0⟩, 0, 0, 0⟩

/-- Method `computeMandlebrotPixel`. -/
def computeMandlebrotPixel (sh : Shading) (s : FractalExplorer) (px py : Int) : Color :=
  let st := s.mandelbrotEscape px py
  if st.iteration < s.max_iterations then
    smoothColor sh st.iteration (st.v.x * st.v.x + st.v.y * st.v.y)
  else ⟨0, 0, 0⟩

/-- State of the loop of `computeJuliaPixel` when it is left, for pixel `(px, py)`. -/
def juliaEscape (s : FractalExplorer) (px py : Int) : JuliaVars :=
  let z := s.screenToFractal ⟨(px : ℚ), (py : ℚ)⟩
  juliaLoop s.c s.max_iterations s.max_iterations ⟨z, 0⟩

/-- Method `computeJuliaPixel`. -/
def computeJuliaPixel (sh : Shading) (s : FractalExplorer) (px py : Int) : Color :=
  let st := s.juliaEscape px py
  if st.iteration < s.max_iterations then
    smoothColor sh st.iteration (st.z.x * st.z.x + st.z.y * st.z.y)
  else ⟨0, 0, 0⟩

/-- Call through the member pointer `computePixel`. -/
def computePixelAt (sh : Shading) (s : FractalExplorer) (px py : Int) : Color :=
  match s.computePixel with
  | PixelKind.mandelbrot => s.computeMandlebrotPixel sh px py
  | PixelKind.julia => s.computeJuliaPixel sh px py

/-- Function `fillPixel` of `window.h`. -/
def fillPixel (buf : Buffer) (x y : Int) (color : Color) : Buffer :=
  buf.write (y * buf.width + x) (getColorHex color)

/-- Function `fillBuffer` of `main.cpp`. -/
def fillBuffer (buf : Buffer) (color : Color) : Buffer :=
  forRange (buf.width * buf.height) (fun i b => b.write i (getColorHex color)) buf

/-- Method `doWorkUnit`.  The first pair of loops evaluates every pixel of the tile
into a work buffer; the second copies the work buffer into the canvas and tests
`stop_drawing` before every row and every pixel.  The flag does not change during a
call in the sequential model, so leaving a loop and skipping the rest of its passes are
the same. -/
def doWorkUnit (m : Indet) (sh : Shading) (w : WorkUnit) (s : FractalExplorer) :
    FractalExplorer :=
  let draw_width := w.max_x - w.min_x
  let draw_height := w.max_y - w.min_y
  let work_buffer := Buffer.initBuffer m draw_width draw_height
  let work_buffer := forRange draw_height (fun y wb =>
    forRange draw_width (fun x wb =>
      fillPixel wb x y (s.computePixelAt sh (x + w.min_x) (y + w.min_y))) wb) work_buffer
  let canvas := forRange draw_height (fun y cv =>
    if s.stop_drawing then cv else
      forRange draw_width (fun x cv =>
        if s.stop_drawing then cv else
          let hex := work_buffer.read m (y * draw_width + x)
          cv.write (x + w.min_x + (y + w.min_y) * s.canvas.width) hex) cv) s.canvas
  { s with canvas := canvas }

/-- Constant `N_THREAD` of `mandelbrot.h`. -/
def N_THREAD : Nat := 16

/-- Result of a constructor of `FractalExplorer`: the object and the number of worker
threads it has started. -/
structure Constructed where
  explorer : FractalExplorer
  threads : Nat

/-- Quotient `a / b` of `f64` values in `initialize`.  For `b = 0` the `f64` quotient is
an infinity or a NaN, and so is every product with it; no rational stands for these,
and the value is taken from `m`, so that nothing can be proved from it. -/
def divF64 (m : Indet) (a b : ℚ) : ℚ := if b = 0 then m.nonfinite else a / b

/-- Method `initialize` for a window of extent `size`, run by both constructors on an
object whose members have their default initialisers (`max_iterations = 1000`,
`stop_drawing = false`, `finished = 0`, `work_available = false`, `alive = true`, empty
`work_units`).  `kind` and `c` are what the constructor stores before the call; the
constructor for the Mandelbrot variant leaves `c` indeterminate.  No statement of
either constructor or of `initialize` inspects `size`: `fractal_size` is computed by a
division by the smaller of the two extents, whatever it is. -/
def initializeExplorer (m : Indet) (kind : PixelKind) (c : Vec2) (size : Vec2i) :
    Constructed :=
  let canvas := Buffer.initBuffer m size.x size.y
  let canvas := fillBuffer canvas BLACK
  let fractal_size : Vec2 :=
    if size.x < size.y then ⟨4, divF64 m 4 (size.x : ℚ) * (size.y : ℚ)⟩
    else ⟨divF64 m 4 (size.y : ℚ) * (size.x : ℚ), 4⟩
  let s : FractalExplorer :=
    { computePixel := kind
      canvas := canvas
      max_iterations := 1000
      stop_drawing := false
      zoom_level := 1
      c := c
      offset := ⟨-2, -2⟩
      fractal_size := fractal_size
      work_units := []
      finished := 0
      work_available := false
      alive := true }
  ⟨startDrawing (generateFullWorkUnits s), N_THREAD⟩

/-- Constructors `FractalExplorer(Window *w)` and
`FractalExplorer(Window *w, Vec2<f64> julia_param)` for a window of extent `size`.
Neither constructor nor `initialize` tests `size`.  The one way construction can fail is
the array allocation `new u32[width * height]` in `initBuffer`, the first statement of
`initialize`, which throws when the product is negative; `none` stands for that
exception.  The product is formed in `ℤ`; it is the `i32` product of the source when it
lies in the `i32` range (`InI32`). -/
def construct (m : Indet) (kind : PixelKind) (c : Vec2) (size : Vec2i) :
    Option Constructed :=
  if size.x * size.y < 0 then none else some (initializeExplorer m kind c size)

/-- The cell list of the buffer has one cell per pixel of a non-negative extent. -/
def WellFormed (b : Buffer) : Prop :=
  0 ≤ b.width ∧ 0 ≤ b.height ∧ b.data.length = (b.width * b.height).toNat

/-- Invariant of the viewport: pixels are square, and the shorter side of the viewport
spans `4 / zoom_level`. -/
def ViewportInvariant (s : FractalExplorer) : Prop :=
  s.fractal_size.x * (s.canvas.height : ℚ) = s.fractal_size.y * (s.canvas.width : ℚ) ∧
  min s.fractal_size.x s.fractal_size.y * s.zoom_level = 4

/-- Tile `w` is a rectangle inside a canvas of extent `cw` x `ch`. -/
def TileInside (w : WorkUnit) (cw ch : Int) : Prop :=
  0 ≤ w.min_x ∧ w.min_x ≤ w.max_x ∧ w.max_x ≤ cw ∧
  0 ≤ w.min_y ∧ w.min_y ≤ w.max_y ∧ w.max_y ≤ ch

/-- State `r` differs from `s` at most in the content of the canvas cells and in the
bookkeeping of the queue: evaluator, iteration cap, viewport, cancellation flag and the
extent and number of cells of the canvas are the same. -/
def SameFrame (r s : FractalExplorer) : Prop :=
  r.computePixel = s.computePixel ∧ r.max_iterations = s.max_iterations ∧ r.c = s.c ∧
  r.offset = s.offset ∧ r.fractal_size = s.fractal_size ∧
  r.stop_drawing = s.stop_drawing ∧
  r.canvas.width = s.canvas.width ∧ r.canvas.height = s.canvas.height ∧
  r.canvas.data.length = s.canvas.data.length

/-- Runs `doWorkUnit` on the tiles of a list, in the order of the list. -/
def drawTiles (m : Indet) (sh : Shading) (tiles : List WorkUnit) (s : FractalExplorer) :
    FractalExplorer :=
  tiles.foldl (fun st t => doWorkUnit m sh t st) s

/-- Linear displacement of the shift loop of `pan`: source cell `i` is sent to cell
`i + panDisplacement`, clamped to `[0, width * height]`. -/
def panDisplacement (delta : Vec2) (width : Int) : Int :=
  Rat.floor delta.y * width + Rat.floor delta.x

/-- Entry of the palette for an integer index, taken modulo `palette_size`. -/
def paletteAt (sh : Shading) (i : Int) : Color :=
  sh.palette (i % (palette_size : Int)).toNat

/-- Convex combination `(1 - f) * palette[floor k] + f * palette[floor k + 1]` with
`f = k - floor k`, channel by channel, as the specification words the colour of an
escaping pixel with smoothed count `k`. -/
def convexBlend (sh : Shading) (k : ℚ) : Color :=
  let f : ℚ := k - ((Rat.floor k : Int) : ℚ)
  let lo := paletteAt sh (Rat.floor k)
  let hi := paletteAt sh (Rat.floor k + 1)
  ⟨(1 - f) * lo.r + f * hi.r, (1 - f) * lo.g + f * hi.g, (1 - f) * lo.b + f * hi.b⟩

/-- Value `x` lies between `a` and `b`, whichever of the two is larger. -/
def Between (a b x : ℚ) : Prop := min a b ≤ x ∧ x ≤ max a b

/-- Every channel of `c` lies between the same channel of `lo` and of `hi`. -/
def ChannelsBetween (lo hi c : Color) : Prop :=
  Between lo.r hi.r c.r ∧ Between lo.g hi.g c.g ∧ Between lo.b hi.b c.b

/-- Smoothed count of the Mandelbrot evaluator for pixel `(px, py)`. -/
def mandelbrotSmoothed (sh : Shading) (s : FractalExplorer) (px py : Int) : ℚ :=
  ((s.mandelbrotEscape px py).iteration : ℚ) + 1
    - sh.nu ((s.mandelbrotEscape px py).v.x * (s.mandelbrotEscape px py).v.x
      + (s.mandelbrotEscape px py).v.y * (s.mandelbrotEscape px py).v.y)

/-- Smoothed count of the Julia evaluator for pixel `(px, py)`. -/
def juliaSmoothed (sh : Shading) (s : FractalExplorer) (px py : Int) : ℚ :=
  ((s.juliaEscape px py).iteration : ℚ) + 1
    - sh.nu ((s.juliaEscape px py).z.x * (s.juliaEscape px py).z.x
      + (s.juliaEscape px py).z.y * (s.juliaEscape px py).z.y)

/-- A 3 x 2 canvas with cells `1` to `6`, the viewport `initialize` gives it, idle
workers and an empty queue. -/
def sampleSmall : FractalExplorer :=
  { computePixel := PixelKind.mandelbrot
    canvas := ⟨[1, 2, 3, 4, 5, 6], 3, 2⟩
    max_iterations := 1000
    stop_drawing := false
    zoom_level := 1
    c := ⟨0, 0⟩
    offset := ⟨-2, -2⟩
    fractal_size := ⟨6, 4⟩
    work_units := []
    finished := 0
    work_available := false
    alive := true }

/-- The state `initialize` gives a 100 x 100 window, with `max_iterations` set to 50. -/
def sample100 : FractalExplorer :=
  { computePixel := PixelKind.mandelbrot
    canvas := ⟨List.replicate 10000 4278190080, 100, 100⟩
    max_iterations := 50
    stop_drawing := false
    zoom_level := 1
    c := ⟨0, 0⟩
    offset := ⟨-2, -2⟩
    fractal_size := ⟨4, 4⟩
    work_units := []
    finished := 0
    work_available := true
    alive := true }

/-- A palette and a smoothing term used in examples. -/
def sampleShading : Shading := ⟨fun i => ⟨(i : ℚ) / 200, 0, 1⟩, fun _ => 1 / 2⟩

end FractalExplorer

namespace FractalExplorer

/-- The queue of `r` is the tile list `generateFullWorkUnits` produces for the canvas
extent of `r` on an empty queue: it partitions the canvas, no tile occurs twice in it,
and the flags are those `startDrawing` leaves. -/
def FreshGeneration (r : FractalExplorer) : Prop :=
  r.work_units = (generateFullWorkUnits { r with work_units := [] }).work_units ∧
  TilesPartitionCanvas r ∧ r.work_units.Nodup ∧
  r.stop_drawing = false ∧ r.work_available = true

end FractalExplorer

namespace FractalExplorer

/-- Quotient of `a` by a positive `b`, rounded up. -/
def ceilDiv (a b : Int) : Nat := ((a + b - 1) / b).toNat

/-- Reference grid, in the words of the specification: with edge
`s = max(50, min(w, h) div 10)`, in row-major order for `y = 0, s, 2s, ... < h` and
within each row for `x = 0, s, 2s, ... < w`, the tile
`[x, min(x + s, w)) x [y, min(y + s, h))`.  The rows are the `y = j * s` with
`j < ceilDiv h s`, which are the multiples of `s` below `h` (`lt_ceilDiv_iff`). -/
def referenceGrid (w h : Int) : List WorkUnit :=
  let s : Int := max 50 (min w h / 10)
  (List.range (ceilDiv h s)).flatMap (fun (j : Nat) =>
    (List.range (ceilDiv w s)).map (fun (i : Nat) =>
      (⟨(i : Int) * s, min ((i : Int) * s + s) w,
        (j : Int) * s, min ((j : Int) * s + s) h⟩ : WorkUnit)))

end FractalExplorer

/-- Plain recurrence of the specification for the Mandelbrot variant: `z_0 = 0` and
`z_{n+1} = z_n^2 + c`, on real and imaginary parts. -/
def mandelbrotOrbit (c : Vec2) : Nat → Vec2
  | 0 => ⟨0, 0⟩
  | n + 1 =>
    ⟨(mandelbrotOrbit c n).x * (mandelbrotOrbit c n).x
        - (mandelbrotOrbit c n).y * (mandelbrotOrbit c n).y + c.x,
     2 * (mandelbrotOrbit c n).x * (mandelbrotOrbit c n).y + c.y⟩

/-- Plain recurrence of the specification for the Julia variant: `z_0` is the seed and
`z_{n+1} = z_n^2 + c`. -/
def juliaOrbit (c z0 : Vec2) : Nat → Vec2
  | 0 => z0
  | n + 1 =>
    ⟨(juliaOrbit c z0 n).x * (juliaOrbit c z0 n).x
        - (juliaOrbit c z0 n).y * (juliaOrbit c z0 n).y + c.x,
     2 * (juliaOrbit c z0 n).x * (juliaOrbit c z0 n).y + c.y⟩

/-- In the words of the specification: `count` is the least `n ≤ cap` at which `stop`
holds, or `cap` if there is none. -/
def IsLeastStop (stop : Nat → Prop) (cap count : Nat) : Prop :=
  (∀ n, n ≤ cap → stop n → (∀ k, k < n → ¬ stop k) → count = n) ∧
  ((∀ n, n ≤ cap → ¬ stop n) → count = cap)

namespace FractalExplorer

/-- A Julia explorer on a 4 x 4 canvas whose viewport is the initial one zoomed out by
100 about the centre: pixel `(3, 2)` maps to the point `(100, 0)`. -/
def sampleJulia : FractalExplorer :=
  { computePixel := PixelKind.julia
    canvas := ⟨List.replicate 16 4278190080, 4, 4⟩
    max_iterations := 1000
    stop_drawing := false
    zoom_level := 1 / 100
    c := ⟨0, 0⟩
    offset := ⟨-200, -200⟩
    fractal_size := ⟨400, 400⟩
    work_units := []
    finished := 0
    work_available := true
    alive := true }

end FractalExplorer

namespace FractalExplorer

/-- Method `doWorkUnit` with a log of the calls through `computePixel`: every pass of
the first pair of loops, which evaluates a pixel into the work buffer, appends that
pixel to the log.  As in the source, the first pair of loops has no test of
`stop_drawing`; the tests are in the second pair, which copies the work buffer into the
canvas. -/
def doWorkUnitLogged (m : Indet) (sh : Shading) (w : WorkUnit) (s : FractalExplorer) :
    FractalExplorer × List (Int × Int) :=
  let draw_width := w.max_x - w.min_x
  let draw_height := w.max_y - w.min_y
  let work_buffer := Buffer.initBuffer m draw_width draw_height
  let filled := forRange draw_height (fun y (st : Buffer × List (Int × Int)) =>
    forRange draw_width (fun x (st : Buffer × List (Int × Int)) =>
      (fillPixel st.1 x y (s.computePixelAt sh (x + w.min_x) (y + w.min_y)),
        st.2 ++ [(x + w.min_x, y + w.min_y)])) st) (work_buffer, [])
  let canvas := forRange draw_height (fun y cv =>
    if s.stop_drawing then cv else
      forRange draw_width (fun x cv =>
        if s.stop_drawing then cv else
          let hex := filled.1.read m (y * draw_width + x)
          cv.write (x + w.min_x + (y + w.min_y) * s.canvas.width) hex) cv) s.canvas
  ({ s with canvas := canvas }, filled.2)

end FractalExplorer

namespace FractalExplorer

/-- A Mandelbrot explorer on a 4 x 4 canvas whose viewport is the initial one zoomed out
by 65536 about the centre: pixel `(3, 2)` maps to the point `(65536, 0)`. -/
def sampleFar : FractalExplorer :=
  { computePixel := PixelKind.mandelbrot
    canvas := ⟨List.replicate 16 4278190080, 4, 4⟩
    max_iterations := 1000
    stop_drawing := false
    zoom_level := 1 / 65536
    c := ⟨0, 0⟩
    offset := ⟨-131072, -131072⟩
    fractal_size := ⟨262144, 262144⟩
    work_units := []
    finished := 0
    work_available := true
    alive := true }

/-- The natural number `nu` is `log2(log2 |z|)` for `m = |z|^2`: `|z| = 2 ^ (2 ^ nu)`. -/
def IsLogLog (m : ℚ) (nu : Nat) : Prop := m = ((2 : ℚ) ^ (2 ^ nu)) ^ 2

/-- The sample palette with a smoothing term that takes the value of
`log2(log2 |z|)` at `|z|^2 = 2 ^ 32`, where it is 4. -/
def sampleLogLog : Shading :=
  ⟨sampleShading.palette, fun m => if m = 4294967296 then 4 else 1 / 2⟩

end FractalExplorer

/-- Triple of `float` values (`Vec3f`), in exact arithmetic. -/
structure Vec3f where
  x : ℚ
  y : ℚ
  z : ℚ

/-- Function `HSVtoRGB` of `main.cpp`.  `junk` is the content of the uninitialised local
`result`, which the function returns as it is when no case of the `switch` matches;
`%` is the remainder of the C++ division. -/
def HSVtoRGB (junk : Color) (c : Vec3f) : Color :=
  let i : Int := Rat.floor (c.x * 6)
  let f : ℚ := c.x * 6 - (i : ℚ)
  let p : ℚ := c.z * (1 - c.y)
  let q : ℚ := c.z * (1 - f * c.y)
  let t : ℚ := c.z * (1 - (1 - f) * c.y)
  if Int.tmod i 6 = 0 then ⟨c.z, t, p⟩
  else if Int.tmod i 6 = 1 then ⟨q, c.z, p⟩
  else if Int.tmod i 6 = 2 then ⟨p, c.z, t⟩
  else if Int.tmod i 6 = 3 then ⟨p, q, c.z⟩
  else if Int.tmod i 6 = 4 then ⟨t, p, c.z⟩
  else if Int.tmod i 6 = 5 then ⟨c.z, p, q⟩
  else junk

/-- Local variables of `generatePalette`. -/
structure PaletteVars where
  theta : ℚ
  value : ℚ
  saturation : ℚ
  increase : Int

/-- One pass of the loop of `generatePalette` up to the assignment of `palette[i]`: the
`switch` on `increase`, whose default case calls `exit` (`none`), and the chain of
tests that follows it. -/
def paletteStep (st : PaletteVars) : Option PaletteVars :=
  let switched : Option PaletteVars :=
    if st.increase = 0 then some { st with value := st.value + 1 / 10 }
    else if st.increase = 1 then some { st with saturation := st.saturation - 1 / 10 }
    else if st.increase = 2 then
      some { st with theta := st.theta + 1 / 10, value := 1 / 5, increase := 0 }
    else none
  switched.map (fun s1 =>
    if s1.saturation ≤ 1 / 2 then { s1 with saturation := 1, increase := 2 }
    else if s1.theta ≥ 1 then { s1 with theta := 0 }
    else if s1.value ≥ 1 then { s1 with value := 1, increase := 1 }
    else s1)

/-- Loop of `generatePalette`: `n` further passes, each appending the entry
`palette[i]` it assigns. -/
def generatePaletteLoop (junk : Color) : Nat → PaletteVars → List Color → Option (List Color)
  | 0, _, pal => some pal
  | n + 1, st, pal =>
    match paletteStep st with
    | none => none
    | some s1 =>
      generatePaletteLoop junk n s1
        (pal ++ [HSVtoRGB junk ⟨s1.theta, s1.saturation, s1.value⟩])

/-- Function `generatePalette` of `main.cpp`, which `main` calls before it constructs
the explorer: the `palette_size` entries of `palette` in the order of their indices, or
`none` when the function calls `exit`. -/
def generatePalette (junk : Color) : Option (List Color) :=
  generatePaletteLoop junk palette_size ⟨3 / 5, 1 / 5, 1, 0⟩ []

/-- What the evaluators take from outside when `palette` holds the entries `pal`
(static storage is zero where nothing was assigned) and the smoothing term is `nu`. -/
def paletteShading (pal : List Color) (nu : ℚ → ℚ) : Shading :=
  ⟨fun i => pal.getD i BLACK, nu⟩

/-- No channel of the colour is negative and one of them is at least `1 / 5`. -/
def Bright (c : Color) : Prop :=
  0 ≤ c.r ∧ 0 ≤ c.g ∧ 0 ≤ c.b ∧ (1 / 5 ≤ c.r ∨ 1 / 5 ≤ c.g ∨ 1 / 5 ≤ c.b)

/-- Ranges the variables of `generatePalette` stay in. -/
def PaletteInv (st : PaletteVars) : Prop :=
  0 ≤ st.theta ∧ st.theta < 1 ∧ 1 / 2 < st.saturation ∧ st.saturation ≤ 1 ∧
  1 / 5 ≤ st.value ∧ st.value ≤ 1 ∧ (st.increase = 0 ∨ st.increase = 1 ∨ st.increase = 2)

namespace FractalExplorer

/-! ## Tile generation -/

theorem tileStep_pos (w h : Int) : 1 ≤ tileStep w h := by
  unfold tileStep
  have := le_max_left (50 : Int) (Int.tdiv (min w h) 10)
  omega

theorem contains_iff (t : WorkUnit) (x y : Int) :
    t.contains x y = true ↔ t.min_x ≤ x ∧ x < t.max_x ∧ t.min_y ≤ y ∧ y < t.max_y := by
  simp [WorkUnit.contains, and_assoc]

/-- The inner loop adds, for a point `(px, py)`, exactly one tile containing it when the
point lies in the strip the loop still has to cover, and none otherwise. -/
theorem generateRow_countP (step w h y px py : Int) (hstep : 1 ≤ step) :
    ∀ (fuel : Nat) (x : Int) (q : List WorkUnit), (w - x).toNat ≤ fuel →
      (generateRow step w h y fuel x q).countP (fun t => t.contains px py)
        = q.countP (fun t => t.contains px py)
          + (if x ≤ px ∧ px < w ∧ y ≤ py ∧ py < y + step ∧ py < h then 1 else 0) := by
  intro fuel
  induction fuel with
  | zero =>
    intro x q hf
    have hx : w ≤ x := by omega
    have : ¬ (x ≤ px ∧ px < w ∧ y ≤ py ∧ py < y + step ∧ py < h) := by omega
    simp only [generateRow, if_neg this, add_zero]
  | succ n ih =>
    intro x q hf
    by_cases hx : x < w
    · have hf2 : (w - (x + step)).toNat ≤ n := by omega
      rw [generateRow, if_pos hx, ih (x + step) _ hf2, List.countP_append]
      simp only [List.countP_cons, List.countP_nil, contains_iff, zero_add, lt_min_iff]
      rw [add_assoc]
      congr 1
      split_ifs <;> omega
    · have : ¬ (x ≤ px ∧ px < w ∧ y ≤ py ∧ py < y + step ∧ py < h) := by omega
      simp only [generateRow, if_neg hx, if_neg this, add_zero]

/-- The outer loop adds exactly one tile containing `(px, py)` when the point lies in
the part of the canvas from row `y` on, and none otherwise. -/
theorem generateRows_countP (step w h px py : Int) (hstep : 1 ≤ step) :
    ∀ (fuel : Nat) (y : Int) (q : List WorkUnit), (h - y).toNat ≤ fuel →
      (generateRows step w h fuel y q).countP (fun t => t.contains px py)
        = q.countP (fun t => t.contains px py)
          + (if 0 ≤ px ∧ px < w ∧ y ≤ py ∧ py < h then 1 else 0) := by
  intro fuel
  induction fuel with
  | zero =>
    intro y q hf
    have : ¬ (0 ≤ px ∧ px < w ∧ y ≤ py ∧ py < h) := by omega
    simp only [generateRows, if_neg this, add_zero]
  | succ n ih =>
    intro y q hf
    by_cases hy : y < h
    · have hf2 : (h - (y + step)).toNat ≤ n := by omega
      have hrow := generateRow_countP step w h y px py hstep w.toNat 0 q (by omega)
      rw [generateRows, if_pos hy, ih (y + step) _ hf2, hrow, add_assoc]
      congr 1
      split_ifs <;> omega
    · have : ¬ (0 ≤ px ∧ px < w ∧ y ≤ py ∧ py < h) := by omega
      simp only [generateRows, if_neg hy, if_neg this, add_zero]

/-- Fuel beyond `width - x` does not change the inner loop: the loop condition, not the
fuel, ends it. -/
theorem generateRow_fuel (step w h y : Int) (hstep : 1 ≤ step) :
    ∀ (fuel extra : Nat) (x : Int) (q : List WorkUnit), (w - x).toNat ≤ fuel →
      generateRow step w h y (fuel + extra) x q = generateRow step w h y fuel x q := by
  intro fuel
  induction fuel with
  | zero =>
    intro extra x q hf
    have hx : ¬ x < w := by omega
    cases extra with
    | zero => rfl
    | succ e => simp only [Nat.zero_add, generateRow, if_neg hx]
  | succ n ih =>
    intro extra x q hf
    by_cases hx : x < w
    · have hf2 : (w - (x + step)).toNat ≤ n := by omega
      rw [show n + 1 + extra = (n + extra) + 1 by omega]
      simp only [generateRow, if_pos hx]
      exact ih extra (x + step) _ hf2
    · rw [show n + 1 + extra = (n + extra) + 1 by omega]
      simp only [generateRow, if_neg hx]

/-- Fuel beyond `height - y` does not change the outer loop. -/
theorem generateRows_fuel (step w h : Int) (hstep : 1 ≤ step) :
    ∀ (fuel extra : Nat) (y : Int) (q : List WorkUnit), (h - y).toNat ≤ fuel →
      generateRows step w h (fuel + extra) y q = generateRows step w h fuel y q := by
  intro fuel
  induction fuel with
  | zero =>
    intro extra y q hf
    have hy : ¬ y < h := by omega
    cases extra with
    | zero => rfl
    | succ e => simp only [Nat.zero_add, generateRows, if_neg hy]
  | succ n ih =>
    intro extra y q hf
    by_cases hy : y < h
    · have hf2 : (h - (y + step)).toNat ≤ n := by omega
      rw [show n + 1 + extra = (n + extra) + 1 by omega]
      simp only [generateRows, if_pos hy]
      exact ih extra (y + step) _ hf2
    · rw [show n + 1 + extra = (n + extra) + 1 by omega]
      simp only [generateRows, if_neg hy]

/-- Number of queued tiles containing `(px, py)` after `generateFullWorkUnits`: the
number before, plus one when the point is a pixel of the canvas. -/
theorem generateFullWorkUnits_countP (s : FractalExplorer) (px py : Int) :
    s.generateFullWorkUnits.work_units.countP (fun t => t.contains px py)
      = s.work_units.countP (fun t => t.contains px py)
        + (if 0 ≤ px ∧ px < s.canvas.width ∧ 0 ≤ py ∧ py < s.canvas.height then 1 else 0) := by
  unfold generateFullWorkUnits
  exact generateRows_countP _ _ _ px py (tileStep_pos _ _) _ 0 _ (by omega)

/-- On an empty queue `generateFullWorkUnits` leaves a partition of the canvas. -/
theorem generateFullWorkUnits_tiles (s : FractalExplorer) (hq : s.work_units = []) :
    TilesPartitionCanvas s.generateFullWorkUnits := by
  have hc : s.generateFullWorkUnits.canvas = s.canvas := rfl
  constructor
  · intro x y hx0 hx1 hy0 hy1
    rw [generateFullWorkUnits_countP, hq]
    rw [hc] at hx1 hy1
    simp [hx0, hx1, hy0, hy1]
  · intro t ht x y hxy
    have hpos : 0 < s.generateFullWorkUnits.work_units.countP (fun t => t.contains x y) :=
      List.countP_pos_iff.mpr ⟨t, ht, hxy⟩
    rw [generateFullWorkUnits_countP, hq] at hpos
    rw [hc]
    by_contra hne
    simp [hne] at hpos

/-- Shape of the tiles the inner loop adds: each starts at a value `x` of the loop
variable and is clipped to the canvas. -/
theorem generateRow_mem (step w h y : Int) (t : WorkUnit) :
    ∀ (fuel : Nat) (x : Int) (q : List WorkUnit), 0 ≤ step → 
      t ∈ generateRow step w h y fuel x q →
      t ∈ q ∨ (x ≤ t.min_x ∧ t.min_x < w ∧ t.max_x = min (t.min_x + step) w ∧
        t.min_y = y ∧ t.max_y = min (y + step) h) := by
  intro fuel
  induction fuel with
  | zero =>
    intro x q _ ht
    exact Or.inl ht
  | succ n ih =>
    intro x q hstep ht
    by_cases hx : x < w
    · rw [generateRow, if_pos hx] at ht
      rcases ih (x + step) _ hstep ht with h1 | h1
      · rcases List.mem_append.mp h1 with h2 | h2
        · exact Or.inl h2
        · rw [List.mem_singleton] at h2
          subst h2
          exact Or.inr ⟨le_refl _, hx, rfl, rfl, rfl⟩
      · exact Or.inr ⟨by omega, h1.2⟩
    · rw [generateRow, if_neg hx] at ht
      exact Or.inl ht

/-- Shape of the tiles the outer loop adds. -/
theorem generateRows_mem (step w h : Int) (t : WorkUnit) :
    ∀ (fuel : Nat) (y : Int) (q : List WorkUnit), 0 ≤ step →
      t ∈ generateRows step w h fuel y q →
      t ∈ q ∨ (0 ≤ t.min_x ∧ t.min_x < w ∧ t.max_x = min (t.min_x + step) w ∧
        y ≤ t.min_y ∧ t.min_y < h ∧ t.max_y = min (t.min_y + step) h) := by
  intro fuel
  induction fuel with
  | zero =>
    intro y q _ ht
    exact Or.inl ht
  | succ n ih =>
    intro y q hstep ht
    by_cases hy : y < h
    · rw [generateRows, if_pos hy] at ht
      rcases ih (y + step) _ hstep ht with h1 | h1
      · rcases generateRow_mem step w h y t _ 0 q hstep h1 with h2 | h2
        · exact Or.inl h2
        · obtain ⟨a, b, c, d, e⟩ := h2
          refine Or.inr ⟨a, b, c, by omega, by omega, ?_⟩
          rw [e, d]
      · obtain ⟨a, b, c, d, e, f⟩ := h1
        exact Or.inr ⟨a, b, c, by omega, e, f⟩
    · rw [generateRows, if_neg hy] at ht
      exact Or.inl ht

/-- C1: for a canvas of width and height at least 1 whose tile arithmetic stays in the
`i32` range, `generateFullWorkUnits` on an empty queue produces tiles such that every
pixel of the canvas lies in exactly one tile and no tile contains a point outside the
canvas.  Every sum `x + step`, `y + step` that the loops evaluate is then in the `i32`
range, so the integers of the model are the integers of the program. -/
theorem generateFullWorkUnits_partition (s : FractalExplorer)
    (hq : s.work_units = [])
    (hw : 1 ≤ s.canvas.width) (hh : 1 ≤ s.canvas.height)
    (hx : InI32 (s.canvas.width - 1 + tileStep s.canvas.width s.canvas.height))
    (hy : InI32 (s.canvas.height - 1 + tileStep s.canvas.width s.canvas.height)) :
    (∀ x y : Int, 0 ≤ x → x < s.canvas.width → 0 ≤ y → y < s.canvas.height →
      s.generateFullWorkUnits.work_units.countP (fun t => t.contains x y) = 1) ∧
    (∀ t ∈ s.generateFullWorkUnits.work_units, ∀ x y : Int, t.contains x y = true →
      0 ≤ x ∧ x < s.canvas.width ∧ 0 ≤ y ∧ y < s.canvas.height) ∧
    (∀ t ∈ s.generateFullWorkUnits.work_units,
      InI32 (t.min_x + tileStep s.canvas.width s.canvas.height) ∧
      InI32 (t.min_y + tileStep s.canvas.width s.canvas.height)) := by
  refine ⟨(generateFullWorkUnits_tiles s hq).1, (generateFullWorkUnits_tiles s hq).2, ?_⟩
  intro t ht
  have hs := tileStep_pos s.canvas.width s.canvas.height
  unfold generateFullWorkUnits at ht
  rcases generateRows_mem _ _ _ t _ 0 _ (by omega) ht with h1 | h1
  · rw [hq] at h1
    exact absurd h1 (List.not_mem_nil t)
  · obtain ⟨a, b, _, d, e, _⟩ := h1
    unfold InI32 at hx hy ⊢
    omega

/-- C1 at the 60 x 2 canvas of `sampleDrained`, which is cut into two tiles. -/
theorem generateFullWorkUnits_partition_witness :
    sampleDrained.generateFullWorkUnits.work_units = [⟨0, 50, 0, 2⟩, ⟨50, 60, 0, 2⟩] ∧
    (∀ x y : Int, 0 ≤ x → x < 60 → 0 ≤ y → y < 2 →
      sampleDrained.generateFullWorkUnits.work_units.countP (fun t => t.contains x y) = 1) :=
  ⟨by decide,
   (generateFullWorkUnits_partition sampleDrained rfl (by decide) (by decide)
      (by decide) (by decide)).1⟩

/-! ## The stop / resume protocol on the explicit state -/

theorem stopDrawing_eq_some (s : FractalExplorer) (h : s.finished ≤ 0) :
    s.stopDrawing =
      some { s with stop_drawing := true, work_units := [], work_available := false } := by
  simp [stopDrawing, h]

theorem stopDrawing_eq_none (s : FractalExplorer) (h : 0 < s.finished) :
    s.stopDrawing = none := by
  simp [stopDrawing, h]

/-- C3: with all workers idle (`finished = 0`), `stopDrawing` returns, and the state it
returns has `stop_drawing = true`, an empty `work_units` and `work_available = false`,
with canvas, `offset`, `fractal_size` and `zoom_level` as before the call. -/
theorem stopDrawing_effect (s : FractalExplorer) (h : s.finished = 0) :
    ∃ r, s.stopDrawing = some r ∧
      r.stop_drawing = true ∧ r.work_units = [] ∧ r.work_available = false ∧
      r.canvas = s.canvas ∧ r.offset = s.offset ∧ r.fractal_size = s.fractal_size ∧
      r.zoom_level = s.zoom_level :=
  ⟨_, stopDrawing_eq_some s (by omega), rfl, rfl, rfl, rfl, rfl, rfl, rfl⟩

/-- C3 on a state that is drawing with idle workers: the queued tile is dropped. -/
theorem stopDrawing_effect_witness :
    sampleIdle.work_units = [⟨50, 60, 0, 2⟩] ∧
    ∃ r, sampleIdle.stopDrawing = some r ∧
      r.stop_drawing = true ∧ r.work_units = [] ∧ r.work_available = false ∧
      r.canvas = sampleDrawing.canvas ∧ r.offset = sampleDrawing.offset ∧
      r.fractal_size = sampleDrawing.fractal_size ∧
      r.zoom_level = sampleDrawing.zoom_level :=
  ⟨rfl, stopDrawing_effect sampleIdle rfl⟩

/-- C4: when a call of `stopDrawing` has returned state `r`, a second call, with no
`startDrawing` in between, finds its wait predicate `finished <= 0` true, returns, and
returns `r` again. -/
theorem stopDrawing_idempotent (s r : FractalExplorer) (h : s.stopDrawing = some r) :
    r.finished ≤ 0 ∧ r.stopDrawing = some r := by
  by_cases hf : s.finished ≤ 0
  · rw [stopDrawing_eq_some s hf] at h
    cases h
    exact ⟨hf, stopDrawing_eq_some _ hf⟩
  · rw [stopDrawing_eq_none s (by omega)] at h
    cases h

/-- C4 on a state that is drawing with idle workers. -/
theorem stopDrawing_idempotent_witness :
    ∃ r, sampleIdle.stopDrawing = some r ∧
      r.finished ≤ 0 ∧ r.stopDrawing = some r :=
  ⟨_, stopDrawing_eq_some _ (by decide),
    stopDrawing_idempotent sampleIdle _
      (stopDrawing_eq_some _ (by decide))⟩

/-- C5 as stated fails: on the drained 60 x 2 sample, whose queue is empty,
`startDrawing` returns with the queue still empty, so pixel `(0, 0)` lies in no tile. -/
theorem startDrawing_does_not_regenerate :
    sampleDrained.startDrawing.work_units = [] ∧
    ¬ TilesPartitionCanvas sampleDrained.startDrawing := by
  refine ⟨rfl, ?_⟩
  intro h
  have h0 := h.1 0 0 (by decide) (by decide) (by decide) (by decide)
  revert h0
  decide

/-- C5, amended: `startDrawing` sets `stop_drawing = false` and `work_available = true`
and leaves the work queue, the canvas and the viewport as they are.  The tiles come from
the `generateFullWorkUnits` call that precedes it: on an empty queue,
`generateFullWorkUnits` followed by `startDrawing` leaves a queue in which every pixel
of the canvas lies in exactly one tile and no tile leaves the canvas. -/
theorem startDrawing_effect (s : FractalExplorer) :
    (s.startDrawing.stop_drawing = false ∧ s.startDrawing.work_available = true ∧
      s.startDrawing.work_units = s.work_units ∧ view s.startDrawing = view s) ∧
    (s.work_units = [] →
      s.generateFullWorkUnits.startDrawing.stop_drawing = false ∧
      s.generateFullWorkUnits.startDrawing.work_available = true ∧
      view s.generateFullWorkUnits.startDrawing = view s ∧
      TilesPartitionCanvas s.generateFullWorkUnits.startDrawing) :=
  ⟨⟨rfl, rfl, rfl, rfl⟩, fun hq => ⟨rfl, rfl, rfl, generateFullWorkUnits_tiles s hq⟩⟩

/-- C5, amended, on the drained 60 x 2 sample. -/
theorem startDrawing_effect_witness :
    sampleDrained.generateFullWorkUnits.startDrawing.work_units
      = [⟨0, 50, 0, 2⟩, ⟨50, 60, 0, 2⟩] ∧
    TilesPartitionCanvas sampleDrained.generateFullWorkUnits.startDrawing :=
  ⟨by decide, ((startDrawing_effect sampleDrained).2 rfl).2.2.2⟩

/-- C7: `pan` with `delta = (0, 0)` returns at once, whatever the workers are doing,
with the whole state (canvas, viewport, work queue, `stop_drawing`, `work_available`)
as it was. -/
theorem pan_zero (m : Indet) (s : FractalExplorer) : pan m ⟨0, 0⟩ s = some s := by
  simp [pan, lengthSquared, sqr]

/-! ## Viewport arithmetic of `zoom` and `pan` -/

theorem forRange_inv {σ : Type} (P : σ → Prop) (n : Int) (body : Int → σ → σ) (init : σ)
    (h0 : P init) (hstep : ∀ i st, P st → P (body i st)) : P (forRange n body init) := by
  unfold forRange
  generalize List.range n.toNat = l
  induction l generalizing init with
  | nil => exact h0
  | cons a l ih => exact ih _ (hstep _ _ h0)

theorem write_extent (b : Buffer) (i : Int) (v : Nat) :
    (b.write i v).width = b.width ∧ (b.write i v).height = b.height := by
  unfold Buffer.write
  split <;> exact ⟨rfl, rfl⟩

/-- The preview rewrites pixels only: the extent of the buffer stays. -/
theorem zoomBufferInterpolate_extent (m : Indet) (b : Buffer) (fx fy : Int) (z : ℚ) :
    (zoomBufferInterpolate m b fx fy z).width = b.width ∧
    (zoomBufferInterpolate m b fx fy z).height = b.height := by
  unfold zoomBufferInterpolate
  apply forRange_inv (fun bb : Buffer => bb.width = b.width ∧ bb.height = b.height)
  · exact ⟨rfl, rfl⟩
  · intro y st hst
    apply forRange_inv (fun bb : Buffer => bb.width = b.width ∧ bb.height = b.height)
    · exact hst
    · intro x st2 hst2
      have := write_extent st2 (y * b.width + x)
      simp only [this, hst2, and_self]

theorem zoomCanvas_frame (m : Indet) (focus : Vec2) (amount : ℚ) (s : FractalExplorer) :
    (zoomCanvas m focus amount s).canvas.width = s.canvas.width ∧
    (zoomCanvas m focus amount s).canvas.height = s.canvas.height ∧
    (zoomCanvas m focus amount s).offset = s.offset ∧
    (zoomCanvas m focus amount s).fractal_size = s.fractal_size ∧
    (zoomCanvas m focus amount s).zoom_level = s.zoom_level ∧
    (zoomCanvas m focus amount s).work_units = s.work_units ∧
    (zoomCanvas m focus amount s).work_available = s.work_available := by
  unfold zoomCanvas
  split
  · have := zoomBufferInterpolate_extent m s.canvas (truncQ focus.x) (truncQ focus.y) amount
    exact ⟨this.1, this.2, rfl, rfl, rfl, rfl, rfl⟩
  · exact ⟨rfl, rfl, rfl, rfl, rfl, rfl, rfl⟩

theorem zoom_eq_some (m : Indet) (focus : Vec2) (amount : ℚ) (s : FractalExplorer)
    (h : s.finished ≤ 0) :
    zoom m focus amount s = some (startDrawing (generateFullWorkUnits
      (zoomCanvas m focus amount (zoomViewport focus amount
        { s with stop_drawing := true, work_units := [], work_available := false })))) := by
  simp [zoom, zoomSteps, runSteps, stopDrawing_eq_some s h]

theorem pan_eq_some (m : Indet) (delta : Vec2) (s : FractalExplorer)
    (hd : lengthSquared delta ≠ 0) (h : s.finished ≤ 0) :
    pan m delta s = some (startDrawing (generateFullWorkUnits
      (panOffset delta (panShift m delta
        { s with stop_drawing := true, work_units := [], work_available := false })))) := by
  simp [pan, hd, panSteps, runSteps, stopDrawing_eq_some s h]

theorem resizeCanvas_eq_some (m : Indet) (size : Vec2i) (s : FractalExplorer)
    (h : s.finished ≤ 0) :
    resizeCanvas m size s = some (startDrawing (generateFullWorkUnits
      (resizeFractalSize size (resizeCopy m size
        { s with stop_drawing := true, work_units := [], work_available := false })))) := by
  simp [resizeCanvas, resizeCanvasSteps, runSteps, stopDrawing_eq_some s h]

/-- C8: when the workers are idle, `zoom(focus, 1.0)` returns a state whose `offset`,
`fractal_size` and `zoom_level` are those before the call and whose canvas is unchanged:
the magnify-and-crop preview is not applied. -/
theorem zoom_one (m : Indet) (focus : Vec2) (s : FractalExplorer) (h : s.finished ≤ 0) :
    ∃ r, zoom m focus 1 s = some r ∧
      r.offset = s.offset ∧ r.fractal_size = s.fractal_size ∧
      r.zoom_level = s.zoom_level ∧ r.canvas = s.canvas := by
  refine ⟨_, zoom_eq_some m focus 1 s h, ?_, ?_, ?_, ?_⟩
  · simp [startDrawing, generateFullWorkUnits, zoomCanvas, zoomViewport, Vec2.add, Vec2.sub,
      Vec2.divScalar]
  · simp [startDrawing, generateFullWorkUnits, zoomCanvas, zoomViewport, Vec2.divScalar]
  · simp [startDrawing, generateFullWorkUnits, zoomCanvas, zoomViewport]
  · simp [startDrawing, generateFullWorkUnits, zoomCanvas, zoomViewport]

/-- C8 on the 60 x 2 sample with idle workers. -/
theorem zoom_one_witness :
    ∃ r, zoom sampleIndet ⟨10, 1⟩ 1 sampleDrained = some r ∧
      r.offset = sampleDrained.offset ∧ r.fractal_size = sampleDrained.fractal_size ∧
      r.zoom_level = sampleDrained.zoom_level ∧ r.canvas = sampleDrained.canvas :=
  zoom_one sampleIndet ⟨10, 1⟩ sampleDrained (by decide)

/-- C9: with idle workers, a non-zero `amount` and a canvas of positive width and
height, `zoom(focus, amount)` returns a state in which `focus` maps to the same point
of the fractal plane as before, `zoom_level` is multiplied by `amount` and
`fractal_size` is divided by `amount`. -/
theorem zoom_fixes_focus (m : Indet) (focus : Vec2) (amount : ℚ) (s : FractalExplorer)
    (h : s.finished ≤ 0) (ha : amount ≠ 0)
    (hw : 0 < s.canvas.width) (hh : 0 < s.canvas.height) :
    ∃ r, zoom m focus amount s = some r ∧
      r.screenToFractal focus = s.screenToFractal focus ∧
      r.zoom_level = s.zoom_level * amount ∧
      r.fractal_size = ⟨s.fractal_size.x / amount, s.fractal_size.y / amount⟩ ∧
      r.fractal_size.x * amount = s.fractal_size.x ∧
      r.fractal_size.y * amount = s.fractal_size.y := by
  have hfs : (startDrawing (generateFullWorkUnits (zoomCanvas m focus amount
      (zoomViewport focus amount
        { s with stop_drawing := true, work_units := [], work_available := false })))).fractal_size
      = ⟨s.fractal_size.x / amount, s.fractal_size.y / amount⟩ := by
    have e := (zoomCanvas_frame m focus amount (zoomViewport focus amount
      { s with stop_drawing := true, work_units := [], work_available := false })).2.2.2.1
    simp only [startDrawing, generateFullWorkUnits, e]
    rfl
  refine ⟨_, zoom_eq_some m focus amount s h, ?_, ?_, hfs, ?_, ?_⟩
  rotate_left 2
  · rw [hfs]
    exact div_mul_cancel₀ _ ha
  · rw [hfs]
    exact div_mul_cancel₀ _ ha
  · obtain ⟨e1, e2, e3, e4, _⟩ := zoomCanvas_frame m focus amount (zoomViewport focus amount
      { s with stop_drawing := true, work_units := [], work_available := false })
    simp only [screenToFractal, startDrawing, generateFullWorkUnits, e1, e2, e3, e4]
    simp only [zoomViewport, screenToFractal, Vec2.add, Vec2.sub, Vec2.divScalar,
      Vec2.mk.injEq]
    constructor <;> ring
  · have e := (zoomCanvas_frame m focus amount (zoomViewport focus amount
      { s with stop_drawing := true, work_units := [], work_available := false })).2.2.2.2.1
    simp only [startDrawing, generateFullWorkUnits, e]
    rfl

/-- C9 on the 60 x 2 sample: zooming by 2 about pixel `(10, 1)`. -/
theorem zoom_fixes_focus_witness :
    ∃ r, zoom sampleIndet ⟨10, 1⟩ 2 sampleDrained = some r ∧
      r.screenToFractal ⟨10, 1⟩ = sampleDrained.screenToFractal ⟨10, 1⟩ ∧
      r.zoom_level = sampleDrained.zoom_level * 2 ∧
      r.fractal_size = ⟨sampleDrained.fractal_size.x / 2, sampleDrained.fractal_size.y / 2⟩ ∧
      r.fractal_size.x * 2 = sampleDrained.fractal_size.x ∧
      r.fractal_size.y * 2 = sampleDrained.fractal_size.y :=
  zoom_fixes_focus sampleIndet ⟨10, 1⟩ 2 sampleDrained (by decide) (by norm_num)
    (by decide) (by decide)

theorem panShift_frame (m : Indet) (delta : Vec2) (s : FractalExplorer) :
    (panShift m delta s).canvas.width = s.canvas.width ∧
    (panShift m delta s).canvas.height = s.canvas.height ∧
    (panShift m delta s).offset = s.offset ∧
    (panShift m delta s).fractal_size = s.fractal_size ∧
    (panShift m delta s).zoom_level = s.zoom_level ∧
    (panShift m delta s).work_units = s.work_units ∧
    (panShift m delta s).work_available = s.work_available :=
  ⟨rfl, rfl, rfl, rfl, rfl, rfl, rfl⟩

/-- C10: with idle workers, a non-zero `delta` and a canvas of positive width and
height, `pan(delta)` returns a state in which, for every screen point `p`, the point of
the fractal plane that was under `p` is under `p + delta`; `fractal_size` and
`zoom_level` are unchanged.  The displacement of `offset` is `delta` in fractal-plane
units: `delta.x` pixels of `fractal_size.x / width` each to the left, `delta.y` pixels
of `fractal_size.y / height` each upwards. -/
theorem pan_translates (m : Indet) (delta : Vec2) (s : FractalExplorer)
    (h : s.finished ≤ 0) (hd : lengthSquared delta ≠ 0)
    (hw : 0 < s.canvas.width) (hh : 0 < s.canvas.height) :
    ∃ r, pan m delta s = some r ∧
      (∀ p : Vec2, r.screenToFractal (p.add delta) = s.screenToFractal p) ∧
      r.fractal_size = s.fractal_size ∧ r.zoom_level = s.zoom_level ∧
      (s.offset.x - r.offset.x) * (s.canvas.width : ℚ) = delta.x * s.fractal_size.x ∧
      (r.offset.y - s.offset.y) * (s.canvas.height : ℚ) = delta.y * s.fractal_size.y := by
  have hwq : (s.canvas.width : ℚ) ≠ 0 := by
    have : (0 : ℚ) < (s.canvas.width : ℚ) := by exact_mod_cast hw
    exact ne_of_gt this
  have hhq : (s.canvas.height : ℚ) ≠ 0 := by
    have : (0 : ℚ) < (s.canvas.height : ℚ) := by exact_mod_cast hh
    exact ne_of_gt this
  refine ⟨_, pan_eq_some m delta s hd h, ?_, rfl, rfl, ?_, ?_⟩
  · intro p
    simp only [screenToFractal, startDrawing, generateFullWorkUnits, panOffset, panShift,
      Vec2.add, Vec2.sub, Vec2.mk.injEq]
    constructor <;> ring
  · simp only [startDrawing, generateFullWorkUnits, panOffset, panShift, Vec2.sub]
    field_simp
  · simp only [startDrawing, generateFullWorkUnits, panOffset, panShift, Vec2.sub]
    field_simp
    ring

/-- C10 on the 60 x 2 sample: panning by `(3, -1)`. -/
theorem pan_translates_witness :
    ∃ r, pan sampleIndet ⟨3, -1⟩ sampleDrained = some r ∧
      (∀ p : Vec2, r.screenToFractal (p.add ⟨3, -1⟩) = sampleDrained.screenToFractal p) ∧
      r.fractal_size = sampleDrained.fractal_size ∧
      r.zoom_level = sampleDrained.zoom_level ∧
      (sampleDrained.offset.x - r.offset.x) * (sampleDrained.canvas.width : ℚ)
        = 3 * sampleDrained.fractal_size.x ∧
      (r.offset.y - sampleDrained.offset.y) * (sampleDrained.canvas.height : ℚ)
        = -1 * sampleDrained.fractal_size.y :=
  pan_translates sampleIndet ⟨3, -1⟩ sampleDrained (by decide)
    (by norm_num [lengthSquared, sqr]) (by decide) (by decide)

/-! ## Mutation happens inside the drained window -/

theorem resizeFractalSize_frame (size : Vec2i) (s : FractalExplorer) :
    (resizeFractalSize size s).work_available = s.work_available ∧
    (resizeFractalSize size s).work_units = s.work_units := by
  unfold resizeFractalSize
  split <;> exact ⟨rfl, rfl⟩

/-- An operation that drains, runs two statements of which the first leaves the queue
and `work_available` alone, regenerates the tiles and resumes, mutates canvas and
viewport only between the drain and the regeneration. -/
theorem mutatesOnlyDrained_protocol (f1 f2 : FractalExplorer → FractalExplorer)
    (h1 : ∀ s, (f1 s).work_available = s.work_available ∧ (f1 s).work_units = s.work_units) :
    MutatesOnlyDrained
      [stopDrawing, fun s => some (f1 s), fun s => some (f2 s),
       fun s => some (generateFullWorkUnits s), fun s => some (startDrawing s)] := by
  intro s a b i ha hb hne
  by_cases hf : s.finished ≤ 0
  · have hs := stopDrawing_eq_some s hf
    rcases i with _ | _ | _ | _ | _ | i
    · simp only [List.take, runSteps, Option.some.injEq, hs, Option.bind] at ha hb
      subst ha
      subst hb
      exact absurd rfl hne
    · simp only [List.take, runSteps, Option.some.injEq, hs, Option.bind] at ha hb
      subst ha
      exact ⟨by omega, by simp, rfl, rfl⟩
    · simp only [List.take, runSteps, Option.some.injEq, hs, Option.bind] at ha hb
      subst ha
      refine ⟨by omega, by simp, ?_, ?_⟩
      · rw [(h1 _).1]
      · rw [(h1 _).2]
    · simp only [List.take, runSteps, Option.some.injEq, hs, Option.bind] at ha hb
      subst ha
      subst hb
      exact absurd rfl hne
    · simp only [List.take, runSteps, Option.some.injEq, hs, Option.bind] at ha hb
      subst ha
      subst hb
      exact absurd rfl hne
    · simp only [List.take, List.take_nil, runSteps, Option.some.injEq, hs, Option.bind]
        at ha hb
      subst ha
      subst hb
      exact absurd rfl hne
  · have hs := stopDrawing_eq_none s (by omega)
    simp [List.take, runSteps, hs] at hb

/-- C6: in `resizeCanvas`, in `pan` past its early return and in `zoom`, the first
statement is `stopDrawing`, the last is `startDrawing`, and every statement that changes
the canvas (pixels or extent), `offset`, `fractal_size` or `zoom_level` comes after the
first and before the last and starts in a state in which `work_available` is false and
the work queue is empty. -/
theorem mutation_inside_drained_window (m : Indet) (size : Vec2i) (delta focus : Vec2)
    (amount : ℚ) :
    ((resizeCanvasSteps m size).head? = some stopDrawing ∧
      (resizeCanvasSteps m size).getLast? = some (fun s => some (startDrawing s)) ∧
      MutatesOnlyDrained (resizeCanvasSteps m size)) ∧
    ((panSteps m delta).head? = some stopDrawing ∧
      (panSteps m delta).getLast? = some (fun s => some (startDrawing s)) ∧
      MutatesOnlyDrained (panSteps m delta)) ∧
    ((zoomSteps m focus amount).head? = some stopDrawing ∧
      (zoomSteps m focus amount).getLast? = some (fun s => some (startDrawing s)) ∧
      MutatesOnlyDrained (zoomSteps m focus amount)) := by
  refine ⟨⟨rfl, rfl, ?_⟩, ⟨rfl, rfl, ?_⟩, ⟨rfl, rfl, ?_⟩⟩
  · exact mutatesOnlyDrained_protocol _ _ (fun _ => ⟨rfl, rfl⟩)
  · exact mutatesOnlyDrained_protocol _ _ (fun _ => ⟨rfl, rfl⟩)
  · exact mutatesOnlyDrained_protocol _ _ (fun _ => ⟨rfl, rfl⟩)

/-- C6 on the 60 x 2 sample while it is drawing with idle workers: the second statement
of `zoom` by 2 changes `zoom_level`, and it starts with `work_available` false and the
queue empty although the operation began with a tile queued. -/
theorem mutation_inside_drained_window_witness :
    sampleIdle.work_units ≠ [] ∧
    ∃ a b : FractalExplorer,
      runSteps ((zoomSteps sampleIndet ⟨10, 1⟩ 2).take 1) sampleIdle = some a ∧
      runSteps ((zoomSteps sampleIndet ⟨10, 1⟩ 2).take 2) sampleIdle = some b ∧
      view b ≠ view a ∧ a.work_available = false ∧ a.work_units = [] := by
  have hne : view (zoomViewport ⟨10, 1⟩ 2 sampleStopped) ≠ view sampleStopped := by
    intro h
    have h2 := congrArg (fun v => v.2.2.2) h
    simp [view, zoomViewport, sampleStopped, sampleIdle, sampleDrawing, sampleDrained] at h2
  exact ⟨by decide, sampleStopped, zoomViewport ⟨10, 1⟩ 2 sampleStopped, rfl, rfl, hne,
    ((mutation_inside_drained_window sampleIndet ⟨1, 1⟩ ⟨0, 0⟩ ⟨10, 1⟩ 2).2.2.2.2
      sampleIdle sampleStopped _ 1 rfl rfl hne).2.2⟩

end FractalExplorer
namespace FractalExplorer

/-! ## Counted loops and sequences of writes -/

theorem flatMap_cast (l : List Nat) :
    (l.flatMap fun a => [(a : Int)]) = l.map (fun a : Nat => (a : Int)) := by
  induction l with
  | nil => rfl
  | cons a l ih => simp [List.flatMap_cons, ih]

theorem forRange_eq {σ : Type} (n : Int) (body : Int → σ → σ) (init : σ) :
    forRange n body init
      = (List.range n.toNat).foldl (fun st (i : Nat) => body (i : Int) st) init := by
  unfold forRange
  have : (do let a ← List.range n.toNat; pure (a : Int) : List Int)
      = (List.range n.toNat).map (fun a : Nat => (a : Int)) := by
    simp only [List.pure_def, List.bind_eq_flatMap]
    exact flatMap_cast _
  rw [this, List.foldl_map]


theorem forRange_nonpos {σ : Type} (n : Int) (body : Int → σ → σ) (init : σ) (h : n ≤ 0) :
    forRange n body init = init := by
  rw [forRange_eq, Int.toNat_of_nonpos h]
  rfl

theorem forRange_succ {σ : Type} (n : Nat) (body : Int → σ → σ) (init : σ) :
    forRange ((n : Int) + 1) body init = body (n : Int) (forRange (n : Int) body init) := by
  rw [forRange_eq, forRange_eq]
  have h : ((n : Int) + 1).toNat = n + 1 := by omega
  rw [h, Int.toNat_natCast, List.range_succ, List.foldl_append]
  rfl

theorem foldl_congr_mem {α σ : Type} (f g : σ → α → σ) (l : List α) :
    ∀ init : σ, (∀ a ∈ l, ∀ st, f st a = g st a) → l.foldl f init = l.foldl g init := by
  induction l with
  | nil => intro init _; rfl
  | cons a l ih =>
    intro init h
    simp only [List.foldl_cons]
    rw [h a (List.mem_cons_self a l), ih _ (fun b hb st => h b (List.mem_cons_of_mem a hb) st)]

theorem forRange_congr {σ : Type} (n : Int) (body1 body2 : Int → σ → σ) (init : σ)
    (h : ∀ i : Int, 0 ≤ i → i < n → ∀ st, body1 i st = body2 i st) :
    forRange n body1 init = forRange n body2 init := by
  rw [forRange_eq, forRange_eq]
  apply foldl_congr_mem
  intro a ha st
  rw [List.mem_range] at ha
  exact h a (by omega) (by omega) st

/-- A loop over rows with a loop over columns inside is one loop over the cells in
row-major order. -/
theorem forRange_nested {σ : Type} (w h : Int) (hw : 0 ≤ w) (F : Int → Int → σ → σ)
    (init : σ) :
    forRange h (fun y st => forRange w (fun x st => F x y st) st) init
      = forRange (w * h) (fun i st => F (i % w) (i / w) st) init := by
  by_cases hh : h ≤ 0
  · rw [forRange_nonpos _ _ _ hh, forRange_nonpos _ _ _ (Int.mul_nonpos_of_nonneg_of_nonpos hw hh)]
  · obtain ⟨H, rfl⟩ : ∃ H : Nat, h = (H : Int) := ⟨h.toNat, by omega⟩
    clear hh
    induction H with
    | zero => simp [forRange_eq]
    | succ n ih =>
      have e1 : ((n + 1 : Nat) : Int) = (n : Int) + 1 := by push_cast; rfl
      rw [e1, forRange_succ, ih]
      obtain ⟨W, rfl⟩ : ∃ W : Nat, w = (W : Int) := ⟨w.toNat, by omega⟩
      simp only [forRange_eq]
      have e2 : ((W : Int) * ((n : Int) + 1)).toNat = W * n + W := by
        have : (W : Int) * ((n : Int) + 1) = ((W * n + W : Nat) : Int) := by push_cast; ring
        rw [this, Int.toNat_natCast]
      have e3 : ((W : Int) * (n : Int)).toNat = W * n := by
        have : (W : Int) * (n : Int) = ((W * n : Nat) : Int) := by push_cast; ring
        rw [this, Int.toNat_natCast]
      rw [e2, e3, Int.toNat_natCast, List.range_add, List.foldl_append, List.foldl_map]
      apply foldl_congr_mem
      intro x hx st
      rw [List.mem_range] at hx
      have hW : (0 : Int) < (W : Int) := by omega
      have e4 : ((W * n + x : Nat) : Int) % (W : Int) = (x : Int) := by
        push_cast
        rw [Int.add_comm, Int.add_mul_emod_self_left]
        exact Int.emod_eq_of_lt (by omega) (by omega)
      have e5 : ((W * n + x : Nat) : Int) / (W : Int) = (n : Int) := by
        push_cast
        rw [Int.add_comm, Int.add_mul_ediv_left _ _ (by omega)]
        rw [Int.ediv_eq_zero_of_lt (by omega) (by omega)]
        simp
      rw [e4, e5]

theorem write_getD (b : Buffer) (i : Int) (v : Nat) (t : Nat) (d : Nat) :
    (b.write i v).data.getD t d
      = if 0 ≤ i ∧ i.toNat = t ∧ t < b.data.length then v else b.data.getD t d := by
  unfold Buffer.write
  by_cases hi : 0 ≤ i
  · simp only [if_pos hi, List.getD_eq_getElem?_getD, List.getElem?_set, hi, true_and]
    by_cases h1 : i.toNat = t
    · subst h1
      by_cases h2 : i.toNat < b.data.length
      · simp [h2]
      · have h3 : b.data.length ≤ i.toNat := by omega
        have h4 : (b.data.set i.toNat v).length ≤ i.toNat := by
          rw [List.length_set]; exact h3
        simp [h2, List.getElem?_eq_none h3, List.getElem?_eq_none h4]
    · simp [h1]
  · simp [hi]

theorem write_length (b : Buffer) (i : Int) (v : Nat) :
    (b.write i v).data.length = b.data.length := by
  unfold Buffer.write
  split
  · simp
  · rfl

/-- A loop of writes keeps the extent and the number of cells of the buffer. -/
theorem writes_frame (n : Int) (g : Int → Int) (v : Int → Nat) (b : Buffer) :
    (forRange n (fun i bb => bb.write (g i) (v i)) b).width = b.width ∧
    (forRange n (fun i bb => bb.write (g i) (v i)) b).height = b.height ∧
    (forRange n (fun i bb => bb.write (g i) (v i)) b).data.length = b.data.length := by
  apply forRange_inv (fun bb : Buffer =>
    bb.width = b.width ∧ bb.height = b.height ∧ bb.data.length = b.data.length)
  · exact ⟨rfl, rfl, rfl⟩
  · intro i st hst
    exact ⟨(write_extent st _ _).1.trans hst.1, (write_extent st _ _).2.trans hst.2.1,
      (write_length st _ _).trans hst.2.2⟩

/-- A cell that no pass of a loop of writes addresses keeps its content. -/
theorem writes_untouched (g : Int → Int) (v : Int → Nat) (b : Buffer) (t d : Nat) :
    ∀ n : Nat, (∀ i : Int, 0 ≤ i → i < n → g i ≠ (t : Int)) →
      (forRange (n : Int) (fun i bb => bb.write (g i) (v i)) b).data.getD t d
        = b.data.getD t d := by
  intro n
  induction n with
  | zero => intro _; simp [forRange_eq]
  | succ n ih =>
    intro h
    have e1 : ((n + 1 : Nat) : Int) = (n : Int) + 1 := by push_cast; rfl
    rw [e1, forRange_succ, write_getD]
    have hn : g (n : Int) ≠ (t : Int) := h n (by omega) (by omega)
    have : ¬ (0 ≤ g (n : Int) ∧ (g (n : Int)).toNat = t ∧
        t < (forRange (n : Int) (fun i bb => bb.write (g i) (v i)) b).data.length) := by
      intro hh
      apply hn
      omega
    rw [if_neg this]
    exact ih (fun i h0 h1 => h i h0 (by omega))

/-- A cell holds what the last pass that addresses it has written. -/
theorem writes_last (g : Int → Int) (v : Int → Nat) (b : Buffer) (t d : Nat)
    (ht : t < b.data.length) (i0 : Nat) (hg : g (i0 : Int) = (t : Int)) :
    ∀ n : Nat, i0 < n → (∀ i : Int, (i0 : Int) < i → i < n → g i ≠ (t : Int)) →
      (forRange (n : Int) (fun i bb => bb.write (g i) (v i)) b).data.getD t d
        = v (i0 : Int) := by
  intro n
  induction n with
  | zero => intro h; omega
  | succ n ih =>
    intro hlt h
    have e1 : ((n + 1 : Nat) : Int) = (n : Int) + 1 := by push_cast; rfl
    rw [e1, forRange_succ, write_getD]
    by_cases hn : i0 = n
    · subst hn
      have hl := (writes_frame (i0 : Int) g v b).2.2
      rw [if_pos ⟨by omega, by omega, by omega⟩]
    · have hne : g (n : Int) ≠ (t : Int) := h n (by omega) (by omega)
      have : ¬ (0 ≤ g (n : Int) ∧ (g (n : Int)).toNat = t ∧
          t < (forRange (n : Int) (fun i bb => bb.write (g i) (v i)) b).data.length) := by
        intro hh
        apply hne
        omega
      rw [if_neg this]
      exact ih (by omega) (fun i h0 h1 => h i h0 (by omega))

end FractalExplorer

namespace FractalExplorer

/-! ## Canvas content after `resizeCanvas` -/

theorem cell_index_lt (w h x y : Int) (hx0 : 0 ≤ x) (hx : x < w) (hy0 : 0 ≤ y) (hy : y < h) :
    0 ≤ y * w + x ∧ y * w + x < w * h := by
  have hw0 : 0 ≤ w := by omega
  have h1 : 0 ≤ y * w := mul_nonneg hy0 hw0
  have h2 : y * w ≤ (h - 1) * w := mul_le_mul_of_nonneg_right (by omega) hw0
  have h3 : (h - 1) * w = w * h - w := by ring
  constructor
  · omega
  · omega

theorem pixel_eq_getD (b : Buffer) (hl : b.data.length = (b.width * b.height).toNat)
    (x y : Int) (hx0 : 0 ≤ x) (hx : x < b.width) (hy0 : 0 ≤ y) (hy : y < b.height) :
    b.pixel x y = some (b.data.getD (y * b.width + x).toNat 0) := by
  have hi := cell_index_lt b.width b.height x y hx0 hx hy0 hy
  have hlt : (y * b.width + x).toNat < b.data.length := by omega
  unfold Buffer.pixel
  rw [if_pos ⟨hx0, hx, hy0, hy⟩, List.get?_eq_getElem?, List.getD_eq_getElem?_getD,
    List.getElem?_eq_getElem hlt]
  rfl

theorem read_eq_getD (m : Indet) (b : Buffer) (i : Int) (h0 : 0 ≤ i)
    (h1 : i.toNat < b.data.length) : b.read m i = b.data.getD i.toNat 0 := by
  unfold Buffer.read
  rw [if_pos ⟨h0, h1⟩]

theorem initBuffer_frame (m : Indet) (w h : Int) :
    (Buffer.initBuffer m w h).width = w ∧ (Buffer.initBuffer m w h).height = h ∧
    (Buffer.initBuffer m w h).data.length = (w * h).toNat := by
  simp [Buffer.initBuffer]

/-- The copy loop of `resizeCanvas` as one loop of writes over the cells of the new
canvas. -/
theorem resizeCopy_canvas (m : Indet) (size : Vec2i) (s : FractalExplorer)
    (hnw : 0 < size.x) :
    (resizeCopy m size s).canvas
      = forRange (size.x * size.y) (fun i bb => bb.write i
          (if i % size.x < s.canvas.width ∧ i / size.x < s.canvas.height then
            s.canvas.read m (i / size.x * s.canvas.width + i % size.x) else 0))
          (Buffer.initBuffer m size.x size.y) := by
  unfold resizeCopy
  simp only
  refine (forRange_nested size.x size.y (le_of_lt hnw)
    (fun (x y : Int) (nc : Buffer) => if x < s.canvas.width ∧ y < s.canvas.height then
        nc.write (y * size.x + x) (s.canvas.read m (y * s.canvas.width + x))
      else nc.write (y * size.x + x) 0) _).trans ?_
  apply forRange_congr
  intro i _ _ st
  have hi : i / size.x * size.x + i % size.x = i := by
    rw [mul_comm]; exact Int.ediv_add_emod i size.x
  simp only [hi]
  split <;> rfl

theorem resizeCopy_pixel (m : Indet) (size : Vec2i) (s : FractalExplorer)
    (hwf : WellFormed s.canvas) (hnw : 0 < size.x) (hnh : 0 < size.y)
    (x y : Int) (hx0 : 0 ≤ x) (hx : x < size.x) (hy0 : 0 ≤ y) (hy : y < size.y) :
    (resizeCopy m size s).canvas.pixel x y
      = if x < s.canvas.width ∧ y < s.canvas.height then s.canvas.pixel x y else some 0 := by
  have hc := resizeCopy_canvas m size s hnw
  obtain ⟨f1, f2, f3⟩ := writes_frame (size.x * size.y) (fun i => i)
    (fun i => if i % size.x < s.canvas.width ∧ i / size.x < s.canvas.height then
            s.canvas.read m (i / size.x * s.canvas.width + i % size.x) else 0)
    (Buffer.initBuffer m size.x size.y)
  obtain ⟨g1, g2, g3⟩ := initBuffer_frame m size.x size.y
  have hw : (resizeCopy m size s).canvas.width = size.x := by rw [hc, f1, g1]
  have hh : (resizeCopy m size s).canvas.height = size.y := by rw [hc, f2, g2]
  have hl : (resizeCopy m size s).canvas.data.length = (size.x * size.y).toNat := by
    rw [hc, f3, g3]
  have hi := cell_index_lt size.x size.y x y hx0 hx hy0 hy
  rw [pixel_eq_getD _ (by rw [hw, hh, hl]) x y hx0 (by rw [hw]; exact hx) hy0
    (by rw [hh]; exact hy), hw]
  obtain ⟨N, hN⟩ : ∃ N : Nat, size.x * size.y = (N : Int) :=
    ⟨(size.x * size.y).toNat, by omega⟩
  obtain ⟨T, hT⟩ : ∃ T : Nat, y * size.x + x = (T : Int) :=
    ⟨(y * size.x + x).toNat, by omega⟩
  have hmod : (T : Int) % size.x = x := by
    rw [← hT, Int.add_comm, Int.add_mul_emod_self]
    exact Int.emod_eq_of_lt hx0 hx
  have hdiv : (T : Int) / size.x = y := by
    rw [← hT, Int.add_comm, Int.add_mul_ediv_right _ _ (by omega),
      Int.ediv_eq_zero_of_lt hx0 hx]
    simp
  have key := writes_last (fun i => i)
    (fun i => if i % size.x < s.canvas.width ∧ i / size.x < s.canvas.height then
            s.canvas.read m (i / size.x * s.canvas.width + i % size.x) else 0)
    (Buffer.initBuffer m size.x size.y) T 0 (by rw [g3]; omega) T rfl N (by omega)
    (fun i h1 _ => by show i ≠ (T : Int); omega)
  rw [hc, hN, hT, Int.toNat_natCast, key]
  simp only [hmod, hdiv]
  by_cases hin : x < s.canvas.width ∧ y < s.canvas.height
  · rw [if_pos hin, if_pos hin]
    obtain ⟨w0, h0, hlen⟩ := hwf
    have hj := cell_index_lt s.canvas.width s.canvas.height x y hx0 hin.1 hy0 hin.2
    rw [pixel_eq_getD _ hlen x y hx0 hin.1 hy0 hin.2,
      read_eq_getD m _ _ hj.1 (by omega)]
  · rw [if_neg hin, if_neg hin]

theorem resizeCopy_extent (m : Indet) (size : Vec2i) (s : FractalExplorer)
    (hnw : 0 < size.x) :
    (resizeCopy m size s).canvas.width = size.x ∧
    (resizeCopy m size s).canvas.height = size.y ∧
    (resizeCopy m size s).canvas.data.length = (size.x * size.y).toNat := by
  have hc := resizeCopy_canvas m size s hnw
  obtain ⟨f1, f2, f3⟩ := writes_frame (size.x * size.y) (fun i => i)
    (fun i => if i % size.x < s.canvas.width ∧ i / size.x < s.canvas.height then
            s.canvas.read m (i / size.x * s.canvas.width + i % size.x) else 0)
    (Buffer.initBuffer m size.x size.y)
  obtain ⟨g1, g2, g3⟩ := initBuffer_frame m size.x size.y
  rw [hc]
  exact ⟨f1.trans g1, f2.trans g2, f3.trans g3⟩

/-- C11: with idle workers, a well-formed old canvas of positive extent and a positive
new size, `resizeCanvas` returns a state whose canvas has the new extent, and every
pixel `(x, y)` of the new canvas holds the old pixel at `(x, y)` when `x` and `y` lie
inside the old extent and `0` otherwise. -/
theorem resizeCanvas_pixels (m : Indet) (size : Vec2i) (s : FractalExplorer)
    (hidle : s.finished ≤ 0) (hwf : WellFormed s.canvas)
    (how : 0 < s.canvas.width) (hoh : 0 < s.canvas.height)
    (hnw : 0 < size.x) (hnh : 0 < size.y) :
    ∃ r, resizeCanvas m size s = some r ∧
      r.canvas.width = size.x ∧ r.canvas.height = size.y ∧ WellFormed r.canvas ∧
      ∀ x y : Int, 0 ≤ x → x < size.x → 0 ≤ y → y < size.y →
        ∃ v, r.canvas.pixel x y = some v ∧
          (x < s.canvas.width ∧ y < s.canvas.height → s.canvas.pixel x y = some v) ∧
          (¬ (x < s.canvas.width ∧ y < s.canvas.height) → v = 0) := by
  have hs : WellFormed
      ({ s with stop_drawing := true, work_units := [], work_available := false }
        : FractalExplorer).canvas := hwf
  obtain ⟨e1, e2, e3⟩ := resizeCopy_extent m size
    { s with stop_drawing := true, work_units := [], work_available := false } hnw
  have hcan : ∀ t : FractalExplorer,
      (startDrawing (generateFullWorkUnits (resizeFractalSize size t))).canvas = t.canvas := by
    intro t
    unfold resizeFractalSize
    split <;> rfl
  refine ⟨_, resizeCanvas_eq_some m size s hidle, ?_, ?_, ?_, ?_⟩
  · rw [hcan]; exact e1
  · rw [hcan]; exact e2
  · rw [hcan]
    exact ⟨by rw [e1]; omega, by rw [e2]; omega, by rw [e3, e1, e2]⟩
  · intro x y hx0 hx hy0 hy
    rw [hcan, resizeCopy_pixel m size _ hs hnw hnh x y hx0 hx hy0 hy]
    by_cases hin : x < s.canvas.width ∧ y < s.canvas.height
    · refine ⟨s.canvas.data.getD (y * s.canvas.width + x).toNat 0, ?_, ?_, ?_⟩
      · rw [if_pos hin]
        exact pixel_eq_getD s.canvas hwf.2.2 x y hx0 hin.1 hy0 hin.2
      · intro _
        exact pixel_eq_getD s.canvas hwf.2.2 x y hx0 hin.1 hy0 hin.2
      · intro h
        exact absurd hin h
    · refine ⟨0, ?_, ?_, ?_⟩
      · rw [if_neg hin]
      · intro h
        exact absurd h hin
      · intro _
        rfl

/-- C11 on the 3 x 2 sample resized to 2 x 3: the left two columns are kept and the new
third row is zero. -/
theorem resizeCanvas_pixels_witness :
    (resizeCopy sampleIndet ⟨2, 3⟩ sampleSmall).canvas.data = [1, 2, 4, 5, 0, 0] ∧
    ∃ r, resizeCanvas sampleIndet ⟨2, 3⟩ sampleSmall = some r ∧
      r.canvas.width = 2 ∧ r.canvas.height = 3 ∧ WellFormed r.canvas ∧
      ∀ x y : Int, 0 ≤ x → x < 2 → 0 ≤ y → y < 3 →
        ∃ v, r.canvas.pixel x y = some v ∧
          (x < 3 ∧ y < 2 → sampleSmall.canvas.pixel x y = some v) ∧
          (¬ (x < 3 ∧ y < 2) → v = 0) :=
  ⟨by decide,
   resizeCanvas_pixels sampleIndet ⟨2, 3⟩ sampleSmall (by decide)
    (by unfold WellFormed; decide) (by decide) (by decide) (by decide) (by decide)⟩

end FractalExplorer
namespace FractalExplorer

/-! ## The invariant of the viewport -/

theorem fillBuffer_frame (b : Buffer) (color : Color) :
    (fillBuffer b color).width = b.width ∧ (fillBuffer b color).height = b.height ∧
    (fillBuffer b color).data.length = b.data.length := by
  unfold fillBuffer
  exact writes_frame _ (fun i => i) (fun _ => getColorHex color) b

theorem initializeExplorer_fields (m : Indet) (kind : PixelKind) (c : Vec2) (size : Vec2i) :
    (initializeExplorer m kind c size).explorer.canvas.width = size.x ∧
    (initializeExplorer m kind c size).explorer.canvas.height = size.y ∧
    (initializeExplorer m kind c size).explorer.zoom_level = 1 ∧
    (initializeExplorer m kind c size).explorer.offset = ⟨-2, -2⟩ ∧
    (min size.x size.y ≠ 0 →
      (initializeExplorer m kind c size).explorer.fractal_size
        = (if size.x < size.y then ⟨4, 4 / (size.x : ℚ) * (size.y : ℚ)⟩
           else ⟨4 / (size.y : ℚ) * (size.x : ℚ), 4⟩)) := by
  obtain ⟨f1, f2, _⟩ := fillBuffer_frame (Buffer.initBuffer m size.x size.y) BLACK
  obtain ⟨g1, g2, _⟩ := initBuffer_frame m size.x size.y
  refine ⟨f1.trans g1, f2.trans g2, rfl, rfl, ?_⟩
  intro hmin
  show (if size.x < size.y then (⟨4, divF64 m 4 (size.x : ℚ) * (size.y : ℚ)⟩ : Vec2)
      else ⟨divF64 m 4 (size.y : ℚ) * (size.x : ℚ), 4⟩) = _
  by_cases hlt : size.x < size.y
  · have hx : (size.x : ℚ) ≠ 0 := by
      rw [min_eq_left (le_of_lt hlt)] at hmin
      exact_mod_cast hmin
    rw [if_pos hlt, if_pos hlt, divF64, if_neg hx]
  · have hy : (size.y : ℚ) ≠ 0 := by
      rw [min_eq_right (not_lt.mp hlt)] at hmin
      exact_mod_cast hmin
    rw [if_neg hlt, if_neg hlt, divF64, if_neg hy]

/-- The shape `initialize` and `resizeCanvas` give `fractal_size` satisfies the
invariant for a positive extent and a positive zoom level. -/
theorem fractal_size_shape (w h : Int) (zl : ℚ) (hw : 0 < w) (hh : 0 < h) (hz : 0 < zl) :
    (if w < h then (⟨4 / zl, (4 / (w : ℚ) * (h : ℚ)) / zl⟩ : Vec2)
      else ⟨(4 / (h : ℚ) * (w : ℚ)) / zl, 4 / zl⟩).x * (h : ℚ)
    = (if w < h then (⟨4 / zl, (4 / (w : ℚ) * (h : ℚ)) / zl⟩ : Vec2)
      else ⟨(4 / (h : ℚ) * (w : ℚ)) / zl, 4 / zl⟩).y * (w : ℚ) ∧
    min (if w < h then (⟨4 / zl, (4 / (w : ℚ) * (h : ℚ)) / zl⟩ : Vec2)
      else ⟨(4 / (h : ℚ) * (w : ℚ)) / zl, 4 / zl⟩).x
      (if w < h then (⟨4 / zl, (4 / (w : ℚ) * (h : ℚ)) / zl⟩ : Vec2)
      else ⟨(4 / (h : ℚ) * (w : ℚ)) / zl, 4 / zl⟩).y * zl = 4 := by
  have hwq : (0 : ℚ) < (w : ℚ) := by exact_mod_cast hw
  have hhq : (0 : ℚ) < (h : ℚ) := by exact_mod_cast hh
  by_cases hlt : w < h
  · simp only [if_pos hlt]
    have hle : (w : ℚ) ≤ (h : ℚ) := by exact_mod_cast le_of_lt hlt
    constructor
    · field_simp
      ring
    · have h1 : 4 / zl ≤ 4 / (w : ℚ) * (h : ℚ) / zl := by
        apply div_le_div_of_nonneg_right _ (le_of_lt hz)
        rw [div_mul_eq_mul_div, le_div_iff₀ hwq]
        nlinarith
      rw [min_eq_left h1]
      field_simp
  · simp only [if_neg hlt]
    have hle : (h : ℚ) ≤ (w : ℚ) := by exact_mod_cast not_lt.mp hlt
    constructor
    · field_simp
      ring
    · have h1 : 4 / zl ≤ 4 / (h : ℚ) * (w : ℚ) / zl := by
        apply div_le_div_of_nonneg_right _ (le_of_lt hz)
        rw [div_mul_eq_mul_div, le_div_iff₀ hhq]
        nlinarith
      rw [min_eq_right h1]
      field_simp

theorem zoom_result_viewport (m : Indet) (focus : Vec2) (amount : ℚ) (t : FractalExplorer) :
    (startDrawing (generateFullWorkUnits (zoomCanvas m focus amount
      (zoomViewport focus amount t)))).canvas.width = t.canvas.width ∧
    (startDrawing (generateFullWorkUnits (zoomCanvas m focus amount
      (zoomViewport focus amount t)))).canvas.height = t.canvas.height ∧
    (startDrawing (generateFullWorkUnits (zoomCanvas m focus amount
      (zoomViewport focus amount t)))).fractal_size
        = ⟨t.fractal_size.x / amount, t.fractal_size.y / amount⟩ ∧
    (startDrawing (generateFullWorkUnits (zoomCanvas m focus amount
      (zoomViewport focus amount t)))).zoom_level = t.zoom_level * amount := by
  obtain ⟨e1, e2, _, e4, e5, _⟩ := zoomCanvas_frame m focus amount (zoomViewport focus amount t)
  refine ⟨?_, ?_, ?_, ?_⟩
  · simp only [startDrawing, generateFullWorkUnits, e1]; rfl
  · simp only [startDrawing, generateFullWorkUnits, e2]; rfl
  · simp only [startDrawing, generateFullWorkUnits, e4]; rfl
  · simp only [startDrawing, generateFullWorkUnits, e5]; rfl

/-- C12: the invariant `fractal_size.x * height = fractal_size.y * width` and
`min(fractal_size.x, fractal_size.y) * zoom_level = 4`, together with a positive
`zoom_level`, holds after `initialize` for a window of positive extent, and is kept by
`zoom` with a positive amount, by `pan`, and by `resizeCanvas` to a positive size (each
started with idle workers, so that it returns); `resizeCanvas` leaves `zoom_level` and
`offset` as they are. -/
theorem viewport_invariant :
    (∀ (m : Indet) (kind : PixelKind) (c : Vec2) (size : Vec2i), 0 < size.x → 0 < size.y →
      ViewportInvariant (initializeExplorer m kind c size).explorer ∧
      0 < (initializeExplorer m kind c size).explorer.zoom_level) ∧
    (∀ (m : Indet) (focus : Vec2) (amount : ℚ) (s : FractalExplorer),
      s.finished ≤ 0 → 0 < amount → 0 < s.canvas.width → 0 < s.canvas.height →
      ViewportInvariant s → 0 < s.zoom_level →
      ∃ r, zoom m focus amount s = some r ∧ ViewportInvariant r ∧ 0 < r.zoom_level) ∧
    (∀ (m : Indet) (delta : Vec2) (s : FractalExplorer),
      s.finished ≤ 0 → 0 < s.canvas.width → 0 < s.canvas.height →
      ViewportInvariant s → 0 < s.zoom_level →
      ∃ r, pan m delta s = some r ∧ ViewportInvariant r ∧ 0 < r.zoom_level) ∧
    (∀ (m : Indet) (size : Vec2i) (s : FractalExplorer),
      s.finished ≤ 0 → 0 < size.x → 0 < size.y → 0 < s.zoom_level →
      ∃ r, resizeCanvas m size s = some r ∧ ViewportInvariant r ∧ 0 < r.zoom_level ∧
        r.zoom_level = s.zoom_level ∧ r.offset = s.offset) := by
  refine ⟨?_, ?_, ?_, ?_⟩
  · intro m kind c size hx hy
    obtain ⟨e1, e2, e3, _, e5⟩ := initializeExplorer_fields m kind c size
    have key := fractal_size_shape size.x size.y 1 hx hy one_pos
    simp only [div_one] at key
    unfold ViewportInvariant
    rw [e1, e2, e3, e5 (ne_of_gt (lt_min hx hy))]
    exact ⟨key, one_pos⟩
  · intro m focus amount s hidle ha hw hh hinv hz
    obtain ⟨e1, e2, e3, e4⟩ := zoom_result_viewport m focus amount
      { s with stop_drawing := true, work_units := [], work_available := false }
    refine ⟨_, zoom_eq_some m focus amount s hidle, ?_, ?_⟩
    · unfold ViewportInvariant
      rw [e1, e2, e3, e4]
      obtain ⟨i1, i2⟩ := hinv
      have hane : amount ≠ 0 := ne_of_gt ha
      constructor
      · show s.fractal_size.x / amount * (s.canvas.height : ℚ)
          = s.fractal_size.y / amount * (s.canvas.width : ℚ)
        rw [div_mul_eq_mul_div, div_mul_eq_mul_div, i1]
      · show min (s.fractal_size.x / amount) (s.fractal_size.y / amount)
          * (s.zoom_level * amount) = 4
        rw [min_div_div_right (le_of_lt ha), ← i2]
        field_simp
        ring
    · rw [e4]
      exact mul_pos hz ha
  · intro m delta s hidle hw hh hinv hz
    by_cases hd : lengthSquared delta = 0
    · exact ⟨s, by simp [pan, hd], hinv, hz⟩
    · exact ⟨_, pan_eq_some m delta s hd hidle, hinv, hz⟩
  · intro m size s hidle hx hy hz
    obtain ⟨e1, e2, _⟩ := resizeCopy_extent m size
      { s with stop_drawing := true, work_units := [], work_available := false } hx
    have key := fractal_size_shape size.x size.y s.zoom_level hx hy hz
    refine ⟨_, resizeCanvas_eq_some m size s hidle, ?_, ?_, ?_, ?_⟩
    · unfold ViewportInvariant
      simp only [startDrawing, generateFullWorkUnits, resizeFractalSize]
      split
      · rename_i hlt
        simp only [if_pos hlt] at key
        simp only [e1, e2]
        exact key
      · rename_i hlt
        simp only [if_neg hlt] at key
        simp only [e1, e2]
        exact key
    · simp only [startDrawing, generateFullWorkUnits, resizeFractalSize]
      split <;> exact hz
    · simp only [startDrawing, generateFullWorkUnits, resizeFractalSize]
      split <;> rfl
    · simp only [startDrawing, generateFullWorkUnits, resizeFractalSize]
      split <;> rfl

theorem sampleSmall_invariant : ViewportInvariant sampleSmall ∧ 0 < sampleSmall.zoom_level := by
  unfold ViewportInvariant
  simp only [sampleSmall]
  norm_num

/-- C12 on the 3 x 2 sample: the invariant holds there and still holds after a zoom by
2, and the state `initialize` gives a 3 x 2 window satisfies it. -/
theorem viewport_invariant_witness :
    ViewportInvariant sampleSmall ∧
    (∃ r, zoom sampleIndet ⟨1, 1⟩ 2 sampleSmall = some r ∧ ViewportInvariant r ∧
      0 < r.zoom_level) ∧
    ViewportInvariant
      (initializeExplorer sampleIndet PixelKind.mandelbrot ⟨0, 0⟩ ⟨3, 2⟩).explorer :=
  ⟨sampleSmall_invariant.1,
   viewport_invariant.2.1 sampleIndet ⟨1, 1⟩ 2 sampleSmall (by decide) (by norm_num)
     (by decide) (by decide) sampleSmall_invariant.1 sampleSmall_invariant.2,
   (viewport_invariant.1 sampleIndet PixelKind.mandelbrot ⟨0, 0⟩ ⟨3, 2⟩
     (by decide) (by decide)).1⟩

end FractalExplorer
namespace FractalExplorer

/-! ## Pixel evaluators -/

/-- C14: with `max_iterations = 0` both evaluators return the interior colour
`(0, 0, 0)` for every pixel and every viewport, and so does the call through
`computePixel`. -/
theorem max_iterations_zero_interior (sh : Shading) (s : FractalExplorer) (px py : Int)
    (h : s.max_iterations = 0) :
    s.computeMandlebrotPixel sh px py = ⟨0, 0, 0⟩ ∧
    s.computeJuliaPixel sh px py = ⟨0, 0, 0⟩ ∧
    s.computePixelAt sh px py = ⟨0, 0, 0⟩ := by
  have h1 : s.computeMandlebrotPixel sh px py = ⟨0, 0, 0⟩ := by
    simp [computeMandlebrotPixel, h]
  have h2 : s.computeJuliaPixel sh px py = ⟨0, 0, 0⟩ := by
    simp [computeJuliaPixel, h]
  refine ⟨h1, h2, ?_⟩
  unfold computePixelAt
  split
  · exact h1
  · exact h2

/-- C14 on the 3 x 2 sample with the iteration cap set to 0, at pixel `(1, 1)`. -/
theorem max_iterations_zero_interior_witness :
    ({ sampleSmall with max_iterations := 0 } : FractalExplorer).computeMandlebrotPixel
      sampleShading 1 1 = ⟨0, 0, 0⟩ ∧
    ({ sampleSmall with max_iterations := 0 } : FractalExplorer).computeJuliaPixel
      sampleShading 1 1 = ⟨0, 0, 0⟩ ∧
    ({ sampleSmall with max_iterations := 0 } : FractalExplorer).computePixelAt
      sampleShading 1 1 = ⟨0, 0, 0⟩ :=
  max_iterations_zero_interior sampleShading { sampleSmall with max_iterations := 0 } 1 1 rfl

theorem mandelbrotLoop_succ (v0 : Vec2) (mx fuel : Nat) (st : MandelbrotVars) :
    mandelbrotLoop v0 mx (fuel + 1) st =
      if st.x2 + st.y2 ≤ 65536 ∧ st.iteration < mx then
        mandelbrotLoop v0 mx fuel
          ⟨⟨st.x2 - st.y2 + v0.x, (st.v.x + st.v.x) * st.v.y + v0.y⟩,
            sqr (st.x2 - st.y2 + v0.x), sqr ((st.v.x + st.v.x) * st.v.y + v0.y),
            st.iteration + 1⟩
      else st := rfl

/-- At the point `(0, 0)` every pass of the loop leaves the iterate at `0`, and the
loop runs until `iteration` reaches the cap. -/
theorem mandelbrotLoop_origin (mx : Nat) :
    ∀ (fuel n : Nat), n ≤ mx → mx ≤ n + fuel →
      mandelbrotLoop ⟨0, 0⟩ mx fuel ⟨⟨0, 0⟩, 0, 0, n⟩ = ⟨⟨0, 0⟩, 0, 0, mx⟩ := by
  intro fuel
  induction fuel with
  | zero =>
    intro n h1 h2
    have : n = mx := by omega
    subst this
    rfl
  | succ f ih =>
    intro n h1 h2
    rw [mandelbrotLoop_succ]
    by_cases hn : n < mx
    · rw [if_pos ⟨by norm_num, hn⟩]
      have := ih (n + 1) (by omega) (by omega)
      simpa [sqr] using this
    · rw [if_neg (fun h => hn h.2)]
      have : n = mx := by omega
      subst this
      rfl

/-- C16: for the Mandelbrot variant and every `max_iterations`, a pixel that
`screenToFractal` maps to `(0, 0)` leaves the loop with the iterate still at `0` and
`iteration` at the cap, and is given the interior colour `(0, 0, 0)`. -/
theorem mandelbrot_origin_interior (sh : Shading) (s : FractalExplorer) (px py : Int)
    (h : s.screenToFractal ⟨(px : ℚ), (py : ℚ)⟩ = ⟨0, 0⟩) :
    s.mandelbrotEscape px py = ⟨⟨0, 0⟩, 0, 0, s.max_iterations⟩ ∧
    s.computeMandlebrotPixel sh px py = ⟨0, 0, 0⟩ := by
  have he : s.mandelbrotEscape px py = ⟨⟨0, 0⟩, 0, 0, s.max_iterations⟩ := by
    unfold mandelbrotEscape
    simp only [h]
    exact mandelbrotLoop_origin s.max_iterations s.max_iterations 0 (by omega) (by omega)
  refine ⟨he, ?_⟩
  unfold computeMandlebrotPixel
  simp only [he, lt_irrefl, if_false]

theorem sample100_fields : sample100.canvas.width = 100 ∧ sample100.canvas.height = 100 ∧
    sample100.fractal_size = ⟨4, 4⟩ ∧ sample100.offset = ⟨-2, -2⟩ ∧
    sample100.max_iterations = 50 :=
  ⟨rfl, rfl, rfl, rfl, rfl⟩

/-- C16 on the 100 x 100 canvas with the initial viewport and `max_iterations = 50`:
pixel `(50, 50)` maps to `(0, 0)` and is black. -/
theorem mandelbrot_origin_interior_witness :
    sample100.screenToFractal ⟨50, 50⟩ = ⟨0, 0⟩ ∧
    sample100.mandelbrotEscape 50 50 = ⟨⟨0, 0⟩, 0, 0, 50⟩ ∧
    sample100.computeMandlebrotPixel sampleShading 50 50 = ⟨0, 0, 0⟩ := by
  have h : sample100.screenToFractal ⟨((50 : Int) : ℚ), ((50 : Int) : ℚ)⟩ = ⟨0, 0⟩ := by
    obtain ⟨a, b, c, d, _⟩ := sample100_fields
    simp only [screenToFractal, a, b, c, d]
    norm_num
  exact ⟨by simpa using h, mandelbrot_origin_interior sampleShading sample100 50 50 h⟩

/-- The run of the loop at the point `(2, 2)` with cap 50: four passes. -/
theorem mandelbrotLoop_corner :
    mandelbrotLoop ⟨2, 2⟩ 50 50 ⟨⟨0, 0⟩, 0, 0, 0⟩
      = ⟨⟨7074, -7894⟩, 50041476, 62315236, 4⟩ := by
  rw [mandelbrotLoop_succ ⟨2, 2⟩ 50 49, if_pos (by norm_num)]
  rw [mandelbrotLoop_succ ⟨2, 2⟩ 50 48, if_pos (by norm_num [sqr])]
  rw [mandelbrotLoop_succ ⟨2, 2⟩ 50 47, if_pos (by norm_num [sqr])]
  rw [mandelbrotLoop_succ ⟨2, 2⟩ 50 46, if_pos (by norm_num [sqr])]
  rw [mandelbrotLoop_succ ⟨2, 2⟩ 50 45, if_neg (by norm_num [sqr])]
  norm_num [sqr]

theorem sample100_corner (px py : Int)
    (h : sample100.screenToFractal ⟨(px : ℚ), (py : ℚ)⟩ = ⟨2, 2⟩) :
    sample100.mandelbrotEscape px py = ⟨⟨7074, -7894⟩, 50041476, 62315236, 4⟩ := by
  unfold mandelbrotEscape
  simp only [h]
  exact mandelbrotLoop_corner

theorem sample100_corner_pixel :
    sample100.screenToFractal ⟨((100 : Int) : ℚ), ((0 : Int) : ℚ)⟩ = ⟨2, 2⟩ := by
  obtain ⟨a, b, c, d, _⟩ := sample100_fields
  simp only [screenToFractal, a, b, c, d]
  norm_num

/-- C17 as stated fails: on the 100 x 100 canvas with the initial viewport and
`max_iterations = 50`, pixel coordinate `(100, 0)` maps to `(2, 2)`, and the loop does
not end with iteration count 1. -/
theorem mandelbrot_corner_not_first_iteration :
    sample100.screenToFractal ⟨((100 : Int) : ℚ), ((0 : Int) : ℚ)⟩ = ⟨2, 2⟩ ∧
    (sample100.mandelbrotEscape 100 0).iteration ≠ 1 := by
  refine ⟨sample100_corner_pixel, ?_⟩
  rw [sample100_corner 100 0 sample100_corner_pixel]
  decide

/-- C17, amended: on the 100 x 100 canvas with the initial viewport and
`max_iterations = 50`, the pixel coordinate that maps to `(2, 2)` is `(100, 0)`; after
the first pass of the loop the squared magnitude is 8, below the threshold `2 ^ 16`, and
the loop ends with iteration count 4. -/
theorem mandelbrot_corner_four_iterations :
    (∀ px py : Int, sample100.screenToFractal ⟨(px : ℚ), (py : ℚ)⟩ = ⟨2, 2⟩ →
      px = 100 ∧ py = 0 ∧ (sample100.mandelbrotEscape px py).iteration = 4) ∧
    (sample100.mandelbrotEscape 100 0).iteration = 4 ∧
    mandelbrotLoop ⟨2, 2⟩ 50 1 ⟨⟨0, 0⟩, 0, 0, 0⟩ = ⟨⟨2, 2⟩, 4, 4, 1⟩ ∧
    ((4 : ℚ) + 4 ≤ 65536) := by
  refine ⟨?_, ?_, ?_, by norm_num⟩
  · intro px py h
    have he := sample100_corner px py h
    obtain ⟨a, b, c, d, _⟩ := sample100_fields
    simp only [screenToFractal, a, b, c, d, Vec2.mk.injEq] at h
    obtain ⟨h1, h2⟩ := h
    have hx : (px : ℚ) = 100 := by
      push_cast at h1
      linarith
    have hy : (py : ℚ) = 0 := by
      push_cast at h2
      linarith
    refine ⟨by exact_mod_cast hx, by exact_mod_cast hy, ?_⟩
    rw [he]
  · rw [sample100_corner 100 0 sample100_corner_pixel]
  · rw [mandelbrotLoop_succ ⟨2, 2⟩ 50 0, if_pos (by norm_num)]
    norm_num [mandelbrotLoop, sqr]

end FractalExplorer
namespace FractalExplorer

theorem truncQ_intCast (z : Int) : truncQ (z : ℚ) = z := by
  unfold truncQ
  rw [Rat.num_intCast, Rat.den_intCast]
  simp

theorem floor_le (k : ℚ) : ((Rat.floor k : Int) : ℚ) ≤ k :=
  Rat.le_floor.mp (le_refl _)

theorem lt_floor_add_one (k : ℚ) : k < ((Rat.floor k : Int) : ℚ) + 1 := by
  by_contra h
  have h1 : (((Rat.floor k + 1 : Int)) : ℚ) ≤ k := by
    push_cast
    exact not_lt.mp h
  have := Rat.le_floor.mpr h1
  omega

theorem toU32_index (z : Int) (h0 : 0 ≤ z) (h1 : z < 4294967296) (sh : Shading) :
    getPaletteColor sh (toU32 (z : ℚ)) = paletteAt sh z := by
  unfold getPaletteColor toU32 paletteAt palette_size
  rw [truncQ_intCast, if_pos ⟨by omega, by omega⟩, Int.emod_eq_of_lt h0 h1]
  obtain ⟨n, rfl⟩ := Int.eq_ofNat_of_zero_le h0
  have e : ((n : Int) % ((200 : Nat) : Int)).toNat = n % 200 := by
    rw [← Int.natCast_mod, Int.toNat_natCast]
  rw [e, Int.toNat_natCast]

theorem between_mix (a b f : ℚ) (h0 : 0 ≤ f) (h1 : f ≤ 1) :
    Between a b ((1 - f) * a + f * b) := by
  unfold Between
  constructor
  · rcases le_total a b with h | h
    · rw [min_eq_left h]; nlinarith
    · rw [min_eq_right h]; nlinarith
  · rcases le_total a b with h | h
    · rw [max_eq_right h]; nlinarith
    · rw [max_eq_left h]; nlinarith

/-- The blend computed by both evaluators is the convex combination of the two palette
entries around the smoothed count, when that count converts to `u32`. -/
theorem smoothColor_eq (sh : Shading) (iteration : Nat) (m : ℚ)
    (h0 : 0 ≤ (iteration : ℚ) + 1 - sh.nu m)
    (h1 : (iteration : ℚ) + 1 - sh.nu m + 1 < 4294967296) :
    smoothColor sh iteration m = convexBlend sh ((iteration : ℚ) + 1 - sh.nu m) ∧
    ChannelsBetween
      (paletteAt sh (Rat.floor ((iteration : ℚ) + 1 - sh.nu m)))
      (paletteAt sh (Rat.floor ((iteration : ℚ) + 1 - sh.nu m) + 1))
      (smoothColor sh iteration m) := by
  generalize hk : (iteration : ℚ) + 1 - sh.nu m = k at h0 h1
  have hf0 : 0 ≤ Rat.floor k := Rat.le_floor.mpr (by simpa using h0)
  have hfl := floor_le k
  have hfu := lt_floor_add_one k
  have hf1 : Rat.floor k + 1 < 4294967296 := by
    have : ((Rat.floor k + 1 : Int) : ℚ) < ((4294967296 : Int) : ℚ) := by
      push_cast
      linarith
    exact_mod_cast this
  have e1 : getPaletteColor sh (toU32 ((Rat.floor k : Int) : ℚ)) = paletteAt sh (Rat.floor k) :=
    toU32_index _ hf0 (by omega) sh
  have e2 : getPaletteColor sh (toU32 (((Rat.floor k : Int) : ℚ) + 1))
      = paletteAt sh (Rat.floor k + 1) := by
    have : ((Rat.floor k : Int) : ℚ) + 1 = ((Rat.floor k + 1 : Int) : ℚ) := by push_cast; rfl
    rw [this]
    exact toU32_index _ (by omega) hf1 sh
  have hs : smoothColor sh iteration m = convexBlend sh k := by
    unfold smoothColor convexBlend
    simp only [hk, e1, e2, Color.mk.injEq]
    refine ⟨by ring, by ring, by ring⟩
  refine ⟨hs, ?_⟩
  rw [hs]
  unfold ChannelsBetween convexBlend
  have g0 : 0 ≤ k - ((Rat.floor k : Int) : ℚ) := by linarith
  have g1 : k - ((Rat.floor k : Int) : ℚ) ≤ 1 := by linarith
  exact ⟨between_mix _ _ _ g0 g1, between_mix _ _ _ g0 g1, between_mix _ _ _ g0 g1⟩

/-- C13, amended: in both evaluators, when the loop ends with an iteration count below
`max_iterations` and the smoothed count `k` converts to `u32` (`0 ≤ k` and
`k + 1 < 2 ^ 32`), the colour returned is, channel by channel,
`(1 - f) * palette[floor k] + f * palette[floor k + 1]` with `f = k - floor k` and the
palette indices taken modulo 200, and every channel lies between the channels of these
two palette entries. -/
theorem escaped_colour_convex (sh : Shading) (s : FractalExplorer) (px py : Int) :
    ((s.mandelbrotEscape px py).iteration < s.max_iterations →
      0 ≤ mandelbrotSmoothed sh s px py → mandelbrotSmoothed sh s px py + 1 < 4294967296 →
      s.computeMandlebrotPixel sh px py = convexBlend sh (mandelbrotSmoothed sh s px py) ∧
      ChannelsBetween
        (paletteAt sh (Rat.floor (mandelbrotSmoothed sh s px py)))
        (paletteAt sh (Rat.floor (mandelbrotSmoothed sh s px py) + 1))
        (s.computeMandlebrotPixel sh px py)) ∧
    ((s.juliaEscape px py).iteration < s.max_iterations →
      0 ≤ juliaSmoothed sh s px py → juliaSmoothed sh s px py + 1 < 4294967296 →
      s.computeJuliaPixel sh px py = convexBlend sh (juliaSmoothed sh s px py) ∧
      ChannelsBetween
        (paletteAt sh (Rat.floor (juliaSmoothed sh s px py)))
        (paletteAt sh (Rat.floor (juliaSmoothed sh s px py) + 1))
        (s.computeJuliaPixel sh px py)) := by
  constructor
  · intro hlt h0 h1
    have hc : s.computeMandlebrotPixel sh px py
        = smoothColor sh (s.mandelbrotEscape px py).iteration
            ((s.mandelbrotEscape px py).v.x * (s.mandelbrotEscape px py).v.x
              + (s.mandelbrotEscape px py).v.y * (s.mandelbrotEscape px py).v.y) := by
      unfold computeMandlebrotPixel
      simp only [if_pos hlt]
    rw [hc]
    exact smoothColor_eq sh _ _ h0 h1
  · intro hlt h0 h1
    have hc : s.computeJuliaPixel sh px py
        = smoothColor sh (s.juliaEscape px py).iteration
            ((s.juliaEscape px py).z.x * (s.juliaEscape px py).z.x
              + (s.juliaEscape px py).z.y * (s.juliaEscape px py).z.y) := by
      unfold computeJuliaPixel
      simp only [if_pos hlt]
    rw [hc]
    exact smoothColor_eq sh _ _ h0 h1

theorem sample100_corner_smoothed :
    mandelbrotSmoothed sampleShading sample100 100 0 = 9 / 2 := by
  unfold mandelbrotSmoothed
  rw [sample100_corner 100 0 sample100_corner_pixel]
  norm_num [sampleShading]

/-- C13 on the 100 x 100 sample at pixel coordinate `(100, 0)`, which leaves the loop
after 4 of 50 iterations: with the smoothing term `1 / 2` of `sampleShading` the
smoothed count is `9 / 2`, and the colour is the blend of palette entries 4 and 5. -/
theorem escaped_colour_convex_witness :
    mandelbrotSmoothed sampleShading sample100 100 0 = 9 / 2 ∧
    sample100.computeMandlebrotPixel sampleShading 100 0
      = convexBlend sampleShading (mandelbrotSmoothed sampleShading sample100 100 0) ∧
    ChannelsBetween
      (paletteAt sampleShading (Rat.floor (mandelbrotSmoothed sampleShading sample100 100 0)))
      (paletteAt sampleShading
        (Rat.floor (mandelbrotSmoothed sampleShading sample100 100 0) + 1))
      (sample100.computeMandlebrotPixel sampleShading 100 0) :=
  ⟨sample100_corner_smoothed,
   (escaped_colour_convex sampleShading sample100 100 0).1
     (by rw [sample100_corner 100 0 sample100_corner_pixel]; decide)
     (by rw [sample100_corner_smoothed]; norm_num)
     (by rw [sample100_corner_smoothed]; norm_num)⟩

end FractalExplorer
namespace FractalExplorer

/-! ## Tiles at work -/

theorem forRange_congr_inv {σ : Type} (P : σ → Prop) (n : Int) (body1 body2 : Int → σ → σ)
    (init : σ) (h0 : P init) (hP : ∀ i st, P st → P (body2 i st))
    (h : ∀ i : Int, 0 ≤ i → i < n → ∀ st, P st → body1 i st = body2 i st) :
    forRange n body1 init = forRange n body2 init := by
  by_cases hn : n ≤ 0
  · rw [forRange_nonpos _ _ _ hn, forRange_nonpos _ _ _ hn]
  · obtain ⟨N, rfl⟩ : ∃ N : Nat, n = (N : Int) := ⟨n.toNat, by omega⟩
    clear hn
    induction N with
    | zero => simp [forRange_eq]
    | succ k ih =>
      have e1 : ((k + 1 : Nat) : Int) = (k : Int) + 1 := by push_cast; rfl
      rw [e1, forRange_succ, forRange_succ]
      have ih2 := ih (fun i hi0 hi st hst => h i hi0 (by omega) st hst)
      rw [ih2]
      apply h k (by omega) (by omega)
      exact forRange_inv P _ _ _ h0 hP

theorem divmod_cell (w a b : Int) (ha0 : 0 ≤ a) (ha : a < w) :
    (a + b * w) % w = a ∧ (a + b * w) / w = b := by
  constructor
  · rw [Int.add_mul_emod_self]
    exact Int.emod_eq_of_lt ha0 ha
  · rw [Int.add_mul_ediv_right _ _ (by omega), Int.ediv_eq_zero_of_lt ha0 ha]
    simp

/-- The work buffer of `doWorkUnit` after its first pair of loops, as one loop of
writes: cell `i` receives the colour of pixel `(i % dw + min_x, i / dw + min_y)`. -/
theorem workBuffer_eq (m : Indet) (sh : Shading) (s : FractalExplorer) (ox oy dw dh : Int)
    (hdw : 0 ≤ dw) :
    forRange dh (fun y wb => forRange dw (fun x wb =>
        fillPixel wb x y (s.computePixelAt sh (x + ox) (y + oy))) wb)
        (Buffer.initBuffer m dw dh)
      = forRange (dw * dh) (fun i wb => wb.write i
          (getColorHex (s.computePixelAt sh (i % dw + ox) (i / dw + oy))))
          (Buffer.initBuffer m dw dh) := by
  refine (forRange_nested dw dh hdw
    (fun (x y : Int) (wb : Buffer) =>
      fillPixel wb x y (s.computePixelAt sh (x + ox) (y + oy))) _).trans ?_
  apply forRange_congr_inv (fun wb : Buffer => wb.width = dw)
  · exact (initBuffer_frame m dw dh).1
  · intro i st hst
    exact (write_extent st _ _).1.trans hst
  · intro i _ _ st hst
    unfold fillPixel
    rw [hst]
    have hi : i / dw * dw + i % dw = i := by
      rw [mul_comm]; exact Int.ediv_add_emod i dw
    rw [hi]

theorem workBuffer_cell (m : Indet) (sh : Shading) (s : FractalExplorer) (ox oy dw dh : Int)
    (hdw : 0 ≤ dw) (hdh : 0 ≤ dh) (i : Int) (hi0 : 0 ≤ i) (hi : i < dw * dh) :
    (forRange dh (fun y wb => forRange dw (fun x wb =>
        fillPixel wb x y (s.computePixelAt sh (x + ox) (y + oy))) wb)
        (Buffer.initBuffer m dw dh)).read m i
      = getColorHex (s.computePixelAt sh (i % dw + ox) (i / dw + oy)) := by
  rw [workBuffer_eq m sh s ox oy dw dh hdw]
  obtain ⟨_, _, f3⟩ := writes_frame (dw * dh) (fun i => i)
    (fun i => getColorHex (s.computePixelAt sh (i % dw + ox) (i / dw + oy)))
    (Buffer.initBuffer m dw dh)
  have g3 := (initBuffer_frame m dw dh).2.2
  obtain ⟨N, hN⟩ : ∃ N : Nat, dw * dh = (N : Int) := ⟨(dw * dh).toNat, by omega⟩
  obtain ⟨T, hT⟩ : ∃ T : Nat, i = (T : Int) := ⟨i.toNat, by omega⟩
  rw [read_eq_getD m _ _ hi0 (by rw [f3, g3]; omega)]
  have key := writes_last (fun i => i)
    (fun i => getColorHex (s.computePixelAt sh (i % dw + ox) (i / dw + oy)))
    (Buffer.initBuffer m dw dh) T 0 (by rw [g3]; omega) T rfl N (by omega)
    (fun j h1 _ => by show j ≠ (T : Int); omega)
  rw [hN, hT, Int.toNat_natCast, key]

/-- The canvas after `doWorkUnit` without cancellation, as one loop of writes over the
cells of the tile. -/
theorem doWorkUnit_canvas (m : Indet) (sh : Shading) (w : WorkUnit) (s : FractalExplorer)
    (hstop : s.stop_drawing = false) (hx : w.min_x ≤ w.max_x) (hy : w.min_y ≤ w.max_y) :
    (doWorkUnit m sh w s).canvas
      = forRange ((w.max_x - w.min_x) * (w.max_y - w.min_y)) (fun i cv =>
          cv.write (i % (w.max_x - w.min_x) + w.min_x
              + (i / (w.max_x - w.min_x) + w.min_y) * s.canvas.width)
            (getColorHex (s.computePixelAt sh (i % (w.max_x - w.min_x) + w.min_x)
              (i / (w.max_x - w.min_x) + w.min_y)))) s.canvas := by
  unfold doWorkUnit
  simp only [hstop, Bool.false_eq_true, if_false]
  refine (forRange_nested (w.max_x - w.min_x) (w.max_y - w.min_y) (by omega)
    (fun (x y : Int) (cv : Buffer) =>
      cv.write (x + w.min_x + (y + w.min_y) * s.canvas.width)
        ((forRange (w.max_y - w.min_y) (fun y wb => forRange (w.max_x - w.min_x) (fun x wb =>
          fillPixel wb x y (s.computePixelAt sh (x + w.min_x) (y + w.min_y))) wb)
          (Buffer.initBuffer m (w.max_x - w.min_x) (w.max_y - w.min_y))).read m
          (y * (w.max_x - w.min_x) + x))) _).trans ?_
  apply forRange_congr
  intro i hi0 hi st
  have he : i / (w.max_x - w.min_x) * (w.max_x - w.min_x) + i % (w.max_x - w.min_x) = i := by
    rw [mul_comm]; exact Int.ediv_add_emod i _
  simp only [he]
  rw [workBuffer_cell m sh s w.min_x w.min_y _ _ (by omega) (by omega) i hi0 hi]

theorem tile_cell_coords (w : WorkUnit) (cw ch : Int) (hin : TileInside w cw ch) (i : Int)
    (hi0 : 0 ≤ i) (hi : i < (w.max_x - w.min_x) * (w.max_y - w.min_y)) :
    w.min_x ≤ i % (w.max_x - w.min_x) + w.min_x ∧
    i % (w.max_x - w.min_x) + w.min_x < w.max_x ∧
    w.min_y ≤ i / (w.max_x - w.min_x) + w.min_y ∧
    i / (w.max_x - w.min_x) + w.min_y < w.max_y := by
  obtain ⟨a, b, c, d, e, f⟩ := hin
  have hdw : 0 < w.max_x - w.min_x := by
    by_contra hn
    have h0 : w.max_x - w.min_x = 0 := by omega
    rw [h0] at hi
    simp at hi
    omega
  have h1 := Int.emod_nonneg i (ne_of_gt hdw)
  have h2 := Int.emod_lt_of_pos i hdw
  have h3 : 0 ≤ i / (w.max_x - w.min_x) := Int.ediv_nonneg hi0 (le_of_lt hdw)
  have h4 : i / (w.max_x - w.min_x) < w.max_y - w.min_y :=
    Int.ediv_lt_of_lt_mul hdw (by rw [mul_comm]; exact hi)
  exact ⟨by omega, by omega, by omega, by omega⟩

/-- Cell of the canvas after `doWorkUnit` without cancellation: the colour of its pixel
when the pixel lies in the tile, the old content otherwise. -/
theorem doWorkUnit_cell (m : Indet) (sh : Shading) (w : WorkUnit) (s : FractalExplorer)
    (hstop : s.stop_drawing = false) (hwf : WellFormed s.canvas)
    (hin : TileInside w s.canvas.width s.canvas.height) (t : Nat)
    (ht : t < s.canvas.data.length) :
    (doWorkUnit m sh w s).canvas.data.getD t 0
      = if w.contains ((t : Int) % s.canvas.width) ((t : Int) / s.canvas.width) = true then
          getColorHex (s.computePixelAt sh ((t : Int) % s.canvas.width)
            ((t : Int) / s.canvas.width))
        else s.canvas.data.getD t 0 := by
  obtain ⟨a, b, c, d, e, f⟩ := hin
  obtain ⟨hw0, hh0, hlen⟩ := hwf
  rw [doWorkUnit_canvas m sh w s hstop b e]
  have hcw : 0 < s.canvas.width := by
    by_contra hn
    have h0 : s.canvas.width = 0 := by omega
    have hl0 : s.canvas.data.length = 0 := by rw [hlen, h0]; simp
    omega
  have hX0 := Int.emod_nonneg (t : Int) (ne_of_gt hcw)
  have hX1 := Int.emod_lt_of_pos (t : Int) hcw
  have hXY : (t : Int) % s.canvas.width + (t : Int) / s.canvas.width * s.canvas.width
      = (t : Int) := by
    rw [mul_comm]; exact Int.emod_add_ediv _ _
  obtain ⟨N, hN⟩ : ∃ N : Nat, (w.max_x - w.min_x) * (w.max_y - w.min_y) = (N : Int) :=
    ⟨((w.max_x - w.min_x) * (w.max_y - w.min_y)).toNat, by
      have : 0 ≤ (w.max_x - w.min_x) * (w.max_y - w.min_y) :=
        mul_nonneg (by omega) (by omega)
      omega⟩
  -- every pass of the loop writes the cell of a pixel of the tile
  have hpass : ∀ i : Int, 0 ≤ i → i < (N : Int) →
      i % (w.max_x - w.min_x) + w.min_x + (i / (w.max_x - w.min_x) + w.min_y) * s.canvas.width
        = (t : Int) →
      i % (w.max_x - w.min_x) + w.min_x = (t : Int) % s.canvas.width ∧
      i / (w.max_x - w.min_x) + w.min_y = (t : Int) / s.canvas.width := by
    intro i hi0 hi hg
    obtain ⟨c1, c2, c3, c4⟩ := tile_cell_coords w _ _ ⟨a, b, c, d, e, f⟩ i hi0 (by rw [hN]; exact hi)
    have := divmod_cell s.canvas.width (i % (w.max_x - w.min_x) + w.min_x)
      (i / (w.max_x - w.min_x) + w.min_y) (by omega) (by omega)
    rw [hg] at this
    exact ⟨this.1.symm, this.2.symm⟩
  rw [hN]
  by_cases hc : w.contains ((t : Int) % s.canvas.width) ((t : Int) / s.canvas.width) = true
  · rw [if_pos hc]
    rw [contains_iff] at hc
    obtain ⟨k1, k2, k3, k4⟩ := hc
    have hi := cell_index_lt (w.max_x - w.min_x) (w.max_y - w.min_y)
      ((t : Int) % s.canvas.width - w.min_x) ((t : Int) / s.canvas.width - w.min_y)
      (by omega) (by omega) (by omega) (by omega)
    obtain ⟨I, hI⟩ : ∃ I : Nat, ((t : Int) / s.canvas.width - w.min_y) * (w.max_x - w.min_x)
        + ((t : Int) % s.canvas.width - w.min_x) = (I : Int) := ⟨_, (Int.toNat_of_nonneg hi.1).symm⟩
    have hdm := divmod_cell (w.max_x - w.min_x) ((t : Int) % s.canvas.width - w.min_x)
      ((t : Int) / s.canvas.width - w.min_y) (by omega) (by omega)
    rw [add_comm, hI] at hdm
    have key := writes_last
      (fun i => i % (w.max_x - w.min_x) + w.min_x
        + (i / (w.max_x - w.min_x) + w.min_y) * s.canvas.width)
      (fun i => getColorHex (s.computePixelAt sh (i % (w.max_x - w.min_x) + w.min_x)
        (i / (w.max_x - w.min_x) + w.min_y)))
      s.canvas t 0 ht I
      (by
        show (I : Int) % (w.max_x - w.min_x) + w.min_x
          + ((I : Int) / (w.max_x - w.min_x) + w.min_y) * s.canvas.width = (t : Int)
        rw [hdm.1, hdm.2]
        have e1 : (t : Int) % s.canvas.width - w.min_x + w.min_x = (t : Int) % s.canvas.width := by
          ring
        have e2 : (t : Int) / s.canvas.width - w.min_y + w.min_y = (t : Int) / s.canvas.width := by
          ring
        rw [e1, e2]
        exact hXY)
      N (by rw [hN] at hi; omega)
      (by
        intro i h1 h2 hg
        have hp := hpass i (by omega) h2 hg
        have hi2 : i / (w.max_x - w.min_x) * (w.max_x - w.min_x) + i % (w.max_x - w.min_x) = i := by
          rw [mul_comm]; exact Int.ediv_add_emod i _
        have e3 : i % (w.max_x - w.min_x) = (t : Int) % s.canvas.width - w.min_x := by omega
        have e4 : i / (w.max_x - w.min_x) = (t : Int) / s.canvas.width - w.min_y := by omega
        rw [e3, e4, hI] at hi2
        omega)
    rw [key]
    simp only [hdm.1, hdm.2]
    have e1 : (t : Int) % s.canvas.width - w.min_x + w.min_x = (t : Int) % s.canvas.width := by
      ring
    have e2 : (t : Int) / s.canvas.width - w.min_y + w.min_y = (t : Int) / s.canvas.width := by
      ring
    rw [e1, e2]
  · rw [if_neg hc]
    apply writes_untouched
    intro i hi0 hi hg
    apply hc
    have hp := hpass i hi0 hi hg
    obtain ⟨c1, c2, c3, c4⟩ := tile_cell_coords w _ _ ⟨a, b, c, d, e, f⟩ i hi0 (by rw [hN]; exact hi)
    rw [contains_iff, ← hp.1, ← hp.2]
    exact ⟨c1, c2, c3, c4⟩

theorem computePixelAt_congr (sh : Shading) (r s : FractalExplorer) (h : SameFrame r s)
    (px py : Int) : r.computePixelAt sh px py = s.computePixelAt sh px py := by
  obtain ⟨h1, h2, h3, h4, h5, _, h7, h8, _⟩ := h
  have hs : ∀ p, r.screenToFractal p = s.screenToFractal p := by
    intro p
    unfold screenToFractal
    rw [h4, h5, h7, h8]
  unfold computePixelAt computeMandlebrotPixel computeJuliaPixel mandelbrotEscape juliaEscape
  rw [h1, h2, h3, hs]

theorem doWorkUnit_frame (m : Indet) (sh : Shading) (w : WorkUnit) (s : FractalExplorer)
    (hstop : s.stop_drawing = false) (hx : w.min_x ≤ w.max_x) (hy : w.min_y ≤ w.max_y) :
    SameFrame (doWorkUnit m sh w s) s := by
  have hc := doWorkUnit_canvas m sh w s hstop hx hy
  obtain ⟨f1, f2, f3⟩ := writes_frame ((w.max_x - w.min_x) * (w.max_y - w.min_y))
    (fun i => i % (w.max_x - w.min_x) + w.min_x
        + (i / (w.max_x - w.min_x) + w.min_y) * s.canvas.width)
    (fun i => getColorHex (s.computePixelAt sh (i % (w.max_x - w.min_x) + w.min_x)
        (i / (w.max_x - w.min_x) + w.min_y))) s.canvas
  refine ⟨rfl, rfl, rfl, rfl, rfl, rfl, ?_, ?_, ?_⟩
  · rw [hc]; exact f1
  · rw [hc]; exact f2
  · rw [hc]; exact f3

/-- Cell of the canvas after the tiles of a list have been drawn, in the order of the
list, without cancellation: the colour of its pixel when some tile of the list contains
the pixel, the old content otherwise.  The order does not enter. -/
theorem drawTiles_cell (m : Indet) (sh : Shading) :
    ∀ (tiles : List WorkUnit) (s : FractalExplorer), s.stop_drawing = false →
      WellFormed s.canvas →
      (∀ w ∈ tiles, TileInside w s.canvas.width s.canvas.height) →
      SameFrame (drawTiles m sh tiles s) s ∧
      ∀ t : Nat, t < s.canvas.data.length →
        (drawTiles m sh tiles s).canvas.data.getD t 0
          = if tiles.any (fun w => w.contains ((t : Int) % s.canvas.width)
                ((t : Int) / s.canvas.width)) = true then
              getColorHex (s.computePixelAt sh ((t : Int) % s.canvas.width)
                ((t : Int) / s.canvas.width))
            else s.canvas.data.getD t 0 := by
  intro tiles
  induction tiles with
  | nil =>
    intro s _ _ _
    exact ⟨⟨rfl, rfl, rfl, rfl, rfl, rfl, rfl, rfl, rfl⟩, fun t _ => by simp [drawTiles]⟩
  | cons w tiles ih =>
    intro s hstop hwf hin
    have hw := hin w (List.mem_cons_self w tiles)
    have hf := doWorkUnit_frame m sh w s hstop hw.2.1 hw.2.2.2.2.1
    obtain ⟨_, _, _, _, _, g6, g7, g8, g9⟩ := id hf
    have hwf1 : WellFormed (doWorkUnit m sh w s).canvas := by
      obtain ⟨a, b, c⟩ := hwf
      exact ⟨by rw [g7]; exact a, by rw [g8]; exact b, by rw [g9, g7, g8]; exact c⟩
    have hin1 : ∀ w' ∈ tiles, TileInside w' (doWorkUnit m sh w s).canvas.width
        (doWorkUnit m sh w s).canvas.height := by
      intro w' hw'
      rw [g7, g8]
      exact hin w' (List.mem_cons_of_mem w hw')
    obtain ⟨hfr, hcell⟩ := ih (doWorkUnit m sh w s) (g6.trans hstop) hwf1 hin1
    have hstep : drawTiles m sh (w :: tiles) s = drawTiles m sh tiles (doWorkUnit m sh w s) :=
      rfl
    rw [hstep]
    constructor
    · obtain ⟨a1, a2, a3, a4, a5, a6, a7, a8, a9⟩ := hfr
      obtain ⟨b1, b2, b3, b4, b5, b6, b7, b8, b9⟩ := id hf
      exact ⟨a1.trans b1, a2.trans b2, a3.trans b3, a4.trans b4, a5.trans b5, a6.trans b6,
        a7.trans b7, a8.trans b8, a9.trans b9⟩
    · intro t ht
      rw [hcell t (by rw [g9]; exact ht), g7, computePixelAt_congr sh _ s hf,
        doWorkUnit_cell m sh w s hstop hwf hw t ht]
      simp only [List.any_cons, Bool.or_eq_true]
      by_cases h1 : tiles.any (fun w => w.contains ((t : Int) % s.canvas.width)
          ((t : Int) / s.canvas.width)) = true
      · simp [h1]
      · by_cases h2 : w.contains ((t : Int) % s.canvas.width) ((t : Int) / s.canvas.width) = true
        · simp [h1, h2]
        · simp [h1, h2]

theorem list_eq_of_getD (l1 l2 : List Nat) (hl : l1.length = l2.length)
    (h : ∀ t : Nat, t < l1.length → l1.getD t 0 = l2.getD t 0) : l1 = l2 := by
  apply List.ext_getElem hl
  intro n h1 h2
  have := h n h1
  rw [List.getD_eq_getElem?_getD, List.getD_eq_getElem?_getD,
    List.getElem?_eq_getElem h1, List.getElem?_eq_getElem h2] at this
  simpa using this

theorem buffer_eq (a b : Buffer) (hw : a.width = b.width) (hh : a.height = b.height)
    (hd : a.data = b.data) : a = b := by
  cases a
  cases b
  simp only at hw hh hd
  subst hw hh hd
  rfl

/-- Two lists with the same tiles, drawn in any order and with any content of fresh
storage, give the same canvas. -/
theorem drawTiles_same_tiles (m1 m2 : Indet) (sh : Shading) (l1 l2 : List WorkUnit)
    (s : FractalExplorer) (hstop : s.stop_drawing = false) (hwf : WellFormed s.canvas)
    (h1 : ∀ w ∈ l1, TileInside w s.canvas.width s.canvas.height)
    (h12 : ∀ w, w ∈ l1 ↔ w ∈ l2) :
    (drawTiles m1 sh l1 s).canvas = (drawTiles m2 sh l2 s).canvas := by
  have h2 : ∀ w ∈ l2, TileInside w s.canvas.width s.canvas.height :=
    fun w hw => h1 w ((h12 w).mpr hw)
  obtain ⟨f1, c1⟩ := drawTiles_cell m1 sh l1 s hstop hwf h1
  obtain ⟨f2, c2⟩ := drawTiles_cell m2 sh l2 s hstop hwf h2
  obtain ⟨_, _, _, _, _, _, a7, a8, a9⟩ := f1
  obtain ⟨_, _, _, _, _, _, b7, b8, b9⟩ := f2
  apply buffer_eq _ _ (a7.trans b7.symm) (a8.trans b8.symm)
  apply list_eq_of_getD _ _ (a9.trans b9.symm)
  intro t ht
  rw [a9] at ht
  rw [c1 t ht, c2 t ht]
  have hany : l1.any (fun w => w.contains ((t : Int) % s.canvas.width)
        ((t : Int) / s.canvas.width))
      = l2.any (fun w => w.contains ((t : Int) % s.canvas.width)
        ((t : Int) / s.canvas.width)) := by
    rw [Bool.eq_iff_iff]
    simp only [List.any_eq_true]
    constructor
    · rintro ⟨w, hw, hc⟩
      exact ⟨w, (h12 w).mp hw, hc⟩
    · rintro ⟨w, hw, hc⟩
      exact ⟨w, (h12 w).mpr hw, hc⟩
  rw [hany]

theorem generated_tiles_inside (s : FractalExplorer) (hq : s.work_units = []) :
    ∀ t ∈ s.generateFullWorkUnits.work_units,
      TileInside t s.canvas.width s.canvas.height := by
  intro t ht
  have hs := tileStep_pos s.canvas.width s.canvas.height
  unfold generateFullWorkUnits at ht
  rcases generateRows_mem _ _ _ t _ 0 _ (by omega) ht with h1 | h1
  · rw [hq] at h1
    exact absurd h1 (List.not_mem_nil t)
  · obtain ⟨a, b, c, d, e, f⟩ := h1
    unfold TileInside
    rw [c, f]
    refine ⟨a, ?_, min_le_right _ _, d, ?_, min_le_right _ _⟩
    · exact le_min (by omega) (le_of_lt b)
    · exact le_min (by omega) (le_of_lt e)

theorem generated_tiles_cover (s : FractalExplorer) (hq : s.work_units = []) (x y : Int)
    (hx0 : 0 ≤ x) (hx : x < s.canvas.width) (hy0 : 0 ≤ y) (hy : y < s.canvas.height) :
    s.generateFullWorkUnits.work_units.any (fun w => w.contains x y) = true := by
  have h1 := (generateFullWorkUnits_tiles s hq).1 x y hx0 hx hy0 hy
  have hpos : 0 < s.generateFullWorkUnits.work_units.countP (fun t => t.contains x y) := by
    rw [h1]; exact one_pos
  obtain ⟨t, ht, hc⟩ := List.countP_pos_iff.mp hpos
  exact List.any_eq_true.mpr ⟨t, ht, hc⟩

/-- C15: let the tiles be generated on an empty queue for a well-formed canvas of
positive extent, and drawing be started.  Drawing all tiles with `doWorkUnit`, without
cancellation, gives the same canvas for every order of the tiles and every content of
fresh storage; `doWorkUnit` on two tiles of the set commutes; and in the canvas so
obtained every pixel `(x, y)` holds `getColorHex(computePixel(x, y))`. -/
theorem drawing_order_independent (m : Indet) (sh : Shading) (s : FractalExplorer)
    (hq : s.work_units = []) (hwf : WellFormed s.canvas)
    (hw : 0 < s.canvas.width) (hh : 0 < s.canvas.height) :
    (∀ (m2 : Indet) (order : List WorkUnit),
      order.Perm s.generateFullWorkUnits.startDrawing.work_units →
      (drawTiles m2 sh order s.generateFullWorkUnits.startDrawing).canvas
        = (drawTiles m sh s.generateFullWorkUnits.startDrawing.work_units
            s.generateFullWorkUnits.startDrawing).canvas) ∧
    (∀ t1 ∈ s.generateFullWorkUnits.startDrawing.work_units,
      ∀ t2 ∈ s.generateFullWorkUnits.startDrawing.work_units,
      (doWorkUnit m sh t1 (doWorkUnit m sh t2 s.generateFullWorkUnits.startDrawing)).canvas
        = (doWorkUnit m sh t2 (doWorkUnit m sh t1 s.generateFullWorkUnits.startDrawing)).canvas) ∧
    (∀ order : List WorkUnit, order.Perm s.generateFullWorkUnits.startDrawing.work_units →
      ∀ x y : Int, 0 ≤ x → x < s.canvas.width → 0 ≤ y → y < s.canvas.height →
        (drawTiles m sh order s.generateFullWorkUnits.startDrawing).canvas.pixel x y
          = some (getColorHex (s.generateFullWorkUnits.startDrawing.computePixelAt sh x y))) := by
  have hstop : s.generateFullWorkUnits.startDrawing.stop_drawing = false := rfl
  have hwfd : WellFormed s.generateFullWorkUnits.startDrawing.canvas := hwf
  have hin : ∀ t ∈ s.generateFullWorkUnits.startDrawing.work_units,
      TileInside t s.generateFullWorkUnits.startDrawing.canvas.width
        s.generateFullWorkUnits.startDrawing.canvas.height :=
    generated_tiles_inside s hq
  refine ⟨?_, ?_, ?_⟩
  · intro m2 order hp
    exact drawTiles_same_tiles m2 m sh order _ _ hstop hwfd
      (fun w hw => hin w (hp.mem_iff.mp hw)) (fun w => hp.mem_iff)
  · intro t1 h1 t2 h2
    have e1 : (doWorkUnit m sh t1 (doWorkUnit m sh t2 s.generateFullWorkUnits.startDrawing))
        = drawTiles m sh [t2, t1] s.generateFullWorkUnits.startDrawing := rfl
    have e2 : (doWorkUnit m sh t2 (doWorkUnit m sh t1 s.generateFullWorkUnits.startDrawing))
        = drawTiles m sh [t1, t2] s.generateFullWorkUnits.startDrawing := rfl
    rw [e1, e2]
    apply drawTiles_same_tiles m m sh _ _ _ hstop hwfd
    · intro w hw
      simp only [List.mem_cons, List.mem_singleton, List.not_mem_nil, or_false] at hw
      rcases hw with rfl | rfl
      · exact hin _ h2
      · exact hin _ h1
    · intro w
      simp only [List.mem_cons, List.mem_singleton, List.not_mem_nil, or_false]
      exact or_comm
  · intro order hp x y hx0 hx hy0 hy
    obtain ⟨hfr, hcell⟩ := drawTiles_cell m sh order s.generateFullWorkUnits.startDrawing
      hstop hwfd (fun w hw => hin w (hp.mem_iff.mp hw))
    obtain ⟨_, _, _, _, _, _, a7, a8, a9⟩ := hfr
    obtain ⟨w0, h0, hlen⟩ := hwfd
    have hcw : s.generateFullWorkUnits.startDrawing.canvas.width = s.canvas.width := rfl
    have hch : s.generateFullWorkUnits.startDrawing.canvas.height = s.canvas.height := rfl
    have hi := cell_index_lt s.canvas.width s.canvas.height x y hx0 hx hy0 hy
    rw [pixel_eq_getD _ (by rw [a7, a8, a9]; exact hlen) x y hx0 (by rw [a7]; exact hx) hy0
      (by rw [a8]; exact hy), a7, hcw]
    have hlt : (y * s.canvas.width + x).toNat
        < s.generateFullWorkUnits.startDrawing.canvas.data.length := by
      rw [hlen, hcw, hch]; omega
    rw [hcell _ hlt, hcw, Int.toNat_of_nonneg hi.1]
    have hdm := divmod_cell s.canvas.width x y hx0 hx
    rw [add_comm] at hdm
    rw [hdm.1, hdm.2]
    have hany : order.any (fun w => w.contains x y) = true := by
      obtain ⟨t, ht, hc⟩ := List.any_eq_true.mp (generated_tiles_cover s hq x y hx0 hx hy0 hy)
      exact List.any_eq_true.mpr ⟨t, hp.mem_iff.mpr ht, hc⟩
    rw [if_pos hany]

/-- C15 on the 60 x 2 sample, whose tile set has two tiles. -/
theorem drawing_order_independent_witness :
    sampleDrained.generateFullWorkUnits.startDrawing.work_units
      = [⟨0, 50, 0, 2⟩, ⟨50, 60, 0, 2⟩] ∧
    (drawTiles sampleIndet sampleShading [⟨50, 60, 0, 2⟩, ⟨0, 50, 0, 2⟩]
        sampleDrained.generateFullWorkUnits.startDrawing).canvas
      = (drawTiles sampleIndet sampleShading [⟨0, 50, 0, 2⟩, ⟨50, 60, 0, 2⟩]
        sampleDrained.generateFullWorkUnits.startDrawing).canvas ∧
    (∀ x y : Int, 0 ≤ x → x < 60 → 0 ≤ y → y < 2 →
      (drawTiles sampleIndet sampleShading [⟨50, 60, 0, 2⟩, ⟨0, 50, 0, 2⟩]
        sampleDrained.generateFullWorkUnits.startDrawing).canvas.pixel x y
        = some (getColorHex
            (sampleDrained.generateFullWorkUnits.startDrawing.computePixelAt
              sampleShading x y))) :=
  ⟨by decide,
   (drawing_order_independent sampleIndet sampleShading sampleDrained rfl
      (by unfold WellFormed; decide) (by decide) (by decide)).1 sampleIndet
      [⟨50, 60, 0, 2⟩, ⟨0, 50, 0, 2⟩] (List.Perm.swap _ _ _),
   (drawing_order_independent sampleIndet sampleShading sampleDrained rfl
      (by unfold WellFormed; decide) (by decide) (by decide)).2.2
      [⟨50, 60, 0, 2⟩, ⟨0, 50, 0, 2⟩] (List.Perm.swap _ _ _)⟩

end FractalExplorer
namespace FractalExplorer

/-! ## Canvas content after `pan` -/

theorem memcpy_full (dst src : List Nat) (n : Nat) (hs : src.length = n)
    (hd : dst.length = n) : memcpy dst src n = src := by
  unfold memcpy
  rw [List.take_of_length_le (by omega), List.drop_of_length_le (by omega)]
  simp

theorem initBuffer_getD (m : Indet) (w h : Int) (t : Nat) (ht : t < (w * h).toNat) :
    (Buffer.initBuffer m w h).data.getD t 0 = m.fresh t := by
  unfold Buffer.initBuffer
  simp only
  rw [List.getD_eq_getElem?_getD, List.getElem?_map, List.getElem?_range ht]
  rfl

/-- The canvas after the shift of `pan`, as one loop of writes: source cell `i` is
written to cell `i + panDisplacement`, clamped to `[0, width * height]`. -/
theorem panShift_data (m : Indet) (delta : Vec2) (s : FractalExplorer)
    (hwf : WellFormed s.canvas) :
    (panShift m delta s).canvas.data
      = (forRange (s.canvas.width * s.canvas.height) (fun i wk =>
          wk.write (max 0 (min (i + panDisplacement delta s.canvas.width)
              (s.canvas.width * s.canvas.height)))
            (s.canvas.read m i))
          (Buffer.initBuffer m s.canvas.width s.canvas.height)).data := by
  obtain ⟨hw0, hh0, hlen⟩ := hwf
  unfold panShift
  simp only
  have hloop : forRange s.canvas.height (fun y wk =>
        forRange s.canvas.width (fun x wk =>
          wk.write (panWorkIndex delta (Buffer.initBuffer m s.canvas.width s.canvas.height).width
              (Buffer.initBuffer m s.canvas.width s.canvas.height).height x y)
            (s.canvas.read m (y * s.canvas.width + x))) wk)
        (Buffer.initBuffer m s.canvas.width s.canvas.height)
      = forRange (s.canvas.width * s.canvas.height) (fun i wk =>
          wk.write (max 0 (min (i + panDisplacement delta s.canvas.width)
              (s.canvas.width * s.canvas.height)))
            (s.canvas.read m i))
          (Buffer.initBuffer m s.canvas.width s.canvas.height) := by
    refine (forRange_nested s.canvas.width s.canvas.height hw0
      (fun (x y : Int) (wk : Buffer) =>
        wk.write (panWorkIndex delta (Buffer.initBuffer m s.canvas.width s.canvas.height).width
              (Buffer.initBuffer m s.canvas.width s.canvas.height).height x y)
            (s.canvas.read m (y * s.canvas.width + x))) _).trans ?_
    apply forRange_congr
    intro i _ _ st
    have hi : i / s.canvas.width * s.canvas.width + i % s.canvas.width = i := by
      rw [mul_comm]; exact Int.ediv_add_emod i _
    have hidx : panWorkIndex delta (Buffer.initBuffer m s.canvas.width s.canvas.height).width
          (Buffer.initBuffer m s.canvas.width s.canvas.height).height
          (i % s.canvas.width) (i / s.canvas.width)
        = max 0 (min (i + panDisplacement delta s.canvas.width)
            (s.canvas.width * s.canvas.height)) := by
      unfold panWorkIndex panDisplacement
      rw [(initBuffer_frame m _ _).1, (initBuffer_frame m _ _).2.1]
      congr 2
      linear_combination hi
    rw [hidx, hi]
  rw [hloop]
  apply memcpy_full
  · rw [(writes_frame _ _ _ _).2.2, (initBuffer_frame m _ _).2.2]
    congr 1
    ring
  · rw [hlen]
    congr 1
    ring

/-- Cell `t` of the canvas after the shift of `pan`, with `D = panDisplacement` and
`N = width * height`.  A cell `t ≥ 1` holds source cell `t - D` when that is a cell of
the canvas, and the content of the fresh work buffer otherwise.  Cell `0` receives every
source cell whose target index is clamped up to `0`, and keeps the last of them. -/
theorem panShift_cell (m : Indet) (delta : Vec2) (s : FractalExplorer)
    (hwf : WellFormed s.canvas) (t : Nat) (ht : t < s.canvas.data.length) :
    (panShift m delta s).canvas.data.getD t 0
      = if t = 0 then
          (if panDisplacement delta s.canvas.width ≤ 0 then
            s.canvas.data.getD (min (- panDisplacement delta s.canvas.width)
              (s.canvas.width * s.canvas.height - 1)).toNat 0
           else m.fresh 0)
        else if 0 ≤ (t : Int) - panDisplacement delta s.canvas.width ∧
            (t : Int) - panDisplacement delta s.canvas.width
              < s.canvas.width * s.canvas.height then
          s.canvas.data.getD ((t : Int) - panDisplacement delta s.canvas.width).toNat 0
        else m.fresh t := by
  rw [panShift_data m delta s hwf]
  obtain ⟨hw0, hh0, hlen⟩ := hwf
  generalize hD : panDisplacement delta s.canvas.width = D
  obtain ⟨N, hN⟩ : ∃ N : Nat, s.canvas.width * s.canvas.height = (N : Int) :=
    ⟨(s.canvas.width * s.canvas.height).toNat, by
      have := mul_nonneg hw0 hh0
      omega⟩
  have hNlen : s.canvas.data.length = N := by rw [hlen, hN]; simp
  have hfresh : (Buffer.initBuffer m s.canvas.width s.canvas.height).data.getD t 0
      = m.fresh t := initBuffer_getD m _ _ t (by rw [hN]; simp; omega)
  have hlen0 : (Buffer.initBuffer m s.canvas.width s.canvas.height).data.length = N := by
    rw [(initBuffer_frame m _ _).2.2, hN]; simp
  rw [hN]
  -- the value written by a pass from an in-range source cell
  have hread : ∀ i : Nat, i < N → s.canvas.read m (i : Int) = s.canvas.data.getD i 0 := by
    intro i hi
    rw [read_eq_getD m _ _ (by omega) (by rw [Int.toNat_natCast]; omega), Int.toNat_natCast]
  by_cases ht0 : t = 0
  · subst ht0
    rw [if_pos rfl]
    by_cases hDle : D ≤ 0
    · rw [if_pos hDle]
      obtain ⟨I, hI⟩ : ∃ I : Nat, min (-D) ((N : Int) - 1) = (I : Int) :=
        ⟨(min (-D) ((N : Int) - 1)).toNat, by omega⟩
      have key := writes_last (fun i => max 0 (min (i + D) (N : Int)))
        (fun i => s.canvas.read m i)
        (Buffer.initBuffer m s.canvas.width s.canvas.height) 0 0 (by omega) I
        (by show max 0 (min ((I : Int) + D) (N : Int)) = ((0 : Nat) : Int); omega)
        N (by omega)
        (by
          intro i h1 h2
          show max 0 (min (i + D) (N : Int)) ≠ ((0 : Nat) : Int)
          omega)
      rw [key, hI, Int.toNat_natCast]
      exact hread I (by omega)
    · rw [if_neg hDle]
      rw [writes_untouched (fun i => max 0 (min (i + D) (N : Int)))
        (fun i => s.canvas.read m i) _ 0 0 N
        (by
          intro i h0 h1
          show max 0 (min (i + D) (N : Int)) ≠ ((0 : Nat) : Int)
          omega)]
      exact hfresh
  · rw [if_neg ht0]
    by_cases hsrc : 0 ≤ (t : Int) - D ∧ (t : Int) - D < (N : Int)
    · rw [if_pos hsrc]
      obtain ⟨I, hI⟩ : ∃ I : Nat, (t : Int) - D = (I : Int) :=
        ⟨((t : Int) - D).toNat, by omega⟩
      have key := writes_last (fun i => max 0 (min (i + D) (N : Int)))
        (fun i => s.canvas.read m i)
        (Buffer.initBuffer m s.canvas.width s.canvas.height) t 0 (by omega) I
        (by show max 0 (min ((I : Int) + D) (N : Int)) = (t : Int); omega)
        N (by omega)
        (by
          intro i h1 h2
          show max 0 (min (i + D) (N : Int)) ≠ (t : Int)
          omega)
      rw [key, hI, Int.toNat_natCast]
      exact hread I (by omega)
    · rw [if_neg hsrc]
      rw [writes_untouched (fun i => max 0 (min (i + D) (N : Int)))
        (fun i => s.canvas.read m i) _ t 0 N
        (by
          intro i h0 h1
          show max 0 (min (i + D) (N : Int)) ≠ (t : Int)
          omega)]
      exact hfresh

theorem panShift_length (m : Indet) (delta : Vec2) (s : FractalExplorer)
    (hwf : WellFormed s.canvas) :
    (panShift m delta s).canvas.data.length = s.canvas.data.length := by
  rw [panShift_data m delta s hwf, (writes_frame _ _ _ _).2.2, (initBuffer_frame m _ _).2.2]
  exact hwf.2.2.symm

/-- A source pixel whose shifted position lies inside the canvas is found there after
the shift of `pan`. -/
theorem panShift_pixel (m : Indet) (delta : Vec2) (s : FractalExplorer)
    (hwf : WellFormed s.canvas)
    (x y : Int) (hx0 : 0 ≤ x) (hx : x < s.canvas.width) (hy0 : 0 ≤ y)
    (hy : y < s.canvas.height)
    (htx0 : 0 ≤ x + Rat.floor delta.x) (htx : x + Rat.floor delta.x < s.canvas.width)
    (hty0 : 0 ≤ y + Rat.floor delta.y) (hty : y + Rat.floor delta.y < s.canvas.height) :
    (panShift m delta s).canvas.pixel (x + Rat.floor delta.x) (y + Rat.floor delta.y)
      = some (s.canvas.data.getD (y * s.canvas.width + x).toNat 0) := by
  have hlen := panShift_length m delta s hwf
  have hsrc := cell_index_lt s.canvas.width s.canvas.height x y hx0 hx hy0 hy
  have htgt := cell_index_lt s.canvas.width s.canvas.height _ _ htx0 htx hty0 hty
  have hsum : (y + Rat.floor delta.y) * s.canvas.width + (x + Rat.floor delta.x)
      = (y * s.canvas.width + x) + panDisplacement delta s.canvas.width := by
    unfold panDisplacement
    ring
  have hl := hwf.2.2
  have hw' : (panShift m delta s).canvas.width = s.canvas.width := rfl
  have hh' : (panShift m delta s).canvas.height = s.canvas.height := rfl
  rw [pixel_eq_getD (panShift m delta s).canvas (by rw [hlen, hw', hh']; exact hl) _ _ htx0
    (by rw [hw']; exact htx) hty0 (by rw [hh']; exact hty), hw']
  congr 1
  rw [panShift_cell m delta s hwf _ (by rw [hl]; omega)]
  rw [hsum] at htgt ⊢
  generalize panDisplacement delta s.canvas.width = D at htgt ⊢
  generalize y * s.canvas.width + x = i at hsrc htgt ⊢
  generalize s.canvas.width * s.canvas.height = N at hsrc htgt ⊢
  by_cases h0 : (i + D).toNat = 0
  · rw [if_pos h0]
    have hD : D ≤ 0 := by omega
    rw [if_pos hD]
    congr 1
    omega
  · rw [if_neg h0]
    have hin : 0 ≤ (((i + D).toNat : Nat) : Int) - D ∧ (((i + D).toNat : Nat) : Int) - D < N := by
      omega
    rw [if_pos hin]
    congr 1
    omega

/-- C18: with idle workers and a well-formed canvas, for every non-zero `delta` and
every source pixel `(x, y)` of the canvas whose shifted position
`(x + floor(delta.x), y + floor(delta.y))` lies inside the canvas, the canvas pixel at
the shifted position holds after `pan` what the pixel at `(x, y)` held before. -/
theorem pan_shifts_pixels (m : Indet) (delta : Vec2) (s : FractalExplorer)
    (hidle : s.finished ≤ 0) (hd : lengthSquared delta ≠ 0) (hwf : WellFormed s.canvas)
    (x y : Int) (hx0 : 0 ≤ x) (hx : x < s.canvas.width) (hy0 : 0 ≤ y)
    (hy : y < s.canvas.height)
    (htx0 : 0 ≤ x + Rat.floor delta.x) (htx : x + Rat.floor delta.x < s.canvas.width)
    (hty0 : 0 ≤ y + Rat.floor delta.y) (hty : y + Rat.floor delta.y < s.canvas.height) :
    ∃ r v, pan m delta s = some r ∧ s.canvas.pixel x y = some v ∧
      r.canvas.pixel (x + Rat.floor delta.x) (y + Rat.floor delta.y) = some v := by
  have hwf0 : WellFormed
      ({ s with stop_drawing := true, work_units := [], work_available := false }
        : FractalExplorer).canvas := hwf
  exact ⟨_, s.canvas.data.getD (y * s.canvas.width + x).toNat 0,
    pan_eq_some m delta s hd hidle, pixel_eq_getD _ hwf.2.2 x y hx0 hx hy0 hy,
    panShift_pixel m delta _ hwf0 x y hx0 hx hy0 hy htx0 htx hty0 hty⟩

/-- C18 on the 3 x 2 sample panned by `(1, 0)`: pixel `(0, 0)`, which holds 1, moves to
`(1, 0)`. -/
theorem pan_shifts_pixels_witness :
    sampleSmall.canvas.pixel 0 0 = some 1 ∧
    ∃ r v, pan sampleIndet ⟨1, 0⟩ sampleSmall = some r ∧
      sampleSmall.canvas.pixel 0 0 = some v ∧
      r.canvas.pixel (0 + Rat.floor (1 : ℚ)) (0 + Rat.floor (0 : ℚ)) = some v :=
  ⟨by decide,
   pan_shifts_pixels sampleIndet ⟨1, 0⟩ sampleSmall (by decide)
    (by norm_num [lengthSquared, sqr]) (by unfold WellFormed; decide) 0 0
    (by decide) (by decide) (by decide) (by decide)
    (by decide) (by decide) (by decide) (by decide)⟩

/-- C19 as stated fails: on the 3 x 2 sample with cells 1 to 6 panned by `(1, 0)`, the
source pixel `(2, 0)`, which holds 3 and is shifted to `(3, 0)` outside the canvas,
reappears at pixel `(0, 1)` of the next row, and pixel `(0, 0)`, which is the shifted
image of no source pixel and held 1, holds the content 7 of the fresh work buffer. -/
theorem pan_wraps_and_overwrites :
    ∃ r, pan sampleIndet ⟨1, 0⟩ sampleSmall = some r ∧
      sampleSmall.canvas.data = [1, 2, 3, 4, 5, 6] ∧
      r.canvas.data = [7, 1, 2, 3, 4, 5] ∧
      sampleSmall.canvas.pixel 2 0 = some 3 ∧
      ¬ (2 + Rat.floor (1 : ℚ) < sampleSmall.canvas.width) ∧
      r.canvas.pixel 0 1 = some 3 ∧
      sampleSmall.canvas.pixel 0 0 = some 1 ∧
      r.canvas.pixel 0 0 = some 7 :=
  ⟨_, pan_eq_some sampleIndet ⟨1, 0⟩ sampleSmall (by norm_num [lengthSquared, sqr])
      (by decide),
    by decide, by decide, by decide, by decide, by decide, by decide, by decide⟩

/-- C19, amended: with idle workers and a well-formed canvas, for every non-zero
`delta`, `pan` moves the cells of the canvas in row-major order by
`D = floor(delta.y) * width + floor(delta.x)` and keeps the extent.  A cell `t ≥ 1`
holds afterwards the old cell `t - D` when that is a cell of the canvas, also when the
shifted column of that source pixel lies outside the canvas, so that it appears on a
neighbouring row; otherwise it holds the content of the freshly allocated work buffer,
not its old value.  Cell `0` holds the old cell `min(-D, width * height - 1)` when
`D ≤ 0` and the content of the fresh work buffer otherwise. -/
theorem pan_cells (m : Indet) (delta : Vec2) (s : FractalExplorer)
    (hidle : s.finished ≤ 0) (hd : lengthSquared delta ≠ 0) (hwf : WellFormed s.canvas) :
    ∃ r, pan m delta s = some r ∧
      r.canvas.width = s.canvas.width ∧ r.canvas.height = s.canvas.height ∧
      r.canvas.data.length = s.canvas.data.length ∧
      ∀ t : Nat, t < s.canvas.data.length →
        r.canvas.data.getD t 0
          = if t = 0 then
              (if panDisplacement delta s.canvas.width ≤ 0 then
                s.canvas.data.getD (min (- panDisplacement delta s.canvas.width)
                  (s.canvas.width * s.canvas.height - 1)).toNat 0
               else m.fresh 0)
            else if 0 ≤ (t : Int) - panDisplacement delta s.canvas.width ∧
                (t : Int) - panDisplacement delta s.canvas.width
                  < s.canvas.width * s.canvas.height then
              s.canvas.data.getD ((t : Int) - panDisplacement delta s.canvas.width).toNat 0
            else m.fresh t := by
  have hwf0 : WellFormed
      ({ s with stop_drawing := true, work_units := [], work_available := false }
        : FractalExplorer).canvas := hwf
  refine ⟨_, pan_eq_some m delta s hd hidle, rfl, rfl, ?_, ?_⟩
  · exact panShift_length m delta _ hwf0
  · intro t ht
    exact panShift_cell m delta _ hwf0 t ht

/-- C19, amended, on the 3 x 2 sample panned by `(1, 0)`. -/
theorem pan_cells_witness :
    panDisplacement ⟨1, 0⟩ sampleSmall.canvas.width = 1 ∧
    ∃ r, pan sampleIndet ⟨1, 0⟩ sampleSmall = some r ∧
      r.canvas.width = sampleSmall.canvas.width ∧
      r.canvas.height = sampleSmall.canvas.height ∧
      r.canvas.data.length = sampleSmall.canvas.data.length ∧
      ∀ t : Nat, t < sampleSmall.canvas.data.length →
        r.canvas.data.getD t 0
          = if t = 0 then
              (if panDisplacement ⟨1, 0⟩ sampleSmall.canvas.width ≤ 0 then
                sampleSmall.canvas.data.getD
                  (min (- panDisplacement ⟨1, 0⟩ sampleSmall.canvas.width)
                  (sampleSmall.canvas.width * sampleSmall.canvas.height - 1)).toNat 0
               else sampleIndet.fresh 0)
            else if 0 ≤ (t : Int) - panDisplacement ⟨1, 0⟩ sampleSmall.canvas.width ∧
                (t : Int) - panDisplacement ⟨1, 0⟩ sampleSmall.canvas.width
                  < sampleSmall.canvas.width * sampleSmall.canvas.height then
              sampleSmall.canvas.data.getD
                ((t : Int) - panDisplacement ⟨1, 0⟩ sampleSmall.canvas.width).toNat 0
            else sampleIndet.fresh t :=
  ⟨by decide,
   pan_cells sampleIndet ⟨1, 0⟩ sampleSmall (by decide) (by norm_num [lengthSquared, sqr])
    (by unfold WellFormed; decide)⟩

end FractalExplorer
namespace FractalExplorer

/-! ## Construction -/

/-- C20 as stated fails: for a window of width 0 and height 5 construction does not
fail.  It returns an object with a canvas (of extent 0 x 5 and no cells) and 16 worker
threads started, after the viewport members `offset` and `zoom_level` have been
set. -/
theorem construct_zero_width_succeeds :
    ∃ r, construct sampleIndet PixelKind.mandelbrot ⟨0, 0⟩ ⟨0, 5⟩ = some r ∧
      r.threads = 16 ∧ r.explorer.canvas = ⟨[], 0, 5⟩ ∧
      r.explorer.offset = ⟨-2, -2⟩ ∧ r.explorer.zoom_level = 1 :=
  ⟨_, rfl, rfl, by decide, rfl, rfl⟩

/-- C20, amended: construction performs no check of the window size.  For a size whose
product `width * height` fits `i32`, it fails only when the product is negative, by the
exception of the array allocation, which comes before any worker thread is started and
before the viewport is computed.  For every other such size, a zero width or height
included, it succeeds: the canvas has the extent of the window and `width * height`
cells, `offset` and `zoom_level` are set and the 16 worker threads are started; when
the smaller of width and height is not zero, `fractal_size` is given by the formulas
used for a positive size. -/
theorem construct_unchecked (m : Indet) (kind : PixelKind) (c : Vec2) (size : Vec2i)
    (hp : InI32 (size.x * size.y)) :
    (size.x * size.y < 0 → construct m kind c size = none) ∧
    (0 ≤ size.x * size.y →
      ∃ r, construct m kind c size = some r ∧ r.threads = N_THREAD ∧
        r.explorer.canvas.width = size.x ∧ r.explorer.canvas.height = size.y ∧
        r.explorer.canvas.data.length = (size.x * size.y).toNat ∧
        r.explorer.offset = ⟨-2, -2⟩ ∧ r.explorer.zoom_level = 1 ∧
        (min size.x size.y ≠ 0 →
          r.explorer.fractal_size
            = (if size.x < size.y then ⟨4, 4 / (size.x : ℚ) * (size.y : ℚ)⟩
               else ⟨4 / (size.y : ℚ) * (size.x : ℚ), 4⟩))) := by
  constructor
  · intro h
    unfold construct
    rw [if_pos h]
  · intro h
    obtain ⟨e1, e2, e3, e4, e5⟩ := initializeExplorer_fields m kind c size
    have hl : (initializeExplorer m kind c size).explorer.canvas.data.length
        = (size.x * size.y).toNat :=
      (fillBuffer_frame (Buffer.initBuffer m size.x size.y) BLACK).2.2.trans
        (initBuffer_frame m size.x size.y).2.2
    refine ⟨initializeExplorer m kind c size, ?_, rfl, e1, e2, hl, e4, e3, e5⟩
    unfold construct
    rw [if_neg (by omega)]

/-- C20, amended, at a window of width -1 and height 5, where construction fails, at a
window of width 0 and height 5 and at a window of width 3 and height 2. -/
theorem construct_unchecked_witness :
    construct sampleIndet PixelKind.mandelbrot ⟨0, 0⟩ ⟨-1, 5⟩ = none ∧
    (∃ r, construct sampleIndet PixelKind.mandelbrot ⟨0, 0⟩ ⟨0, 5⟩ = some r ∧
      r.threads = N_THREAD ∧
      r.explorer.canvas.width = 0 ∧ r.explorer.canvas.height = 5 ∧
      r.explorer.canvas.data.length = ((0 : Int) * 5).toNat ∧
      r.explorer.offset = ⟨-2, -2⟩ ∧ r.explorer.zoom_level = 1) ∧
    (∃ r, construct sampleIndet PixelKind.mandelbrot ⟨0, 0⟩ ⟨3, 2⟩ = some r ∧
      r.threads = N_THREAD ∧
      r.explorer.canvas.width = 3 ∧ r.explorer.canvas.height = 2 ∧
      r.explorer.canvas.data.length = ((3 : Int) * 2).toNat ∧
      r.explorer.offset = ⟨-2, -2⟩ ∧ r.explorer.zoom_level = 1 ∧
      r.explorer.fractal_size = ⟨4 / (((2 : Int) : ℚ)) * (((3 : Int) : ℚ)), 4⟩) := by
  refine ⟨(construct_unchecked sampleIndet PixelKind.mandelbrot ⟨0, 0⟩ ⟨-1, 5⟩
    (by decide)).1 (by decide), ?_, ?_⟩
  · obtain ⟨r, h1, h2, h3, h4, h5, h6, h7, _⟩ :=
      (construct_unchecked sampleIndet PixelKind.mandelbrot ⟨0, 0⟩ ⟨0, 5⟩ (by decide)).2
        (by decide)
    exact ⟨r, h1, h2, h3, h4, h5, h6, h7⟩
  · obtain ⟨r, h1, h2, h3, h4, h5, h6, h7, h8⟩ :=
      (construct_unchecked sampleIndet PixelKind.mandelbrot ⟨0, 0⟩ ⟨3, 2⟩ (by decide)).2
        (by decide)
    exact ⟨r, h1, h2, h3, h4, h5, h6, h7, h8 (by decide)⟩

end FractalExplorer
namespace FractalExplorer

/-! ## Fuel of the escape loops -/

/-- Fuel beyond `max_iterations - iteration` does not change the loop of
`computeMandlebrotPixel`: the loop condition, not the fuel, ends it. -/
theorem mandelbrotLoop_fuel (v0 : Vec2) (mx : Nat) :
    ∀ (fuel extra : Nat) (st : MandelbrotVars), mx ≤ st.iteration + fuel →
      mandelbrotLoop v0 mx (fuel + extra) st = mandelbrotLoop v0 mx fuel st := by
  intro fuel
  induction fuel with
  | zero =>
    intro extra st h
    have hn : ¬ (st.x2 + st.y2 ≤ 65536 ∧ st.iteration < mx) := fun hc => by omega
    cases extra with
    | zero => rfl
    | succ e =>
      rw [Nat.zero_add, mandelbrotLoop_succ, if_neg hn]
      rfl
  | succ n ih =>
    intro extra st h
    rw [show n + 1 + extra = (n + extra) + 1 by omega, mandelbrotLoop_succ, mandelbrotLoop_succ]
    by_cases hc : st.x2 + st.y2 ≤ 65536 ∧ st.iteration < mx
    · rw [if_pos hc, if_pos hc]
      exact ih extra _ (by simp only; omega)
    · rw [if_neg hc, if_neg hc]

theorem juliaLoop_succ (c : Vec2) (mx fuel : Nat) (st : JuliaVars) :
    juliaLoop c mx (fuel + 1) st =
      if st.z.x * st.z.x + st.z.y * st.z.y < 100 * 100 ∧ st.iteration < mx then
        juliaLoop c mx fuel
          ⟨⟨st.z.x * st.z.x - st.z.y * st.z.y + c.x, 2 * st.z.x * st.z.y + c.y⟩,
            st.iteration + 1⟩
      else st := rfl

/-- Fuel beyond `max_iterations - iteration` does not change the loop of
`computeJuliaPixel`. -/
theorem juliaLoop_fuel (c : Vec2) (mx : Nat) :
    ∀ (fuel extra : Nat) (st : JuliaVars), mx ≤ st.iteration + fuel →
      juliaLoop c mx (fuel + extra) st = juliaLoop c mx fuel st := by
  intro fuel
  induction fuel with
  | zero =>
    intro extra st h
    have hn : ¬ (st.z.x * st.z.x + st.z.y * st.z.y < 100 * 100 ∧ st.iteration < mx) :=
      fun hc => by omega
    cases extra with
    | zero => rfl
    | succ e =>
      rw [Nat.zero_add, juliaLoop_succ, if_neg hn]
      rfl
  | succ n ih =>
    intro extra st h
    rw [show n + 1 + extra = (n + extra) + 1 by omega, juliaLoop_succ, juliaLoop_succ]
    by_cases hc : st.z.x * st.z.x + st.z.y * st.z.y < 100 * 100 ∧ st.iteration < mx
    · rw [if_pos hc, if_pos hc]
      exact ih extra _ (by simp only; omega)
    · rw [if_neg hc, if_neg hc]

end FractalExplorer

namespace FractalExplorer

/-! ## Composition of zooms -/

/-- Viewport and worker count of the state `zoom` returns, in terms of the state after
`stopDrawing`. -/
theorem zoom_result_fields (m : Indet) (focus : Vec2) (amount : ℚ) (t : FractalExplorer) :
    (startDrawing (generateFullWorkUnits (zoomCanvas m focus amount
      (zoomViewport focus amount t)))).offset
        = ⟨t.offset.x + (focus.x * (t.fractal_size.x / (t.canvas.width : ℚ))
            - focus.x * (t.fractal_size.x / amount / (t.canvas.width : ℚ))),
           t.offset.y + (((t.canvas.height : ℚ) - focus.y)
              * (t.fractal_size.y / (t.canvas.height : ℚ))
            - ((t.canvas.height : ℚ) - focus.y)
              * (t.fractal_size.y / amount / (t.canvas.height : ℚ)))⟩ ∧
    (startDrawing (generateFullWorkUnits (zoomCanvas m focus amount
      (zoomViewport focus amount t)))).finished = t.finished := by
  constructor
  · have e := (zoomCanvas_frame m focus amount (zoomViewport focus amount t)).2.2.1
    simp only [startDrawing, generateFullWorkUnits, e]
    simp only [zoomViewport, screenToFractal, Vec2.add, Vec2.sub, Vec2.divScalar,
      Vec2.mk.injEq]
    constructor <;> ring
  · unfold zoomCanvas
    split <;> rfl

/-- C30: with idle workers and a non-zero `a`, `zoom(focus, a)` followed by
`zoom(focus, b)` returns, and the `offset`, `fractal_size` and `zoom_level` it leaves are
those `zoom(focus, a * b)` leaves on the first state; `zoom(focus, a)` followed by
`zoom(focus, 1 / a)` leaves the `offset`, `fractal_size` and `zoom_level` of the first
state. -/
theorem zoom_composes (m : Indet) (focus : Vec2) (a b : ℚ) (s : FractalExplorer)
    (h : s.finished ≤ 0) (ha : a ≠ 0) :
    ∃ r1 r2 r, zoom m focus a s = some r1 ∧ zoom m focus b r1 = some r2 ∧
      zoom m focus (a * b) s = some r ∧
      r2.offset = r.offset ∧ r2.fractal_size = r.fractal_size ∧
      r2.zoom_level = r.zoom_level ∧
      ∃ r3, zoom m focus (1 / a) r1 = some r3 ∧ r3.offset = s.offset ∧
        r3.fractal_size = s.fractal_size ∧ r3.zoom_level = s.zoom_level := by
  obtain ⟨w1, h1, f1, z1⟩ := zoom_result_viewport m focus a
    { s with stop_drawing := true, work_units := [], work_available := false }
  obtain ⟨o1, n1⟩ := zoom_result_fields m focus a
    { s with stop_drawing := true, work_units := [], work_available := false }
  have hr1 : (startDrawing (generateFullWorkUnits (zoomCanvas m focus a (zoomViewport focus a
      { s with stop_drawing := true, work_units := [], work_available := false })))).finished
      ≤ 0 := by rw [n1]; exact h
  have key : ∀ c : ℚ, ∃ r', zoom m focus c (startDrawing (generateFullWorkUnits
      (zoomCanvas m focus a (zoomViewport focus a
      { s with stop_drawing := true, work_units := [], work_available := false }))))
        = some r' ∧
      r'.offset = ⟨s.offset.x + (focus.x * (s.fractal_size.x / (s.canvas.width : ℚ))
            - focus.x * (s.fractal_size.x / (a * c) / (s.canvas.width : ℚ))),
           s.offset.y + (((s.canvas.height : ℚ) - focus.y)
              * (s.fractal_size.y / (s.canvas.height : ℚ))
            - ((s.canvas.height : ℚ) - focus.y)
              * (s.fractal_size.y / (a * c) / (s.canvas.height : ℚ)))⟩ ∧
      r'.fractal_size = ⟨s.fractal_size.x / (a * c), s.fractal_size.y / (a * c)⟩ ∧
      r'.zoom_level = s.zoom_level * (a * c) := by
    intro c
    refine ⟨_, zoom_eq_some m focus c _ hr1, ?_, ?_, ?_⟩
    · obtain ⟨o2, _⟩ := zoom_result_fields m focus c
        { (startDrawing (generateFullWorkUnits (zoomCanvas m focus a (zoomViewport focus a
          { s with stop_drawing := true, work_units := [], work_available := false }))))
          with stop_drawing := true, work_units := [], work_available := false }
      rw [o2]
      simp only [o1, f1, w1, h1, Vec2.mk.injEq, div_div]
      constructor <;> ring
    · obtain ⟨_, _, f2, _⟩ := zoom_result_viewport m focus c
        { (startDrawing (generateFullWorkUnits (zoomCanvas m focus a (zoomViewport focus a
          { s with stop_drawing := true, work_units := [], work_available := false }))))
          with stop_drawing := true, work_units := [], work_available := false }
      rw [f2]
      simp only [f1, div_div]
    · obtain ⟨_, _, _, z2⟩ := zoom_result_viewport m focus c
        { (startDrawing (generateFullWorkUnits (zoomCanvas m focus a (zoomViewport focus a
          { s with stop_drawing := true, work_units := [], work_available := false }))))
          with stop_drawing := true, work_units := [], work_available := false }
      rw [z2]
      simp only [z1]
      ring
  obtain ⟨r2, e2, p2, q2, u2⟩ := key b
  obtain ⟨_, _, f3, z3⟩ := zoom_result_viewport m focus (a * b)
    { s with stop_drawing := true, work_units := [], work_available := false }
  obtain ⟨o3, _⟩ := zoom_result_fields m focus (a * b)
    { s with stop_drawing := true, work_units := [], work_available := false }
  refine ⟨_, r2, _, zoom_eq_some m focus a s h, e2, zoom_eq_some m focus (a * b) s h,
    ?_, ?_, ?_, ?_⟩
  · rw [p2, o3]
  · rw [q2, f3]
  · rw [u2, z3]
  · obtain ⟨r3, e3, p3, q3, u3⟩ := key (1 / a)
    have h1a : a * (1 / a) = 1 := mul_one_div_cancel ha
    refine ⟨r3, e3, ?_, ?_, ?_⟩
    · rw [p3, h1a]
      simp
    · rw [q3, h1a]
      simp
    · rw [u3, h1a]
      simp

/-- C30 on the 60 x 2 sample: zooming by 2 and then by 3 about pixel `(10, 1)`. -/
theorem zoom_composes_witness :
    ∃ r1 r2 r, zoom sampleIndet ⟨10, 1⟩ 2 sampleDrained = some r1 ∧
      zoom sampleIndet ⟨10, 1⟩ 3 r1 = some r2 ∧
      zoom sampleIndet ⟨10, 1⟩ (2 * 3) sampleDrained = some r ∧
      r2.offset = r.offset ∧ r2.fractal_size = r.fractal_size ∧
      r2.zoom_level = r.zoom_level ∧
      ∃ r3, zoom sampleIndet ⟨10, 1⟩ (1 / 2) r1 = some r3 ∧
        r3.offset = sampleDrained.offset ∧
        r3.fractal_size = sampleDrained.fractal_size ∧
        r3.zoom_level = sampleDrained.zoom_level :=
  zoom_composes sampleIndet ⟨10, 1⟩ 2 3 sampleDrained (by decide) (by norm_num)

end FractalExplorer

namespace FractalExplorer

/-! ## Tiles of one generation -/

/-- A list in which every element contains a point that exactly one element contains has
no element twice. -/
theorem nodup_of_countP (l : List WorkUnit)
    (h : ∀ t ∈ l, ∃ x y : Int, t.contains x y = true ∧
      l.countP (fun u => u.contains x y) = 1) : l.Nodup := by
  rw [List.nodup_iff_count_le_one]
  intro a
  by_cases ha : a ∈ l
  · obtain ⟨x, y, hc, h1⟩ := h a ha
    rw [← h1, List.count]
    apply List.countP_mono_left
    intro u _ hu
    have : u = a := by simpa using hu
    rw [this]
    exact hc
  · rw [List.count_eq_zero_of_not_mem ha]
    exact Nat.zero_le 1

/-- Generating on an empty queue and starting leaves a fresh generation. -/
theorem fresh_of_generated (t : FractalExplorer) (hq : t.work_units = []) :
    FreshGeneration (startDrawing (generateFullWorkUnits t)) := by
  have hp : TilesPartitionCanvas (startDrawing (generateFullWorkUnits t)) :=
    generateFullWorkUnits_tiles t hq
  refine ⟨?_, hp, ?_, rfl, rfl⟩
  · simp only [startDrawing, generateFullWorkUnits, hq]
  · apply nodup_of_countP
    intro u hu
    have hs := tileStep_pos t.canvas.width t.canvas.height
    have hu' : u ∈ generateRows (tileStep t.canvas.width t.canvas.height) t.canvas.width
        t.canvas.height t.canvas.height.toNat 0 t.work_units := hu
    rcases generateRows_mem _ _ _ u _ 0 _ (by omega) hu' with h1 | h1
    · rw [hq] at h1
      exact absurd h1 (List.not_mem_nil u)
    · obtain ⟨a, b, c, d, e, f⟩ := h1
      refine ⟨u.min_x, u.min_y, ?_, hp.1 u.min_x u.min_y a b d e⟩
      rw [contains_iff, c, f]
      refine ⟨le_refl _, ?_, le_refl _, ?_⟩
      · exact lt_min (by omega) b
      · exact lt_min (by omega) e

/-- C26: the state `initialize` leaves, and with idle workers the state each of
`resizeCanvas`, `pan` with a non-zero delta and `zoom` returns, holds as its queue
exactly the tile list generated on an empty queue for its own canvas extent, whatever
the queue was before: the tiles partition the canvas, none occurs twice,
`stop_drawing` is false and `work_available` is true. -/
theorem operations_leave_fresh_generation (m : Indet) (s : FractalExplorer)
    (h : s.finished ≤ 0) :
    (∀ (kind : PixelKind) (c : Vec2) (size : Vec2i),
      FreshGeneration (initializeExplorer m kind c size).explorer) ∧
    (∀ size : Vec2i, ∃ r, resizeCanvas m size s = some r ∧ FreshGeneration r) ∧
    (∀ delta : Vec2, lengthSquared delta ≠ 0 →
      ∃ r, pan m delta s = some r ∧ FreshGeneration r) ∧
    (∀ (focus : Vec2) (amount : ℚ),
      ∃ r, zoom m focus amount s = some r ∧ FreshGeneration r) := by
  refine ⟨?_, ?_, ?_, ?_⟩
  · intro kind c size
    exact fresh_of_generated _ rfl
  · intro size
    exact ⟨_, resizeCanvas_eq_some m size s h,
      fresh_of_generated _ (resizeFractalSize_frame size _).2⟩
  · intro delta hd
    exact ⟨_, pan_eq_some m delta s hd h, fresh_of_generated _ rfl⟩
  · intro focus amount
    refine ⟨_, zoom_eq_some m focus amount s h, fresh_of_generated _ ?_⟩
    exact (zoomCanvas_frame m focus amount _).2.2.2.2.2.1

/-- C26 on the 60 x 2 sample with a queue left over from before. -/
theorem operations_leave_fresh_generation_witness :
    (∀ (kind : PixelKind) (c : Vec2) (size : Vec2i),
      FreshGeneration (initializeExplorer sampleIndet kind c size).explorer) ∧
    (∀ size : Vec2i, ∃ r, resizeCanvas sampleIndet size sampleIdle = some r ∧
      FreshGeneration r) ∧
    (∀ delta : Vec2, lengthSquared delta ≠ 0 →
      ∃ r, pan sampleIndet delta sampleIdle = some r ∧ FreshGeneration r) ∧
    (∀ (focus : Vec2) (amount : ℚ),
      ∃ r, zoom sampleIndet focus amount sampleIdle = some r ∧ FreshGeneration r) :=
  operations_leave_fresh_generation sampleIndet sampleIdle (by decide)

end FractalExplorer

namespace FractalExplorer

/-! ## The tile list and the reference grid -/

/-- The indices below `ceilDiv a b` are those whose multiple of `b` is below `a`. -/
theorem lt_ceilDiv_iff (a b : Int) (hb : 1 ≤ b) (j : Nat) :
    j < ceilDiv a b ↔ (j : Int) * b < a := by
  unfold ceilDiv
  have hb0 : 0 < b := by omega
  constructor
  · intro h
    have h1 : ((j : Int) + 1) ≤ (a + b - 1) / b := by omega
    have h2 := (Int.le_ediv_iff_mul_le hb0).mp h1
    nlinarith
  · intro h
    have h2 : ((j : Int) + 1) * b ≤ a + b - 1 := by nlinarith
    have h1 := (Int.le_ediv_iff_mul_le hb0).mpr h2
    omega

theorem ceilDiv_nonpos (a b : Int) (hb : 1 ≤ b) (ha : a ≤ 0) : ceilDiv a b = 0 := by
  by_contra hne
  have h0 : 0 < ceilDiv a b := Nat.pos_of_ne_zero hne
  have := (lt_ceilDiv_iff a b hb 0).mp h0
  simp at this
  omega

theorem ceilDiv_step (a b : Int) (hb : 1 ≤ b) (ha : 0 < a) :
    ceilDiv a b = ceilDiv (a - b) b + 1 := by
  unfold ceilDiv
  have hb0 : b ≠ 0 := by omega
  have e : a + b - 1 = (a - b + b - 1) + 1 * b := by ring
  rw [e, Int.add_mul_ediv_right _ _ hb0]
  have h0 : 0 ≤ (a - b + b - 1) / b := Int.ediv_nonneg (by omega) (by omega)
  omega

/-- The inner loop appends the tiles of one row of the grid. -/
theorem generateRow_eq (step w h y : Int) (hstep : 1 ≤ step) :
    ∀ (fuel : Nat) (x : Int) (q : List WorkUnit), (w - x).toNat ≤ fuel →
      generateRow step w h y fuel x q
        = q ++ (List.range (ceilDiv (w - x) step)).map (fun (i : Nat) =>
            (⟨x + (i : Int) * step, min (x + (i : Int) * step + step) w,
              y, min (y + step) h⟩ : WorkUnit)) := by
  intro fuel
  induction fuel with
  | zero =>
    intro x q hf
    rw [ceilDiv_nonpos _ _ hstep (by omega)]
    simp [generateRow]
  | succ n ih =>
    intro x q hf
    by_cases hx : x < w
    · rw [generateRow, if_pos hx, ih _ _ (by omega), ceilDiv_step (w - x) step hstep (by omega),
        List.range_succ_eq_map, List.map_cons, List.map_map, List.append_assoc]
      have e : w - (x + step) = w - x - step := by ring
      rw [e]
      congr 1
      simp only [List.singleton_append, Nat.cast_zero, zero_mul, add_zero, List.cons.injEq,
        true_and]
      apply List.map_congr_left
      intro i _
      simp only [Function.comp, Nat.succ_eq_add_one, Nat.cast_add, Nat.cast_one]
      have e2 : x + step + (i : Int) * step = x + ((i : Int) + 1) * step := by ring
      rw [e2]
    · rw [generateRow, if_neg hx, ceilDiv_nonpos _ _ hstep (by omega)]
      simp

/-- The outer loop appends the rows of the grid from `y` on. -/
theorem generateRows_eq (step w h : Int) (hstep : 1 ≤ step) :
    ∀ (fuel : Nat) (y : Int) (q : List WorkUnit), (h - y).toNat ≤ fuel →
      generateRows step w h fuel y q
        = q ++ (List.range (ceilDiv (h - y) step)).flatMap (fun (j : Nat) =>
            (List.range (ceilDiv w step)).map (fun (i : Nat) =>
              (⟨(i : Int) * step, min ((i : Int) * step + step) w,
                y + (j : Int) * step, min (y + (j : Int) * step + step) h⟩ : WorkUnit))) := by
  intro fuel
  induction fuel with
  | zero =>
    intro y q hf
    rw [ceilDiv_nonpos _ _ hstep (by omega)]
    simp [generateRows]
  | succ n ih =>
    intro y q hf
    by_cases hy : y < h
    · rw [generateRows, if_pos hy, ih _ _ (by omega), ceilDiv_step (h - y) step hstep (by omega),
        List.range_succ_eq_map, List.flatMap_cons, List.flatMap_map,
        generateRow_eq step w h y hstep _ 0 q (by omega), List.append_assoc]
      have e : h - (y + step) = h - y - step := by ring
      rw [e]
      congr 2
      · simp
      · apply List.flatMap_congr
        intro j _
        apply List.map_congr_left
        intro i _
        simp only [Nat.succ_eq_add_one, Nat.cast_add, Nat.cast_one]
        have e2 : y + step + (j : Int) * step = y + ((j : Int) + 1) * step := by ring
        rw [e2]
    · rw [generateRows, if_neg hy, ceilDiv_nonpos _ _ hstep (by omega)]
      simp

theorem length_flatMap_const {α β : Type} (f : α → List β) (k : Nat)
    (hf : ∀ a, (f a).length = k) : ∀ l : List α, (l.flatMap f).length = l.length * k := by
  intro l
  induction l with
  | nil => simp
  | cons a t ih =>
    rw [List.flatMap_cons, List.length_append, ih, hf, List.length_cons]
    ring

end FractalExplorer

namespace FractalExplorer

/-- For a non-negative `a` and a positive `b`, `ceilDiv a b` is the quotient `a / b`
rounded up. -/
theorem ceilDiv_eq_ceil (a b : Int) (hb : 1 ≤ b) (ha : 0 < a) :
    ((ceilDiv a b : Nat) : Int) = ⌈(a : ℚ) / (b : ℚ)⌉ := by
  have hbq : (0 : ℚ) < (b : ℚ) := by exact_mod_cast (by omega : 0 < b)
  have hpos : 0 < ceilDiv a b := by
    rw [lt_ceilDiv_iff a b hb 0]
    simpa using ha
  obtain ⟨k, hk⟩ : ∃ k, ceilDiv a b = k + 1 := ⟨ceilDiv a b - 1, by omega⟩
  have h1 : (k : Int) * b < a := (lt_ceilDiv_iff a b hb k).mp (by omega)
  have h2 : ¬ ((k + 1 : Nat) : Int) * b < a := fun h =>
    absurd ((lt_ceilDiv_iff a b hb (k + 1)).mpr h) (by omega)
  symm
  rw [Int.ceil_eq_iff, hk]
  constructor
  · rw [lt_div_iff₀ hbq]
    have : ((k : Int) : ℚ) * (b : ℚ) < (a : ℚ) := by exact_mod_cast h1
    push_cast at this ⊢
    have e : ((k : ℚ) + 1 - 1) * (b : ℚ) = (k : ℚ) * (b : ℚ) := by ring
    rw [e]
    exact this
  · rw [div_le_iff₀ hbq]
    have : (a : ℚ) ≤ (((k + 1 : Nat) : Int) : ℚ) * (b : ℚ) := by exact_mod_cast not_lt.mp h2
    push_cast at this ⊢
    linarith

/-- C22: for a canvas of positive extent `w x h` and an empty queue, the tile list
`generateFullWorkUnits` leaves is the reference grid with edge
`s = max(50, min(w, h) div 10)`; it has `ceil(w / s) * ceil(h / s)` tiles, and every
tile is non-empty and at most `s` wide and `s` high. -/
theorem tiles_equal_reference_grid (s : FractalExplorer) (hq : s.work_units = [])
    (hw : 0 < s.canvas.width) (hh : 0 < s.canvas.height) :
    s.generateFullWorkUnits.work_units = referenceGrid s.canvas.width s.canvas.height ∧
    tileStep s.canvas.width s.canvas.height
      = max 50 (min s.canvas.width s.canvas.height / 10) ∧
    (s.generateFullWorkUnits.work_units.length : Int)
      = ⌈(s.canvas.width : ℚ) / (tileStep s.canvas.width s.canvas.height : ℚ)⌉
        * ⌈(s.canvas.height : ℚ) / (tileStep s.canvas.width s.canvas.height : ℚ)⌉ ∧
    (∀ t ∈ s.generateFullWorkUnits.work_units,
      t.min_x < t.max_x ∧ t.min_y < t.max_y ∧
      t.max_x - t.min_x ≤ tileStep s.canvas.width s.canvas.height ∧
      t.max_y - t.min_y ≤ tileStep s.canvas.width s.canvas.height) := by
  have hs := tileStep_pos s.canvas.width s.canvas.height
  have hstep : tileStep s.canvas.width s.canvas.height
      = max 50 (min s.canvas.width s.canvas.height / 10) := by
    unfold tileStep
    rw [Int.tdiv_eq_ediv (le_min (le_of_lt hw) (le_of_lt hh)) (by norm_num)]
  have heq : s.generateFullWorkUnits.work_units
      = referenceGrid s.canvas.width s.canvas.height := by
    unfold generateFullWorkUnits referenceGrid
    simp only
    rw [generateRows_eq _ _ _ hs _ 0 _ (by omega), hq, ← hstep]
    simp
  refine ⟨heq, hstep, ?_, ?_⟩
  · rw [heq]
    unfold referenceGrid
    simp only
    rw [length_flatMap_const _ (ceilDiv s.canvas.width
      (max 50 (min s.canvas.width s.canvas.height / 10))) (fun a => by simp),
      List.length_range, ← hstep, Nat.cast_mul, ceilDiv_eq_ceil _ _ hs hw,
      ceilDiv_eq_ceil _ _ hs hh]
    ring
  · intro t ht
    unfold generateFullWorkUnits at ht
    rcases generateRows_mem _ _ _ t _ 0 _ (by omega) ht with h1 | h1
    · rw [hq] at h1
      exact absurd h1 (List.not_mem_nil t)
    · obtain ⟨a, b, c, d, e, f⟩ := h1
      rw [c, f]
      refine ⟨lt_min (by omega) b, lt_min (by omega) e, ?_, ?_⟩
      · have := min_le_left (t.min_x + tileStep s.canvas.width s.canvas.height) s.canvas.width
        omega
      · have := min_le_left (t.min_y + tileStep s.canvas.width s.canvas.height) s.canvas.height
        omega

/-- C22 on the 60 x 2 sample: the grid is `[0, 50) x [0, 2)`, `[50, 60) x [0, 2)`. -/
theorem tiles_equal_reference_grid_witness :
    sampleDrained.generateFullWorkUnits.work_units
      = referenceGrid sampleDrained.canvas.width sampleDrained.canvas.height ∧
    tileStep sampleDrained.canvas.width sampleDrained.canvas.height
      = max 50 (min sampleDrained.canvas.width sampleDrained.canvas.height / 10) ∧
    (sampleDrained.generateFullWorkUnits.work_units.length : Int)
      = ⌈(sampleDrained.canvas.width : ℚ)
            / (tileStep sampleDrained.canvas.width sampleDrained.canvas.height : ℚ)⌉
        * ⌈(sampleDrained.canvas.height : ℚ)
            / (tileStep sampleDrained.canvas.width sampleDrained.canvas.height : ℚ)⌉ ∧
    (∀ t ∈ sampleDrained.generateFullWorkUnits.work_units,
      t.min_x < t.max_x ∧ t.min_y < t.max_y ∧
      t.max_x - t.min_x ≤ tileStep sampleDrained.canvas.width sampleDrained.canvas.height ∧
      t.max_y - t.min_y ≤ tileStep sampleDrained.canvas.width sampleDrained.canvas.height) :=
  tiles_equal_reference_grid sampleDrained rfl (by decide) (by decide)

end FractalExplorer

namespace FractalExplorer

/-! ## The escape loops and the plain recurrences -/

/-- A count that is at most `cap`, has no stop before it, and is a stop when below
`cap`, is the least stop or `cap`. -/
theorem isLeastStop_of (stop : Nat → Prop) (cap count : Nat) (h1 : count ≤ cap)
    (h2 : ∀ k, k < count → ¬ stop k) (h3 : count < cap → stop count) :
    IsLeastStop stop cap count := by
  constructor
  · intro n hn hs hk
    rcases Nat.lt_trichotomy count n with h | h | h
    · exact absurd (h3 (by omega)) (hk count h)
    · exact h
    · exact absurd hs (h2 n h)
  · intro hnone
    by_contra hne
    exact hnone count h1 (h3 (by omega))

/-- Started after `n` passes with the variables of the plain recurrence, the loop of
`computeMandlebrotPixel` ends with the variables of the recurrence at its final count,
which is the first index at which the bound is exceeded, or the cap. -/
theorem mandelbrotLoop_orbit (c : Vec2) (cap : Nat) :
    ∀ (fuel n : Nat), n + fuel = cap →
      (∀ k, k < n → lengthSquared (mandelbrotOrbit c k) ≤ 65536) →
      ∃ N, n ≤ N ∧ N ≤ cap ∧
        mandelbrotLoop c cap fuel ⟨mandelbrotOrbit c n, sqr (mandelbrotOrbit c n).x,
          sqr (mandelbrotOrbit c n).y, n⟩
          = ⟨mandelbrotOrbit c N, sqr (mandelbrotOrbit c N).x,
              sqr (mandelbrotOrbit c N).y, N⟩ ∧
        (∀ k, k < N → lengthSquared (mandelbrotOrbit c k) ≤ 65536) ∧
        (N < cap → 65536 < lengthSquared (mandelbrotOrbit c N)) := by
  intro fuel
  induction fuel with
  | zero =>
    intro n hn hk
    exact ⟨n, le_refl n, by omega, rfl, hk, fun h => absurd h (by omega)⟩
  | succ f ih =>
    intro n hn hk
    by_cases hc : lengthSquared (mandelbrotOrbit c n) ≤ 65536
    · have hcond : sqr (mandelbrotOrbit c n).x + sqr (mandelbrotOrbit c n).y ≤ 65536
          ∧ n < cap := ⟨hc, by omega⟩
      have hk' : ∀ k, k < n + 1 → lengthSquared (mandelbrotOrbit c k) ≤ 65536 := by
        intro k hkn
        rcases Nat.lt_succ_iff_lt_or_eq.mp hkn with h | h
        · exact hk k h
        · rw [h]; exact hc
      obtain ⟨N, h1, h2, h3, h4, h5⟩ := ih (n + 1) (by omega) hk'
      refine ⟨N, by omega, h2, ?_, h4, h5⟩
      rw [mandelbrotLoop, if_pos hcond, ← h3]
      have ex : sqr (mandelbrotOrbit c n).x - sqr (mandelbrotOrbit c n).y + c.x
          = (mandelbrotOrbit c (n + 1)).x := by
        simp only [mandelbrotOrbit, sqr]
      have ey : ((mandelbrotOrbit c n).x + (mandelbrotOrbit c n).x) * (mandelbrotOrbit c n).y
          + c.y = (mandelbrotOrbit c (n + 1)).y := by
        simp only [mandelbrotOrbit]
        ring
      simp only [ex, ey]
    · have hcond : ¬ (sqr (mandelbrotOrbit c n).x + sqr (mandelbrotOrbit c n).y ≤ 65536
          ∧ n < cap) := fun h => hc h.1
      refine ⟨n, le_refl n, by omega, ?_, hk, fun _ => lt_of_not_le hc⟩
      rw [mandelbrotLoop, if_neg hcond]

/-- The same for the loop of `computeJuliaPixel`, which is left as soon as the squared
magnitude is no longer below `100 * 100`. -/
theorem juliaLoop_orbit (c z0 : Vec2) (cap : Nat) :
    ∀ (fuel n : Nat), n + fuel = cap →
      (∀ k, k < n → lengthSquared (juliaOrbit c z0 k) < 10000) →
      ∃ N, n ≤ N ∧ N ≤ cap ∧
        juliaLoop c cap fuel ⟨juliaOrbit c z0 n, n⟩ = ⟨juliaOrbit c z0 N, N⟩ ∧
        (∀ k, k < N → lengthSquared (juliaOrbit c z0 k) < 10000) ∧
        (N < cap → 10000 ≤ lengthSquared (juliaOrbit c z0 N)) := by
  intro fuel
  induction fuel with
  | zero =>
    intro n hn hk
    exact ⟨n, le_refl n, by omega, rfl, hk, fun h => absurd h (by omega)⟩
  | succ f ih =>
    intro n hn hk
    by_cases hc : lengthSquared (juliaOrbit c z0 n) < 10000
    · have hcond : (juliaOrbit c z0 n).x * (juliaOrbit c z0 n).x
          + (juliaOrbit c z0 n).y * (juliaOrbit c z0 n).y < 100 * 100 ∧ n < cap := by
        refine ⟨?_, by omega⟩
        have : lengthSquared (juliaOrbit c z0 n)
            = (juliaOrbit c z0 n).x * (juliaOrbit c z0 n).x
              + (juliaOrbit c z0 n).y * (juliaOrbit c z0 n).y := rfl
        rw [← this]
        norm_num
        exact hc
      have hk' : ∀ k, k < n + 1 → lengthSquared (juliaOrbit c z0 k) < 10000 := by
        intro k hkn
        rcases Nat.lt_succ_iff_lt_or_eq.mp hkn with h | h
        · exact hk k h
        · rw [h]; exact hc
      obtain ⟨N, h1, h2, h3, h4, h5⟩ := ih (n + 1) (by omega) hk'
      refine ⟨N, by omega, h2, ?_, h4, h5⟩
      rw [juliaLoop, if_pos hcond, ← h3]
      rfl
    · have hcond : ¬ ((juliaOrbit c z0 n).x * (juliaOrbit c z0 n).x
          + (juliaOrbit c z0 n).y * (juliaOrbit c z0 n).y < 100 * 100 ∧ n < cap) := by
        intro h
        apply hc
        have h1 := h.1
        norm_num at h1
        exact h1
      refine ⟨n, le_refl n, by omega, ?_, hk, fun _ => not_lt.mp hc⟩
      rw [juliaLoop, if_neg hcond]

end FractalExplorer

namespace FractalExplorer

theorem mandelbrot_initial (c : Vec2) :
    (⟨⟨0, 0⟩, 0, 0, 0⟩ : MandelbrotVars)
      = ⟨mandelbrotOrbit c 0, sqr (mandelbrotOrbit c 0).x, sqr (mandelbrotOrbit c 0).y, 0⟩ := by
  simp [mandelbrotOrbit, sqr]

/-- While the bound is not exceeded and the cap not reached, `fuel` passes of the loop
of `computeMandlebrotPixel` advance the plain recurrence by `fuel` steps. -/
theorem mandelbrotLoop_passes (c : Vec2) (cap : Nat) :
    ∀ (fuel n : Nat), n + fuel ≤ cap →
      (∀ k, k < n + fuel → lengthSquared (mandelbrotOrbit c k) ≤ 65536) →
      mandelbrotLoop c cap fuel ⟨mandelbrotOrbit c n, sqr (mandelbrotOrbit c n).x,
          sqr (mandelbrotOrbit c n).y, n⟩
        = ⟨mandelbrotOrbit c (n + fuel), sqr (mandelbrotOrbit c (n + fuel)).x,
            sqr (mandelbrotOrbit c (n + fuel)).y, n + fuel⟩ := by
  intro fuel
  induction fuel with
  | zero =>
    intro n _ _
    rfl
  | succ f ih =>
    intro n hn hk
    have hcond : sqr (mandelbrotOrbit c n).x + sqr (mandelbrotOrbit c n).y ≤ 65536
        ∧ n < cap := ⟨hk n (by omega), by omega⟩
    have e : n + (f + 1) = n + 1 + f := by omega
    rw [mandelbrotLoop, if_pos hcond, e, ← ih (n + 1) (by omega) (fun k h => hk k (by omega))]
    have ex : sqr (mandelbrotOrbit c n).x - sqr (mandelbrotOrbit c n).y + c.x
        = (mandelbrotOrbit c (n + 1)).x := by
      simp only [mandelbrotOrbit, sqr]
    have ey : ((mandelbrotOrbit c n).x + (mandelbrotOrbit c n).x) * (mandelbrotOrbit c n).y
        + c.y = (mandelbrotOrbit c (n + 1)).y := by
      simp only [mandelbrotOrbit]
      ring
    simp only [ex, ey]

/-! ## The palette of `main.cpp` -/

/-- For a hue in `[0, 1)`, a saturation in `[0, 1]` and a value of at least `1 / 5`,
`HSVtoRGB` returns a colour without negative channel, one channel of which is the
value. -/
theorem HSVtoRGB_bright (junk : Color) (h s v : ℚ) (h0 : 0 ≤ h) (h1 : h < 1)
    (s0 : 0 ≤ s) (s1 : s ≤ 1) (hv : 1 / 5 ≤ v) : Bright (HSVtoRGB junk ⟨h, s, v⟩) := by
  have hi0 : 0 ≤ Rat.floor (h * 6) := Rat.le_floor.mpr (by push_cast; linarith)
  have hfl := floor_le (h * 6)
  have hfu := lt_floor_add_one (h * 6)
  have hi5 : Rat.floor (h * 6) < 6 := by
    have : ((Rat.floor (h * 6) : Int) : ℚ) < ((6 : Int) : ℚ) := by push_cast; linarith
    exact_mod_cast this
  have hmod : Int.tmod (Rat.floor (h * 6)) 6 = Rat.floor (h * 6) :=
    Int.tmod_eq_of_lt hi0 hi5
  have f0 : 0 ≤ h * 6 - ((Rat.floor (h * 6) : Int) : ℚ) := by linarith
  have f1 : h * 6 - ((Rat.floor (h * 6) : Int) : ℚ) ≤ 1 := by linarith
  have v0 : 0 ≤ v := by linarith
  have hp : 0 ≤ v * (1 - s) := mul_nonneg v0 (by linarith)
  unfold HSVtoRGB Bright
  simp only [hmod]
  generalize h * 6 - ((Rat.floor (h * 6) : Int) : ℚ) = f at f0 f1
  have hq : 0 ≤ v * (1 - f * s) := mul_nonneg v0 (by nlinarith)
  have ht : 0 ≤ v * (1 - (1 - f) * s) := mul_nonneg v0 (by nlinarith)
  generalize Rat.floor (h * 6) = i at hi0 hi5
  interval_cases i
  · simp only [if_true]
    exact ⟨v0, ht, hp, Or.inl hv⟩
  · rw [if_neg (by decide), if_pos rfl]
    exact ⟨hq, v0, hp, Or.inr (Or.inl hv)⟩
  · rw [if_neg (by decide), if_neg (by decide), if_pos rfl]
    exact ⟨hp, v0, ht, Or.inr (Or.inl hv)⟩
  · rw [if_neg (by decide), if_neg (by decide), if_neg (by decide), if_pos rfl]
    exact ⟨hp, hq, v0, Or.inr (Or.inr hv)⟩
  · rw [if_neg (by decide), if_neg (by decide), if_neg (by decide), if_neg (by decide),
      if_pos rfl]
    exact ⟨ht, hp, v0, Or.inr (Or.inr hv)⟩
  · rw [if_neg (by decide), if_neg (by decide), if_neg (by decide), if_neg (by decide),
      if_neg (by decide), if_pos rfl]
    exact ⟨v0, hp, hq, Or.inl hv⟩

/-- A pass of the loop of `generatePalette` does not call `exit` and keeps the
variables in their ranges. -/
theorem paletteStep_inv (st : PaletteVars) (h : PaletteInv st) :
    ∃ s1, paletteStep st = some s1 ∧ PaletteInv s1 := by
  obtain ⟨t0, t1, a0, a1, v0, v1, hinc⟩ := h
  unfold paletteStep
  rcases hinc with hi | hi | hi
  · simp only [hi, if_true, Option.map_some']
    have hs : ¬ st.saturation ≤ 1 / 2 := not_le.mpr a0
    have ht : ¬ st.theta ≥ 1 := not_le.mpr t1
    simp only [if_neg hs, if_neg ht]
    by_cases hv : st.value + 1 / 10 ≥ 1
    · simp only [if_pos hv]
      exact ⟨_, rfl, t0, t1, a0, a1, by norm_num, le_refl _, Or.inr (Or.inl rfl)⟩
    · simp only [if_neg hv]
      refine ⟨_, rfl, t0, t1, a0, a1, ?_, ?_, Or.inl rfl⟩
      · show 1 / 5 ≤ st.value + 1 / 10
        linarith
      · show st.value + 1 / 10 ≤ 1
        exact le_of_lt (not_le.mp hv)
  · have h10 : ¬ ((1 : Int) = 0) := by decide
    simp only [hi, h10, if_false, if_true, Option.map_some']
    have ht : ¬ st.theta ≥ 1 := not_le.mpr t1
    by_cases hs : st.saturation - 1 / 10 ≤ 1 / 2
    · simp only [if_pos hs]
      exact ⟨_, rfl, t0, t1, by norm_num, le_refl _, v0, v1, Or.inr (Or.inr rfl)⟩
    · simp only [if_neg hs, if_neg ht]
      by_cases hv : st.value ≥ 1
      · simp only [if_pos hv]
        refine ⟨_, rfl, t0, t1, ?_, ?_, by norm_num, le_refl _, Or.inr (Or.inl rfl)⟩
        · show 1 / 2 < st.saturation - 1 / 10
          exact not_le.mp hs
        · show st.saturation - 1 / 10 ≤ 1
          linarith
      · simp only [if_neg hv]
        refine ⟨_, rfl, t0, t1, ?_, ?_, v0, v1, Or.inr (Or.inl rfl)⟩
        · show 1 / 2 < st.saturation - 1 / 10
          exact not_le.mp hs
        · show st.saturation - 1 / 10 ≤ 1
          linarith
  · have h20 : ¬ ((2 : Int) = 0) := by decide
    have h21 : ¬ ((2 : Int) = 1) := by decide
    simp only [hi, h20, h21, if_false, if_true, Option.map_some']
    have hs : ¬ st.saturation ≤ 1 / 2 := not_le.mpr a0
    simp only [if_neg hs]
    by_cases ht : st.theta + 1 / 10 ≥ 1
    · simp only [if_pos ht]
      exact ⟨_, rfl, le_refl _, by norm_num, a0, a1, le_refl _, by norm_num, Or.inl rfl⟩
    · have hv : ¬ ((1 : ℚ) / 5 ≥ 1) := by norm_num
      simp only [if_neg ht, if_neg hv]
      refine ⟨_, rfl, ?_, ?_, a0, a1, le_refl _, by norm_num, Or.inl rfl⟩
      · show 0 ≤ st.theta + 1 / 10
        linarith
      · show st.theta + 1 / 10 < 1
        exact not_le.mp ht

/-- The loop of `generatePalette` ends without a call of `exit`, appends one entry per
pass, and every entry it appends is bright. -/
theorem generatePaletteLoop_bright (junk : Color) :
    ∀ (n : Nat) (st : PaletteVars) (pal : List Color), PaletteInv st →
      (∀ c ∈ pal, Bright c) →
      ∃ out, generatePaletteLoop junk n st pal = some out ∧
        out.length = pal.length + n ∧ ∀ c ∈ out, Bright c := by
  intro n
  induction n with
  | zero =>
    intro st pal _ hpal
    exact ⟨pal, rfl, rfl, hpal⟩
  | succ k ih =>
    intro st pal hinv hpal
    obtain ⟨s1, hs1, hinv1⟩ := paletteStep_inv st hinv
    obtain ⟨t0, t1, a0, a1, v0, _, _⟩ := id hinv1
    have hb : Bright (HSVtoRGB junk ⟨s1.theta, s1.saturation, s1.value⟩) :=
      HSVtoRGB_bright junk _ _ _ t0 t1 (by linarith) a1 v0
    obtain ⟨out, ho, hl, hbr⟩ := ih s1
      (pal ++ [HSVtoRGB junk ⟨s1.theta, s1.saturation, s1.value⟩]) hinv1 (by
        intro c hc
        rcases List.mem_append.mp hc with h | h
        · exact hpal c h
        · rw [List.mem_singleton.mp h]
          exact hb)
    refine ⟨out, ?_, ?_, hbr⟩
    · rw [generatePaletteLoop, hs1]
      exact ho
    · rw [hl, List.length_append, List.length_singleton]
      omega

/-- Function `generatePalette` returns, with 200 entries, all of them bright. -/
theorem generatePalette_bright (junk : Color) :
    ∃ pal, generatePalette junk = some pal ∧ pal.length = 200 ∧ ∀ c ∈ pal, Bright c := by
  obtain ⟨out, ho, hl, hbr⟩ := generatePaletteLoop_bright junk palette_size
    ⟨3 / 5, 1 / 5, 1, 0⟩ []
    ⟨by norm_num, by norm_num, by norm_num, le_refl _, le_refl _, by norm_num, Or.inl rfl⟩
    (fun c hc => absurd hc (List.not_mem_nil c))
  exact ⟨out, ho, by rw [hl]; rfl, hbr⟩

/-- With a palette of 200 bright entries, no blend of the evaluators is
`{0, 0, 0}`. -/
theorem smoothColor_not_black (pal : List Color) (nu : ℚ → ℚ) (hl : pal.length = 200)
    (hb : ∀ c ∈ pal, Bright c) (n : Nat) (q : ℚ) :
    smoothColor (paletteShading pal nu) n q ≠ ⟨0, 0, 0⟩ := by
  have hentry : ∀ i : Nat, Bright (getPaletteColor (paletteShading pal nu) i) := by
    intro i
    have hi : i % palette_size < pal.length := by
      rw [hl]
      exact Nat.mod_lt _ (by decide)
    have e : getPaletteColor (paletteShading pal nu) i = pal[i % palette_size] := by
      simp only [getPaletteColor, paletteShading, List.getD_eq_getElem?_getD,
        List.getElem?_eq_getElem hi, Option.getD_some]
    rw [e]
    exact hb _ (List.getElem_mem hi)
  intro hblack
  unfold smoothColor at hblack
  simp only [Color.mk.injEq] at hblack
  obtain ⟨hr, hg, hbl⟩ := hblack
  generalize (n : ℚ) + 1 - (paletteShading pal nu).nu q = k at hr hg hbl
  have f0 : 0 ≤ k - ((Rat.floor k : Int) : ℚ) := by linarith [floor_le k]
  have f1 : k - ((Rat.floor k : Int) : ℚ) < 1 := by linarith [lt_floor_add_one k]
  obtain ⟨a1, a2, a3, _⟩ := hentry (toU32 (((Rat.floor k : Int) : ℚ) + 1))
  obtain ⟨b1, b2, b3, hbig⟩ := hentry (toU32 ((Rat.floor k : Int) : ℚ))
  generalize getPaletteColor (paletteShading pal nu) (toU32 (((Rat.floor k : Int) : ℚ) + 1))
    = c1 at hr hg hbl a1 a2 a3
  generalize getPaletteColor (paletteShading pal nu) (toU32 ((Rat.floor k : Int) : ℚ))
    = c2 at hr hg hbl b1 b2 b3 hbig
  generalize k - ((Rat.floor k : Int) : ℚ) = f at hr hg hbl f0 f1
  rcases hbig with h | h | h
  · nlinarith [mul_nonneg f0 a1]
  · nlinarith [mul_nonneg f0 a2]
  · nlinarith [mul_nonneg f0 a3]

/-- C24: let `c` be the point `screenToFractal` maps pixel `(px, py)` to, and
`z_0 = 0`, `z_{n+1} = z_n^2 + c` the plain recurrence.  After `n` passes of the loop of
`computeMandlebrotPixel`, for every `n` up to the final count, `v = z_n`, `x2` and `y2`
are the squares of its parts (so `x2 + y2 = |z_n|^2`) and `iteration = n`.  The final
count is the least `n ≤ max_iterations` with `|z_n|^2 > 2^16`, or `max_iterations` if
there is none.  The evaluator returns the interior colour `{0, 0, 0}` when the count
equals `max_iterations` and the blend of two palette entries otherwise.
`generatePalette` returns with 200 entries, and with the palette it leaves the pixel
gets the interior colour exactly when the count equals `max_iterations`, whatever the
smoothing term is. -/
theorem mandelbrot_refines_recurrence (sh : Shading) (s : FractalExplorer) (px py : Int) :
    (∀ n, n ≤ (s.mandelbrotEscape px py).iteration →
      mandelbrotLoop (s.screenToFractal ⟨(px : ℚ), (py : ℚ)⟩) s.max_iterations n
          ⟨⟨0, 0⟩, 0, 0, 0⟩
        = ⟨mandelbrotOrbit (s.screenToFractal ⟨(px : ℚ), (py : ℚ)⟩) n,
           sqr (mandelbrotOrbit (s.screenToFractal ⟨(px : ℚ), (py : ℚ)⟩) n).x,
           sqr (mandelbrotOrbit (s.screenToFractal ⟨(px : ℚ), (py : ℚ)⟩) n).y, n⟩) ∧
    (s.mandelbrotEscape px py).x2 + (s.mandelbrotEscape px py).y2
      = lengthSquared (mandelbrotOrbit (s.screenToFractal ⟨(px : ℚ), (py : ℚ)⟩)
          (s.mandelbrotEscape px py).iteration) ∧
    IsLeastStop (fun n => 65536
        < lengthSquared (mandelbrotOrbit (s.screenToFractal ⟨(px : ℚ), (py : ℚ)⟩) n))
      s.max_iterations (s.mandelbrotEscape px py).iteration ∧
    s.computeMandlebrotPixel sh px py
      = (if (s.mandelbrotEscape px py).iteration = s.max_iterations then ⟨0, 0, 0⟩
         else smoothColor sh (s.mandelbrotEscape px py).iteration
          (lengthSquared (mandelbrotOrbit (s.screenToFractal ⟨(px : ℚ), (py : ℚ)⟩)
            (s.mandelbrotEscape px py).iteration))) ∧
    (∀ (junk : Color) (nu : ℚ → ℚ),
      ∃ pal, generatePalette junk = some pal ∧ pal.length = 200 ∧
        (s.computeMandlebrotPixel (paletteShading pal nu) px py = ⟨0, 0, 0⟩
          ↔ (s.mandelbrotEscape px py).iteration = s.max_iterations)) := by
  obtain ⟨N, _, hN, hrun, hbefore, hstop⟩ :=
    mandelbrotLoop_orbit (s.screenToFractal ⟨(px : ℚ), (py : ℚ)⟩) s.max_iterations
      s.max_iterations 0 (by omega) (fun k hk => absurd hk (by omega))
  rw [← mandelbrot_initial] at hrun
  have hesc : s.mandelbrotEscape px py
      = ⟨mandelbrotOrbit (s.screenToFractal ⟨(px : ℚ), (py : ℚ)⟩) N,
         sqr (mandelbrotOrbit (s.screenToFractal ⟨(px : ℚ), (py : ℚ)⟩) N).x,
         sqr (mandelbrotOrbit (s.screenToFractal ⟨(px : ℚ), (py : ℚ)⟩) N).y, N⟩ := hrun
  have hcol : ∀ sh1 : Shading, s.computeMandlebrotPixel sh1 px py
      = (if (s.mandelbrotEscape px py).iteration = s.max_iterations then ⟨0, 0, 0⟩
         else smoothColor sh1 (s.mandelbrotEscape px py).iteration
          (lengthSquared (mandelbrotOrbit (s.screenToFractal ⟨(px : ℚ), (py : ℚ)⟩)
            (s.mandelbrotEscape px py).iteration))) := by
    intro sh1
    unfold computeMandlebrotPixel
    simp only [hesc]
    by_cases hlt : N < s.max_iterations
    · rw [if_pos hlt, if_neg (by omega)]
      rfl
    · rw [if_neg hlt, if_pos (by omega)]
  refine ⟨?_, ?_, ?_, hcol sh, ?_⟩
  · intro n hn
    rw [hesc] at hn
    have := mandelbrotLoop_passes (s.screenToFractal ⟨(px : ℚ), (py : ℚ)⟩) s.max_iterations
      n 0 (by simp only [Nat.zero_add]; exact le_trans hn hN)
      (fun k hk => hbefore k (by simp only [Nat.zero_add] at hk; exact lt_of_lt_of_le hk hn))
    rw [← mandelbrot_initial, Nat.zero_add] at this
    exact this
  · rw [hesc]
    rfl
  · rw [hesc]
    exact isLeastStop_of _ _ _ hN (fun k hk => not_lt.mpr (hbefore k hk)) hstop
  · intro junk nu
    obtain ⟨pal, hgen, hlen, hbright⟩ := generatePalette_bright junk
    refine ⟨pal, hgen, hlen, ?_⟩
    rw [hcol]
    constructor
    · intro h
      by_contra hne
      rw [if_neg hne] at h
      exact smoothColor_not_black pal nu hlen hbright _ _ h
    · intro h
      rw [if_pos h]

end FractalExplorer

namespace FractalExplorer

/-- While the squared magnitude is below `100 * 100` and the cap not reached, `fuel`
passes of the loop of `computeJuliaPixel` advance the plain recurrence by `fuel`
steps. -/
theorem juliaLoop_passes (c z0 : Vec2) (cap : Nat) :
    ∀ (fuel n : Nat), n + fuel ≤ cap →
      (∀ k, k < n + fuel → lengthSquared (juliaOrbit c z0 k) < 10000) →
      juliaLoop c cap fuel ⟨juliaOrbit c z0 n, n⟩
        = ⟨juliaOrbit c z0 (n + fuel), n + fuel⟩ := by
  intro fuel
  induction fuel with
  | zero =>
    intro n _ _
    rfl
  | succ f ih =>
    intro n hn hk
    have hcond : (juliaOrbit c z0 n).x * (juliaOrbit c z0 n).x
        + (juliaOrbit c z0 n).y * (juliaOrbit c z0 n).y < 100 * 100 ∧ n < cap := by
      refine ⟨?_, by omega⟩
      have h := hk n (by omega)
      simp only [lengthSquared, sqr] at h
      norm_num
      exact h
    have e : n + (f + 1) = n + 1 + f := by omega
    rw [juliaLoop, if_pos hcond, e, ← ih (n + 1) (by omega) (fun k h => hk k (by omega))]
    rfl

theorem sampleJulia_pixel :
    sampleJulia.screenToFractal ⟨((3 : Int) : ℚ), ((2 : Int) : ℚ)⟩ = ⟨100, 0⟩ := by
  simp only [screenToFractal, sampleJulia]
  norm_num

theorem sampleJulia_escape : sampleJulia.juliaEscape 3 2 = ⟨⟨100, 0⟩, 0⟩ := by
  unfold juliaEscape
  simp only [sampleJulia_pixel]
  have hm : sampleJulia.max_iterations = 999 + 1 := rfl
  rw [hm, juliaLoop_succ, if_neg]
  norm_num

/-- C25 as stated fails: on the 4 x 4 Julia sample with `c = 0`, pixel `(3, 2)` maps to
`z_0 = (100, 0)` with `|z_0|^2 = 10000`, which does not exceed the threshold, and
`|z_1|^2` does; the loop is left at once with count 0, which is not the least `n` with
`|z_n|^2 > 10000`. -/
theorem julia_count_not_least_exceeding :
    sampleJulia.screenToFractal ⟨((3 : Int) : ℚ), ((2 : Int) : ℚ)⟩ = ⟨100, 0⟩ ∧
    (sampleJulia.juliaEscape 3 2).iteration = 0 ∧
    ¬ IsLeastStop (fun n => 10000 < lengthSquared (juliaOrbit sampleJulia.c
          (sampleJulia.screenToFractal ⟨((3 : Int) : ℚ), ((2 : Int) : ℚ)⟩) n))
        sampleJulia.max_iterations (sampleJulia.juliaEscape 3 2).iteration := by
  refine ⟨sampleJulia_pixel, by rw [sampleJulia_escape], ?_⟩
  rw [sampleJulia_escape, sampleJulia_pixel]
  intro h
  have hc : sampleJulia.c = ⟨0, 0⟩ := rfl
  have h1 := h.1 1 (by decide) (by
    simp only [juliaOrbit, lengthSquared, sqr, hc]
    norm_num) (by
    intro k hk
    have : k = 0 := by omega
    rw [this]
    simp only [juliaOrbit, lengthSquared, sqr]
    norm_num)
  exact absurd h1 (by decide)

/-- C25, amended: let `z_0` be the point `screenToFractal` maps pixel `(px, py)` to and
`z_{n+1} = z_n^2 + c` with `c` the constant given to the constructor.  After `n` passes
of the loop of `computeJuliaPixel`, for every `n` up to the final count, `z = z_n` and
`iteration = n`.  The loop stops before the cap only when the squared magnitude has
reached `100^2`: the final count is the least `n ≤ max_iterations` with
`|z_n|^2 ≥ 10000`, or `max_iterations` if there is none. -/
theorem julia_count_least_reaching (m : Indet) (c : Vec2) (size : Vec2i)
    (s : FractalExplorer) (px py : Int) :
    (initializeExplorer m PixelKind.julia c size).explorer.c = c ∧
    (initializeExplorer m PixelKind.julia c size).explorer.computePixel = PixelKind.julia ∧
    (∀ n, n ≤ (s.juliaEscape px py).iteration →
      juliaLoop s.c s.max_iterations n ⟨s.screenToFractal ⟨(px : ℚ), (py : ℚ)⟩, 0⟩
        = ⟨juliaOrbit s.c (s.screenToFractal ⟨(px : ℚ), (py : ℚ)⟩) n, n⟩) ∧
    (s.juliaEscape px py).z
      = juliaOrbit s.c (s.screenToFractal ⟨(px : ℚ), (py : ℚ)⟩)
          (s.juliaEscape px py).iteration ∧
    IsLeastStop (fun n => 10000
        ≤ lengthSquared (juliaOrbit s.c (s.screenToFractal ⟨(px : ℚ), (py : ℚ)⟩) n))
      s.max_iterations (s.juliaEscape px py).iteration := by
  obtain ⟨N, _, hN, hrun, hbefore, hstop⟩ :=
    juliaLoop_orbit s.c (s.screenToFractal ⟨(px : ℚ), (py : ℚ)⟩) s.max_iterations
      s.max_iterations 0 (by omega) (fun k hk => absurd hk (by omega))
  have hesc : s.juliaEscape px py
      = ⟨juliaOrbit s.c (s.screenToFractal ⟨(px : ℚ), (py : ℚ)⟩) N, N⟩ := hrun
  refine ⟨rfl, rfl, ?_, ?_, ?_⟩
  · intro n hn
    rw [hesc] at hn
    have := juliaLoop_passes s.c (s.screenToFractal ⟨(px : ℚ), (py : ℚ)⟩) s.max_iterations
      n 0 (by simp only [Nat.zero_add]; exact le_trans hn hN)
      (fun k hk => hbefore k (by simp only [Nat.zero_add] at hk; exact lt_of_lt_of_le hk hn))
    rw [Nat.zero_add] at this
    exact this
  · rw [hesc]
  · rw [hesc]
    exact isLeastStop_of _ _ _ hN (fun k hk => not_le.mpr (hbefore k hk)) hstop

end FractalExplorer

namespace FractalExplorer

/-! ## Frame of `doWorkUnit` -/

/-- With `stop_drawing` set, the copy loops of `doWorkUnit` write nothing. -/
theorem doWorkUnit_stopped (m : Indet) (sh : Shading) (w : WorkUnit) (s : FractalExplorer)
    (hstop : s.stop_drawing = true) : (doWorkUnit m sh w s).canvas = s.canvas := by
  unfold doWorkUnit
  simp only [hstop, if_true]
  exact forRange_inv (fun cv => cv = s.canvas) _ _ _ rfl (fun _ _ h => h)

/-- C23: let the canvas be well formed and the tile lie inside it.  Every index at
which `doWorkUnit` writes the canvas or reads its work buffer is inside the respective
cell array.  With `stop_drawing` false, `doWorkUnit` sets every pixel `(x, y)` of the
tile to `getColorHex(computePixel(x, y))` and leaves every pixel outside the tile, and
the extent of the canvas, unchanged.  With `stop_drawing` true on entry the canvas is
left unchanged. -/
theorem doWorkUnit_frame_effect (m : Indet) (sh : Shading) (w : WorkUnit)
    (s : FractalExplorer) (hwf : WellFormed s.canvas)
    (hin : TileInside w s.canvas.width s.canvas.height) :
    (∀ x y : Int, 0 ≤ x → x < w.max_x - w.min_x → 0 ≤ y → y < w.max_y - w.min_y →
      0 ≤ x + w.min_x + (y + w.min_y) * s.canvas.width ∧
      (x + w.min_x + (y + w.min_y) * s.canvas.width).toNat < s.canvas.data.length ∧
      0 ≤ y * (w.max_x - w.min_x) + x ∧
      (y * (w.max_x - w.min_x) + x).toNat
        < (Buffer.initBuffer m (w.max_x - w.min_x) (w.max_y - w.min_y)).data.length) ∧
    (s.stop_drawing = false →
      (∀ x y : Int, w.min_x ≤ x → x < w.max_x → w.min_y ≤ y → y < w.max_y →
        (doWorkUnit m sh w s).canvas.pixel x y
          = some (getColorHex (s.computePixelAt sh x y))) ∧
      (∀ x y : Int, w.contains x y = false →
        (doWorkUnit m sh w s).canvas.pixel x y = s.canvas.pixel x y) ∧
      (doWorkUnit m sh w s).canvas.width = s.canvas.width ∧
      (doWorkUnit m sh w s).canvas.height = s.canvas.height) ∧
    (s.stop_drawing = true → (doWorkUnit m sh w s).canvas = s.canvas) := by
  obtain ⟨a, b, c, d, e, f⟩ := id hin
  obtain ⟨hw0, hh0, hlen⟩ := id hwf
  refine ⟨?_, ?_, doWorkUnit_stopped m sh w s⟩
  · intro x y hx0 hx hy0 hy
    have h1 := cell_index_lt s.canvas.width s.canvas.height (x + w.min_x) (y + w.min_y)
      (by omega) (by omega) (by omega) (by omega)
    have h2 := cell_index_lt (w.max_x - w.min_x) (w.max_y - w.min_y) x y hx0 hx hy0 hy
    have e1 : x + w.min_x + (y + w.min_y) * s.canvas.width
        = (y + w.min_y) * s.canvas.width + (x + w.min_x) := by ring
    rw [e1, hlen]
    refine ⟨h1.1, by omega, h2.1, ?_⟩
    simp only [Buffer.initBuffer, List.length_map, List.length_range]
    omega
  · intro hstop
    obtain ⟨_, _, _, _, _, _, fw, fh, fl⟩ := doWorkUnit_frame m sh w s hstop b e
    have cellOf : ∀ x y : Int, 0 ≤ x → x < s.canvas.width → 0 ≤ y → y < s.canvas.height →
        (doWorkUnit m sh w s).canvas.pixel x y
          = some (if w.contains x y = true then getColorHex (s.computePixelAt sh x y)
              else s.canvas.data.getD (y * s.canvas.width + x).toNat 0) := by
      intro x y hx0 hx hy0 hy
      have hi := cell_index_lt s.canvas.width s.canvas.height x y hx0 hx hy0 hy
      rw [pixel_eq_getD (doWorkUnit m sh w s).canvas (by rw [fl, fw, fh]; exact hlen) x y
        (by omega) (by rw [fw]; exact hx) hy0 (by rw [fh]; exact hy), fw,
        doWorkUnit_cell m sh w s hstop hwf hin _ (by rw [hlen]; omega),
        Int.toNat_of_nonneg hi.1]
      have hdm := divmod_cell s.canvas.width x y hx0 hx
      rw [add_comm] at hdm
      rw [hdm.1, hdm.2]
    refine ⟨?_, ?_, fw, fh⟩
    · intro x y k1 k2 k3 k4
      rw [cellOf x y (by omega) (by omega) (by omega) (by omega),
        if_pos ((contains_iff w x y).mpr ⟨k1, k2, k3, k4⟩)]
    · intro x y hc
      by_cases hxy : 0 ≤ x ∧ x < s.canvas.width ∧ 0 ≤ y ∧ y < s.canvas.height
      · obtain ⟨hx0, hx, hy0, hy⟩ := hxy
        rw [cellOf x y hx0 hx hy0 hy, if_neg (by rw [hc]; decide),
          pixel_eq_getD s.canvas hlen x y hx0 hx hy0 hy]
      · have h1 : s.canvas.pixel x y = none := by
          unfold Buffer.pixel
          rw [if_neg hxy]
        have h2 : (doWorkUnit m sh w s).canvas.pixel x y = none := by
          unfold Buffer.pixel
          rw [fw, fh, if_neg hxy]
        rw [h1, h2]

/-- C23 on the 3 x 2 sample and the tile `[1, 3) x [0, 1)`. -/
theorem doWorkUnit_frame_effect_witness :
    (∀ x y : Int, 0 ≤ x → x < 3 - 1 → 0 ≤ y → y < 1 - 0 →
      0 ≤ x + 1 + (y + 0) * sampleSmall.canvas.width ∧
      (x + 1 + (y + 0) * sampleSmall.canvas.width).toNat < sampleSmall.canvas.data.length ∧
      0 ≤ y * (3 - 1) + x ∧
      (y * (3 - 1) + x).toNat
        < (Buffer.initBuffer sampleIndet (3 - 1) (1 - 0)).data.length) ∧
    (sampleSmall.stop_drawing = false →
      (∀ x y : Int, 1 ≤ x → x < 3 → 0 ≤ y → y < 1 →
        (doWorkUnit sampleIndet sampleShading ⟨1, 3, 0, 1⟩ sampleSmall).canvas.pixel x y
          = some (getColorHex (sampleSmall.computePixelAt sampleShading x y))) ∧
      (∀ x y : Int, (⟨1, 3, 0, 1⟩ : WorkUnit).contains x y = false →
        (doWorkUnit sampleIndet sampleShading ⟨1, 3, 0, 1⟩ sampleSmall).canvas.pixel x y
          = sampleSmall.canvas.pixel x y) ∧
      (doWorkUnit sampleIndet sampleShading ⟨1, 3, 0, 1⟩ sampleSmall).canvas.width
        = sampleSmall.canvas.width ∧
      (doWorkUnit sampleIndet sampleShading ⟨1, 3, 0, 1⟩ sampleSmall).canvas.height
        = sampleSmall.canvas.height) ∧
    (sampleSmall.stop_drawing = true →
      (doWorkUnit sampleIndet sampleShading ⟨1, 3, 0, 1⟩ sampleSmall).canvas
        = sampleSmall.canvas) :=
  doWorkUnit_frame_effect sampleIndet sampleShading ⟨1, 3, 0, 1⟩ sampleSmall
    (by unfold WellFormed; decide) (by unfold TileInside; decide)

end FractalExplorer

namespace FractalExplorer

/-! ## Calls of the evaluator in `doWorkUnit` -/

/-- A loop on a pair whose body acts on each part separately is the pair of the two
loops. -/
theorem forRange_pair {α β : Type} (n : Int) (f : Int → α → α) (g : Int → β → β)
    (a : α) (b : β) :
    forRange n (fun i (st : α × β) => (f i st.1, g i st.2)) (a, b)
      = (forRange n f a, forRange n g b) := by
  rw [forRange_eq, forRange_eq, forRange_eq]
  generalize List.range n.toNat = l
  induction l generalizing a b with
  | nil => rfl
  | cons k t ih =>
    simp only [List.foldl_cons]
    exact ih _ _

/-- A loop that appends one entry per pass appends the entries in the order of the
passes. -/
theorem forRange_append {α : Type} (F : Int → α) (n : Nat) (init : List α) :
    forRange (n : Int) (fun i l => l ++ [F i]) init
      = init ++ (List.range n).map (fun (k : Nat) => F (k : Int)) := by
  induction n with
  | zero => simp [forRange_eq]
  | succ k ih =>
    have e : ((k + 1 : Nat) : Int) = (k : Int) + 1 := by push_cast; ring
    rw [e, forRange_succ, ih, List.range_succ, List.map_append, List.append_assoc]
    rfl

/-- The log of `doWorkUnitLogged` lists every pixel of the tile in row-major order, and
the state it returns is that of `doWorkUnit`. -/
theorem doWorkUnitLogged_eq (m : Indet) (sh : Shading) (w : WorkUnit) (s : FractalExplorer)
    (hx : w.min_x ≤ w.max_x) (hy : w.min_y ≤ w.max_y) :
    (doWorkUnitLogged m sh w s).1 = doWorkUnit m sh w s ∧
    (doWorkUnitLogged m sh w s).2
      = (List.range ((w.max_x - w.min_x) * (w.max_y - w.min_y)).toNat).map
          (fun (k : Nat) => ((k : Int) % (w.max_x - w.min_x) + w.min_x,
            (k : Int) / (w.max_x - w.min_x) + w.min_y)) := by
  have hin : ∀ (y : Int) (st : Buffer × List (Int × Int)),
      forRange (w.max_x - w.min_x) (fun x (st : Buffer × List (Int × Int)) =>
        (fillPixel st.1 x y (s.computePixelAt sh (x + w.min_x) (y + w.min_y)),
          st.2 ++ [(x + w.min_x, y + w.min_y)])) st
      = (forRange (w.max_x - w.min_x) (fun x wb =>
          fillPixel wb x y (s.computePixelAt sh (x + w.min_x) (y + w.min_y))) st.1,
         forRange (w.max_x - w.min_x) (fun x l => l ++ [(x + w.min_x, y + w.min_y)]) st.2) := by
    intro y st
    exact forRange_pair (w.max_x - w.min_x)
      (fun x wb => fillPixel wb x y (s.computePixelAt sh (x + w.min_x) (y + w.min_y)))
      (fun x l => l ++ [(x + w.min_x, y + w.min_y)]) st.1 st.2
  have hfilled : forRange (w.max_y - w.min_y) (fun y (st : Buffer × List (Int × Int)) =>
      forRange (w.max_x - w.min_x) (fun x (st : Buffer × List (Int × Int)) =>
        (fillPixel st.1 x y (s.computePixelAt sh (x + w.min_x) (y + w.min_y)),
          st.2 ++ [(x + w.min_x, y + w.min_y)])) st)
        (Buffer.initBuffer m (w.max_x - w.min_x) (w.max_y - w.min_y), [])
      = (forRange (w.max_y - w.min_y) (fun y wb => forRange (w.max_x - w.min_x) (fun x wb =>
          fillPixel wb x y (s.computePixelAt sh (x + w.min_x) (y + w.min_y))) wb)
          (Buffer.initBuffer m (w.max_x - w.min_x) (w.max_y - w.min_y)),
         forRange (w.max_y - w.min_y) (fun y l => forRange (w.max_x - w.min_x)
          (fun x l => l ++ [(x + w.min_x, y + w.min_y)]) l) []) := by
    simp only [hin]
    exact forRange_pair (w.max_y - w.min_y)
      (fun y wb => forRange (w.max_x - w.min_x) (fun x wb =>
          fillPixel wb x y (s.computePixelAt sh (x + w.min_x) (y + w.min_y))) wb)
      (fun y l => forRange (w.max_x - w.min_x)
          (fun x l => l ++ [(x + w.min_x, y + w.min_y)]) l) _ _
  constructor
  · unfold doWorkUnitLogged doWorkUnit
    simp only [hfilled]
  · unfold doWorkUnitLogged
    simp only [hfilled]
    have h0 : 0 ≤ (w.max_x - w.min_x) * (w.max_y - w.min_y) :=
      mul_nonneg (by omega) (by omega)
    rw [forRange_nested (w.max_x - w.min_x) (w.max_y - w.min_y) (by omega)
      (fun (x y : Int) (l : List (Int × Int)) => l ++ [(x + w.min_x, y + w.min_y)]) []]
    have e := forRange_append (fun i : Int => (i % (w.max_x - w.min_x) + w.min_x,
      i / (w.max_x - w.min_x) + w.min_y))
      ((w.max_x - w.min_x) * (w.max_y - w.min_y)).toNat []
    rw [Int.toNat_of_nonneg h0] at e
    rw [e, List.nil_append]

end FractalExplorer

namespace FractalExplorer

/-- C21 as stated fails: on the 60 x 2 sample with `stop_drawing` set, `doWorkUnit` on
the tile `[0, 50) x [0, 2)` calls the evaluator 100 times, which is more than the 50
pixels of one scanline. -/
theorem stopped_worker_evaluates_whole_tile :
    sampleStopped.stop_drawing = true ∧
    (doWorkUnitLogged sampleIndet sampleShading ⟨0, 50, 0, 2⟩ sampleStopped).2.length = 100 ∧
    ¬ ((doWorkUnitLogged sampleIndet sampleShading ⟨0, 50, 0, 2⟩ sampleStopped).2.length
        ≤ 50 - 0) := by
  have h := (doWorkUnitLogged_eq sampleIndet sampleShading ⟨0, 50, 0, 2⟩ sampleStopped
    (by decide) (by decide)).2
  rw [h, List.length_map, List.length_range]
  exact ⟨rfl, by decide, by decide⟩

/-- C21, amended: `doWorkUnit` tests `stop_drawing` only in the loops that copy the
evaluated tile into the canvas, not in the loops that evaluate it.  For a tile inside
the canvas and whatever `stop_drawing` is, it calls the evaluator once for every pixel
of the tile, `(max_x - min_x) * (max_y - min_y)` times, and for no other pixel; with
`stop_drawing` true on entry it then leaves the canvas unchanged. -/
theorem evaluator_called_for_every_pixel (m : Indet) (sh : Shading) (w : WorkUnit)
    (s : FractalExplorer) (hin : TileInside w s.canvas.width s.canvas.height) :
    (doWorkUnitLogged m sh w s).1 = doWorkUnit m sh w s ∧
    ((doWorkUnitLogged m sh w s).2.length : Int)
      = (w.max_x - w.min_x) * (w.max_y - w.min_y) ∧
    (∀ x y : Int, (x, y) ∈ (doWorkUnitLogged m sh w s).2 ↔ w.contains x y = true) ∧
    (doWorkUnitLogged m sh w s).2.Nodup ∧
    (s.stop_drawing = true → (doWorkUnit m sh w s).canvas = s.canvas) := by
  obtain ⟨a, b, c, d, e, f⟩ := id hin
  obtain ⟨h1, h2⟩ := doWorkUnitLogged_eq m sh w s b e
  have h0 : 0 ≤ (w.max_x - w.min_x) * (w.max_y - w.min_y) :=
    mul_nonneg (by omega) (by omega)
  refine ⟨h1, ?_, ?_, ?_, doWorkUnit_stopped m sh w s⟩
  · rw [h2, List.length_map, List.length_range, Int.toNat_of_nonneg h0]
  · intro x y
    rw [h2, List.mem_map, contains_iff]
    constructor
    · rintro ⟨k, hk, hxy⟩
      rw [List.mem_range] at hk
      obtain ⟨c1, c2, c3, c4⟩ := tile_cell_coords w _ _ hin (k : Int) (by omega) (by omega)
      simp only [Prod.mk.injEq] at hxy
      rw [← hxy.1, ← hxy.2]
      exact ⟨c1, c2, c3, c4⟩
    · rintro ⟨k1, k2, k3, k4⟩
      have hi := cell_index_lt (w.max_x - w.min_x) (w.max_y - w.min_y)
        (x - w.min_x) (y - w.min_y) (by omega) (by omega) (by omega) (by omega)
      have hdm := divmod_cell (w.max_x - w.min_x) (x - w.min_x) (y - w.min_y)
        (by omega) (by omega)
      rw [add_comm] at hdm
      refine ⟨((y - w.min_y) * (w.max_x - w.min_x) + (x - w.min_x)).toNat, ?_, ?_⟩
      · rw [List.mem_range]
        omega
      · rw [Int.toNat_of_nonneg hi.1, hdm.1, hdm.2]
        simp
  · rw [h2]
    apply List.Nodup.map_on _ (List.nodup_range _)
    intro i hi j hj hij
    simp only [Prod.mk.injEq] at hij
    have hdw : w.max_x - w.min_x ≠ 0 := by
      intro h
      rw [h, zero_mul] at hi
      simp at hi
    have ei := Int.emod_add_ediv (i : Int) (w.max_x - w.min_x)
    have ej := Int.emod_add_ediv (j : Int) (w.max_x - w.min_x)
    have e1 : (i : Int) % (w.max_x - w.min_x) = (j : Int) % (w.max_x - w.min_x) := by
      omega
    have e2 : (i : Int) / (w.max_x - w.min_x) = (j : Int) / (w.max_x - w.min_x) := by
      omega
    rw [e1, e2] at ei
    omega

/-- C21, amended, on the 60 x 2 sample with `stop_drawing` set and the tile
`[0, 50) x [0, 2)`. -/
theorem evaluator_called_for_every_pixel_witness :
    (doWorkUnitLogged sampleIndet sampleShading ⟨0, 50, 0, 2⟩ sampleStopped).1
      = doWorkUnit sampleIndet sampleShading ⟨0, 50, 0, 2⟩ sampleStopped ∧
    ((doWorkUnitLogged sampleIndet sampleShading ⟨0, 50, 0, 2⟩ sampleStopped).2.length : Int)
      = (50 - 0) * (2 - 0) ∧
    (∀ x y : Int, (x, y) ∈ (doWorkUnitLogged sampleIndet sampleShading ⟨0, 50, 0, 2⟩
        sampleStopped).2 ↔ (⟨0, 50, 0, 2⟩ : WorkUnit).contains x y = true) ∧
    (doWorkUnitLogged sampleIndet sampleShading ⟨0, 50, 0, 2⟩ sampleStopped).2.Nodup ∧
    (sampleStopped.stop_drawing = true →
      (doWorkUnit sampleIndet sampleShading ⟨0, 50, 0, 2⟩ sampleStopped).canvas
        = sampleStopped.canvas) :=
  evaluator_called_for_every_pixel sampleIndet sampleShading ⟨0, 50, 0, 2⟩ sampleStopped
    (by unfold TileInside; decide)

end FractalExplorer

namespace FractalExplorer

/-! ## Indices of the shift loop of `pan` -/

/-- C27 fails on the code: on the 3 x 2 sample and `delta = (1, 0)`, the shift loop of
`pan` computes for the source pixel `(2, 1)` the work index 6, which is the number of
cells of the work buffer and so one past its last cell: the clamp of `pan` has
`width * height` as its upper bound. -/
theorem pan_index_reaches_buffer_end :
    lengthSquared ⟨1, 0⟩ ≠ 0 ∧
    panWorkIndex ⟨1, 0⟩ sampleSmall.canvas.width sampleSmall.canvas.height 2 1 = 6 ∧
    (Buffer.initBuffer sampleIndet sampleSmall.canvas.width
      sampleSmall.canvas.height).data.length = 6 ∧
    ¬ (panWorkIndex ⟨1, 0⟩ sampleSmall.canvas.width sampleSmall.canvas.height 2 1
        < sampleSmall.canvas.width * sampleSmall.canvas.height) := by
  refine ⟨?_, by decide, by decide, by decide⟩
  norm_num [lengthSquared, sqr]

/-! ## Crop step of `zoomBufferInterpolate` -/

/-- C28 fails on the code: on the 3 x 2 sample with focus `(0, 0)` and zoom 2, the crop
step leaves pixel `(2, 0)` of the canvas as it was, with value 3, while the pixel of
the magnified buffer at `(2 + 0 - 0, 0 + 0 - 0)` is `0xff000002`: both loops of the
crop step run to the height of the canvas, so no column from `height` on is
rewritten. -/
theorem crop_skips_columns_beyond_height :
    (zoomBufferInterpolate sampleIndet sampleSmall.canvas 0 0 2).pixel 2 0
      = sampleSmall.canvas.pixel 2 0 ∧
    sampleSmall.canvas.pixel 2 0 = some 3 ∧
    interpolatePixel sampleIndet sampleSmall.canvas 2 (2 + 0 - 0) (0 + 0 - 0) = 4278190082 ∧
    (zoomBufferInterpolate sampleIndet sampleSmall.canvas 0 0 2).pixel 2 0
      ≠ some (interpolatePixel sampleIndet sampleSmall.canvas 2 (2 + 0 - 0) (0 + 0 - 0)) := by
  decide!

/-! ## Sign of the smoothed count -/

theorem sampleFar_pixel :
    sampleFar.screenToFractal ⟨((3 : Int) : ℚ), ((2 : Int) : ℚ)⟩ = ⟨65536, 0⟩ := by
  simp only [screenToFractal, sampleFar]
  norm_num

theorem sampleFar_escape :
    sampleFar.mandelbrotEscape 3 2 = ⟨⟨65536, 0⟩, 4294967296, 0, 1⟩ := by
  unfold mandelbrotEscape
  simp only [sampleFar_pixel]
  have hm : sampleFar.max_iterations = 998 + 1 + 1 := rfl
  rw [hm, mandelbrotLoop_succ, if_pos (by norm_num), mandelbrotLoop_succ, if_neg]
  · norm_num [sqr]
  · norm_num [sqr]

/-- C29 fails on the code: on the 4 x 4 sample zoomed out by 65536, pixel `(3, 2)` maps
to `c = (65536, 0)`; the loop is left after one pass with `|z|^2 = 2 ^ 32`, below the
cap of 1000, and with `log2(log2 |z|) = 4` the smoothed count is `1 + 1 - 4 = -2`,
whose floor is negative. -/
theorem smoothed_count_negative_when_zoomed_out :
    sampleFar.screenToFractal ⟨((3 : Int) : ℚ), ((2 : Int) : ℚ)⟩ = ⟨65536, 0⟩ ∧
    (sampleFar.mandelbrotEscape 3 2).iteration = 1 ∧
    (sampleFar.mandelbrotEscape 3 2).iteration < sampleFar.max_iterations ∧
    IsLogLog ((sampleFar.mandelbrotEscape 3 2).v.x * (sampleFar.mandelbrotEscape 3 2).v.x
      + (sampleFar.mandelbrotEscape 3 2).v.y * (sampleFar.mandelbrotEscape 3 2).v.y) 4 ∧
    sampleLogLog.nu ((sampleFar.mandelbrotEscape 3 2).v.x * (sampleFar.mandelbrotEscape 3 2).v.x
      + (sampleFar.mandelbrotEscape 3 2).v.y * (sampleFar.mandelbrotEscape 3 2).v.y) = 4 ∧
    mandelbrotSmoothed sampleLogLog sampleFar 3 2 = -2 ∧
    Rat.floor (mandelbrotSmoothed sampleLogLog sampleFar 3 2) < 0 := by
  have hk : mandelbrotSmoothed sampleLogLog sampleFar 3 2 = -2 := by
    unfold mandelbrotSmoothed
    rw [sampleFar_escape]
    norm_num [sampleLogLog]
  refine ⟨sampleFar_pixel, ?_, ?_, ?_, ?_, hk, ?_⟩
  · rw [sampleFar_escape]
  · rw [sampleFar_escape]
    decide
  · rw [sampleFar_escape]
    unfold IsLogLog
    norm_num
  · rw [sampleFar_escape]
    norm_num [sampleLogLog]
  · rw [hk]
    decide

end FractalExplorer

namespace FractalExplorer

/-- C13 as stated fails: on the 4 x 4 sample zoomed out by 65536, pixel `(3, 2)` leaves
the loop after one pass, below the cap, with smoothed count `k = -2`.  The claimed
colour is the palette entry of index `-2` modulo 200, which is 198; the evaluator
converts `-2.0` to `u32`, which C++ leaves undefined and which gives `4294967294`, and
returns the palette entry of index 94. -/
theorem escaped_colour_not_blend_for_negative_count :
    (sampleFar.mandelbrotEscape 3 2).iteration < sampleFar.max_iterations ∧
    mandelbrotSmoothed sampleLogLog sampleFar 3 2 = -2 ∧
    sampleFar.computeMandlebrotPixel sampleLogLog 3 2 = sampleLogLog.palette 94 ∧
    convexBlend sampleLogLog (mandelbrotSmoothed sampleLogLog sampleFar 3 2)
      = sampleLogLog.palette 198 ∧
    sampleFar.computeMandlebrotPixel sampleLogLog 3 2
      ≠ convexBlend sampleLogLog (mandelbrotSmoothed sampleLogLog sampleFar 3 2) := by
  decide!

end FractalExplorer
